import Mathlib

/-!
# The WebSocket hub of `backend/pkg/websocket/websocket.go`

A shallow embedding of the connection hub (`Hub`, `Client`, the event loop `Hub.Run`,
the read-pump control frames, the write pump and the presence callbacks) together with
the connection handler of `backend/internal/websocket/handler.go`.  The rate limiter of
`backend/pkg/middleware/ratelimit.go` (namespace `Middleware`) and the token functions of
`backend/internal/auth/jwt.go` (namespace `Auth`) follow; the definitions of the three
parts come first, then their theorems.

Modelling conventions.

* A `*Client` is an address (`Ptr`); the `Client` objects live in `Hub.mem`.
* A Go channel of `[]byte` is a `Chan`: its buffered messages (oldest first), its
  capacity and whether it has been closed.  `close` of a closed channel and a send
  on a closed channel panic; both are results `Except.error` of the operations.
* `Hub.Clients` (a `map[*Client]bool` whose values are always `true`) is the list of
  its keys; `range h.Clients` visits them in list order.  Go leaves the order
  unspecified, and every theorem that quantifies over hub states covers every order.
* `Hub.UserClients` (a `map[string][]*Client`) is a finite map.
* `go f(x)` of a hub method is recorded in `Hub.spawned`; a call of the injected
  `StatusUpdater` / status service is recorded in `Hub.statusCalls`.
* Locks and logging have no effect on the sequential behaviour and are left out.
* A send on the unbuffered `Register` or `Unregister` channel only hands the client to
  the hub loop.  Where the sending goroutine, or one that it wakes, then reads the hub
  while the case body of the hub loop is still to run, both orders of taking the lock are
  modelled (`Schedule`).
-/

namespace Websocket

/-- Address of a `Client` object, the Go value `*Client`. -/
abbrev Ptr := Nat

/-- A `[]byte` message, one natural number below 256 per byte. -/
abbrev Bytes := List Nat

/-- The run-time faults of the channel operations used by the hub. -/
inductive Fault where
  | closeOfClosedChannel
  | sendOnClosedChannel
  | sendBlocked
  deriving DecidableEq, Repr

/-- A buffered Go channel of messages. -/
structure Chan where
  buf : List Bytes
  cap : Nat
  closed : Bool
  deriving DecidableEq, Repr

/-- The Go builtin `close(ch)`; closing a closed channel panics. -/
def Chan.close (c : Chan) : Except Fault Chan :=
  if c.closed then .error .closeOfClosedChannel else .ok { c with closed := true }

/-- The non-blocking send `select { case ch <- m: ...; default: ... }`:
`some` is the channel after the send, `none` the `default` branch (buffer full).
A send on a closed channel panics, also inside `select`. -/
def Chan.trySend (c : Chan) (m : Bytes) : Except Fault (Option Chan) :=
  if c.closed then .error .sendOnClosedChannel
  else if c.buf.length < c.cap then .ok (some { c with buf := c.buf ++ [m] })
  else .ok none

/-- The blocking send `ch <- m`; on a full buffer the sender does not proceed. -/
def Chan.send (c : Chan) (m : Bytes) : Except Fault Chan :=
  if c.closed then .error .sendOnClosedChannel
  else if c.buf.length < c.cap then .ok { c with buf := c.buf ++ [m] }
  else .error .sendBlocked

/-- The fields of `type Client struct`; `ConnClosed` records `Conn.Close()`,
`DoneClosed` records `close(Done)`, `LastPingTime` is in nanoseconds. -/
structure Client where
  ID : String
  UserID : String
  TabID : String
  ConnClosed : Bool
  Send : Chan
  IsActive : Bool
  DoneClosed : Bool
  LastPingTime : Int
  deriving DecidableEq, Repr

/-- A call of the `StatusUpdater` interface (`status_updater.go`). -/
inductive StatusCall where
  | SetUserOnline (userID : String)
  | SetUserOffline (userID : String)
  deriving DecidableEq, Repr

/-- A goroutine started with `go` that calls back into the hub. -/
inductive GoCall where
  | SetUserOnline (userID : String)
  | SetUserOffline (userID : String)
  deriving DecidableEq, Repr

/-- The hub (`type Hub struct`) together with the client objects it points to. -/
structure Hub where
  Clients : List Ptr
  UserClients : Finmap (fun _ : String => List Ptr)
  hasStatusUpdater : Bool
  heartbeatTimeout : Int
  mem : Ptr → Client
  spawned : List GoCall
  statusCalls : List StatusCall

/-- The result of `NewHub`: empty maps, no status updater, a timeout of 120 s. -/
def NewHub (mem : Ptr → Client) : Hub :=
  { Clients := []
    UserClients := ∅
    hasStatusUpdater := false
    heartbeatTimeout := 120 * 1000000000
    mem := mem
    spawned := []
    statusCalls := [] }

/-- The method `SetStatusUpdater`. -/
def Hub.SetStatusUpdater (h : Hub) : Hub := { h with hasStatusUpdater := true }

/-- Assignment to the fields of the client at `p`. -/
def Hub.setClient (h : Hub) (p : Ptr) (c : Client) : Hub :=
  { h with mem := Function.update h.mem p c }

/-- The statement `delete(h.Clients, p)`. -/
def Hub.deleteClient (h : Hub) (p : Ptr) : Hub :=
  { h with Clients := h.Clients.filter (fun q => decide (q ≠ p)) }

/-- The statement `h.Clients[p] = true`. -/
def Hub.addClient (h : Hub) (p : Ptr) : Hub :=
  { h with Clients := if p ∈ h.Clients then h.Clients else h.Clients ++ [p] }

/-- The value of `h.UserClients[userID]`, `nil` for an absent key. -/
def Hub.userClients (h : Hub) (userID : String) : List Ptr :=
  (h.UserClients.lookup userID).getD []

/-- The statement `close(client.Send)`. -/
def Hub.closeSend (h : Hub) (p : Ptr) : Except Fault Hub :=
  match (h.mem p).Send.close with
  | .error f => .error f
  | .ok s => .ok (h.setClient p { h.mem p with Send := s })

/-- The statement `close(client.Done)`. -/
def Hub.closeDone (h : Hub) (p : Ptr) : Except Fault Hub :=
  if (h.mem p).DoneClosed then .error .closeOfClosedChannel
  else .ok (h.setClient p { h.mem p with DoneClosed := true })

/-- The statement `client.Conn.Close()`; closing twice only returns an error value. -/
def Hub.connClose (h : Hub) (p : Ptr) : Hub :=
  h.setClient p { h.mem p with ConnClosed := true }

/-- The loop of the `Register` case over the user's existing clients. -/
def closeExisting : List Ptr → Hub → Except Fault Hub
  | [], h => .ok h
  | e :: rest, h =>
    match (h.deleteClient e).closeSend e with
    | .error f => .error f
    | .ok h1 => closeExisting rest (h1.connClose e)

/-- The `case client := <-h.Register` branch of `Hub.Run`. -/
def Register (client : Ptr) (h : Hub) : Except Fault Hub :=
  let userID := (h.mem client).UserID
  let evicted : Except Fault Hub :=
    match h.UserClients.lookup userID with
    | some clients =>
      match closeExisting clients h with
      | .error f => .error f
      | .ok h1 => .ok { h1 with UserClients := h1.UserClients.insert userID [] }
    | none => .ok h
  match evicted with
  | .error f => .error f
  | .ok h1 =>
    .ok { h1.addClient client with UserClients := h1.UserClients.insert userID [client] }

/-- The result of `append(clients[:i], clients[i+1:]...)` at the first index `i`
whose client carries the ID `id`; `none` when the loop finds no such client. -/
def removeFirstWithID (mem : Ptr → Client) (id : String) : List Ptr → Option (List Ptr)
  | [] => none
  | c :: cs =>
    if (mem c).ID = id then some cs
    else (removeFirstWithID mem id cs).map (fun r => c :: r)

/-- The loop "Remove from user-specific clients map" of `Unregister` and
`checkHeartbeats`. -/
def Hub.dropFromUserClients (h : Hub) (client : Ptr) : Hub :=
  let userID := (h.mem client).UserID
  match removeFirstWithID h.mem (h.mem client).ID (h.userClients userID) with
  | some rest => { h with UserClients := h.UserClients.insert userID rest }
  | none => h

/-- The `case client := <-h.Unregister` branch of `Hub.Run`. -/
def Unregister (client : Ptr) (h : Hub) : Except Fault Hub :=
  if client ∈ h.Clients then
    match (h.deleteClient client).closeSend client with
    | .error f => .error f
    | .ok h1 =>
      let userID := (h1.mem client).UserID
      let h2 := h1.dropFromUserClients client
      if (h2.userClients userID).length = 0 then
        .ok { h2 with UserClients := h2.UserClients.erase userID }
      else .ok h2
  else .ok h

/-- The body of the loop of the `case message := <-h.Broadcast` branch. -/
def broadcastOne (message : Bytes) (h : Hub) (client : Ptr) : Except Fault Hub :=
  match (h.mem client).Send.trySend message with
  | .error f => .error f
  | .ok (some s) => .ok (h.setClient client { h.mem client with Send := s })
  | .ok none =>
    match h.closeSend client with
    | .error f => .error f
    | .ok h1 => .ok (h1.deleteClient client)

/-- The `case message := <-h.Broadcast` branch of `Hub.Run`. -/
def Broadcast (message : Bytes) (h : Hub) : Except Fault Hub :=
  h.Clients.foldlM (broadcastOne message) h

/-- The bytes of the literal `{"type":"ping"}`. -/
def pingMessage : Bytes :=
  [123, 34, 116, 121, 112, 101, 34, 58, 34, 112, 105, 110, 103, 34, 125]

/-- The body of the loop of `sendPingToAllClients`. -/
def pingOne (h : Hub) (client : Ptr) : Except Fault Hub :=
  if (h.mem client).IsActive then broadcastOne pingMessage h client else .ok h

/-- The method `sendPingToAllClients`. -/
def sendPingToAllClients (h : Hub) : Except Fault Hub :=
  h.Clients.foldlM pingOne h

/-- The body of the loop of `checkHeartbeats`. -/
def heartbeatOne (now : Int) (h : Hub) (client : Ptr) : Except Fault Hub :=
  if (h.mem client).IsActive = true ∧ now - (h.mem client).LastPingTime > h.heartbeatTimeout then
    let h1 := (h.setClient client { h.mem client with IsActive := false }).connClose client
    match (h1.deleteClient client).closeSend client with
    | .error f => .error f
    | .ok h2 =>
      match h2.closeDone client with
      | .error f => .error f
      | .ok h3 =>
        let userID := (h3.mem client).UserID
        let h4 := h3.dropFromUserClients client
        if (h4.userClients userID).length = 0 then
          .ok { h4 with UserClients := h4.UserClients.erase userID
                        spawned := h4.spawned ++ [GoCall.SetUserOffline userID] }
        else .ok h4
  else .ok h

/-- The method `checkHeartbeats`, with `now` the value of `time.Now()`. -/
def checkHeartbeats (now : Int) (h : Hub) : Except Fault Hub :=
  h.Clients.foldlM (heartbeatOne now) h

/-- The body of the loop of `BroadcastToUser`. -/
def sendToUserOne (payload : Bytes) (h : Hub) (client : Ptr) : Except Fault Hub :=
  if (h.mem client).IsActive then
    match (h.mem client).Send.trySend payload with
    | .error f => .error f
    | .ok (some s) => .ok (h.setClient client { h.mem client with Send := s })
    | .ok none => .ok h
  else .ok h

/-- The method `BroadcastToUser`; `jsonMarshal` is `json.Marshal`, `none` its error. -/
def BroadcastToUser {α : Type} (jsonMarshal : α → Option Bytes) (userID : String)
    (message : α) (h : Hub) : Except Fault Hub :=
  match jsonMarshal message with
  | none => .ok h
  | some payload =>
    match h.UserClients.lookup userID with
    | none => .ok h
    | some clients => clients.foldlM (sendToUserOne payload) h

/-- The method `HasActiveClient`. -/
def HasActiveClient (userID : String) (h : Hub) : Bool :=
  match h.UserClients.lookup userID with
  | none => false
  | some clients => clients.any (fun c => (h.mem c).IsActive)

/-- The method `SetUserOnline`. -/
def SetUserOnline (userID : String) (h : Hub) : Hub :=
  if 0 < (h.userClients userID).length then h
  else if h.hasStatusUpdater then
    { h with statusCalls := h.statusCalls ++ [StatusCall.SetUserOnline userID] }
  else h

/-- The first loop of `SetUserOffline` and the loop of `user_active` share this step:
an active client is marked inactive and its connection closed. -/
def Hub.deactivate (h : Hub) (p : Ptr) : Hub :=
  if (h.mem p).IsActive then
    (h.setClient p { h.mem p with IsActive := false }).connClose p
  else h

/-- The method `SetUserOffline`; its final "double check" loop has no effect. -/
def SetUserOffline (userID : String) (h : Hub) : Hub :=
  let h1 : Hub :=
    match h.UserClients.lookup userID with
    | some clients =>
      let h0 := clients.foldl Hub.deactivate h
      { h0 with UserClients := h0.UserClients.erase userID }
    | none => h
  if h1.hasStatusUpdater then
    { h1 with statusCalls := h1.statusCalls ++ [StatusCall.SetUserOffline userID] }
  else h1

/-- The bytes of `json.Marshal(Message{Type: "pong"})`, that is
`{"type":"pong","payload":null}`. -/
def pongMessage : Bytes :=
  [123, 34, 116, 121, 112, 101, 34, 58, 34, 112, 111, 110, 103, 34, 44,
   34, 112, 97, 121, 108, 111, 97, 100, 34, 58, 110, 117, 108, 108, 125]

/-- The method `handlePing`, with `now` the value of `time.Now()`. -/
def handlePing (now : Int) (c : Ptr) (h : Hub) : Except Fault Hub :=
  let h1 := h.setClient c { h.mem c with LastPingTime := now }
  match (h1.mem c).Send.send pongMessage with
  | .error f => .error f
  | .ok s => .ok (h1.setClient c { h1.mem c with Send := s })

/-- The `user_away` branch of `ReadPump`. -/
def userAway (c : Ptr) (h : Hub) : Hub :=
  let h1 := h.setClient c { h.mem c with IsActive := false }
  let hasOtherActiveConnections :=
    match h1.UserClients.lookup (h1.mem c).UserID with
    | some clients =>
      clients.any (fun o => decide ((h1.mem o).ID ≠ (h1.mem c).ID) && (h1.mem o).IsActive)
    | none => false
  if hasOtherActiveConnections then h1
  else { h1 with spawned := h1.spawned ++ [GoCall.SetUserOffline (h1.mem c).UserID] }

/-- The first loop of the `user_active` branch: the state and `wasOffline`. -/
def closeOthers (id : String) : List Ptr → Hub × Bool → Hub × Bool
  | [], s => s
  | o :: rest, (h, wasOffline) =>
    if (h.mem o).ID ≠ id ∧ (h.mem o).IsActive = true then
      closeOthers id rest (h.deactivate o, false)
    else closeOthers id rest (h, wasOffline)

/-- The `user_active` branch of `ReadPump`. -/
def userActive (c : Ptr) (h : Hub) : Hub :=
  let h1 := h.setClient c { h.mem c with IsActive := true }
  let userID := (h1.mem c).UserID
  let r : Hub × Bool :=
    match h1.UserClients.lookup userID with
    | some clients =>
      let s := closeOthers (h1.mem c).ID clients (h1, true)
      let newClients := clients.filter (fun o => decide ((s.1.mem o).ID = (s.1.mem c).ID))
      ({ s.1 with UserClients := s.1.UserClients.insert userID newClients }, s.2)
    | none => (h1, true)
  if r.2 then { r.1 with spawned := r.1.spawned ++ [GoCall.SetUserOnline userID] }
  else r.1

/-- The deferred function of `ReadPump` together with the `Unregister` case body that it
triggers: the session is handed to the hub loop, the connection is closed and the `Done`
channel is closed.  The case body and the two closes touch different fields, so their
order does not matter. -/
def readPumpExit (c : Ptr) (h : Hub) : Except Fault Hub :=
  match Unregister c h with
  | .error f => .error f
  | .ok h1 => (h1.connClose c).closeDone c

/-- The goroutine of `HandleConnection` that runs once `client.Done` is closed;
`statusService` tells whether the handler's status service is non-nil. -/
def doneWatcher (statusService : Bool) (userID : String) (h : Hub) : Hub :=
  if !HasActiveClient userID h && statusService then
    { h with statusCalls := h.statusCalls ++ [StatusCall.SetUserOffline userID] }
  else h

/-- The order in which two concurrent steps take the lock of the hub once a client has
been handed to the hub loop over an unbuffered channel: the case body of the hub loop
first (`hubFirst`), or first the goroutine on the handler's side that reads the hub
(`handlerFirst`).  The channel send returns when the hub loop has received the client,
not when the case body has run, so the code admits both. -/
inductive Schedule where
  | hubFirst
  | handlerFirst
  deriving DecidableEq, Repr

/-- A disconnect: the read pump of `c` exits and the handler's watcher of `Done` runs.
The deferred function of `ReadPump` hands `c` to the `Unregister` channel, closes the
connection and closes `Done`; the watcher, woken by `Done`, evaluates
`HasActiveClient`.  The `Unregister` case body runs before the watcher's check
(`hubFirst`) or after it (`handlerFirst`). -/
def disconnect (schedule : Schedule) (statusService : Bool) (c : Ptr) (h : Hub) :
    Except Fault Hub :=
  match schedule with
  | .hubFirst =>
    match readPumpExit c h with
    | .error f => .error f
    | .ok h1 => .ok (doneWatcher statusService (h.mem c).UserID h1)
  | .handlerFirst =>
    match (h.connClose c).closeDone c with
    | .error f => .error f
    | .ok h1 => Unregister c (doneWatcher statusService (h.mem c).UserID h1)

/-- Running a goroutine recorded in `spawned`. -/
def runGo : GoCall → Hub → Hub
  | .SetUserOnline u, h => SetUserOnline u h
  | .SetUserOffline u, h => SetUserOffline u h

/-- The events that change the hub: the cases of `Hub.Run`, the control frames of
`ReadPump`, and the run of a goroutine that `spawned` records. -/
inductive Event where
  | Register (client : Ptr)
  | Unregister (client : Ptr)
  | Broadcast (message : Bytes)
  | heartbeatTick (now : Int)
  | pingTick
  | ping (now : Int) (client : Ptr)
  | userAway (client : Ptr)
  | userActive (client : Ptr)
  | go (call : GoCall)
  deriving DecidableEq, Repr

/-- One turn of the hub on an event. -/
def step (h : Hub) : Event → Except Fault Hub
  | .Register c => Register c h
  | .Unregister c => Unregister c h
  | .Broadcast m => Broadcast m h
  | .heartbeatTick now => checkHeartbeats now h
  | .pingTick => sendPingToAllClients h
  | .ping now c => handlePing now c h
  | .userAway c => .ok (userAway c h)
  | .userActive c => .ok (userActive c h)
  | .go call => .ok (runGo call h)

/-- The hub after a sequence of events, or the fault that stopped it. -/
def run (events : List Event) (h : Hub) : Except Fault Hub :=
  events.foldlM step h

/-- The clients carried by the `Register` events of a sequence. -/
def registered : List Event → List Ptr
  | [] => []
  | .Register c :: rest => c :: registered rest
  | _ :: rest => registered rest

/-- The session `p` appears in some entry of `UserClients`. -/
def InUserClients (h : Hub) (p : Ptr) : Prop :=
  ∃ u l, h.UserClients.lookup u = some l ∧ p ∈ l

/-- The client the handler builds in `HandleConnection` (`handler.go`, lines 78-88). -/
def newClient (userID tabID : String) (now : Int) : Client :=
  { ID := userID ++ ":" ++ tabID
    UserID := userID
    TabID := tabID
    ConnClosed := false
    Send := { buf := [], cap := 256, closed := false }
    IsActive := true
    DoneClosed := false
    LastPingTime := now }

/-- The fields of a client once `close(client.Send)` has run. -/
def Client.sendClosed (c : Client) : Client :=
  { c with Send := { c.Send with closed := true } }

/-- A memory of handler-built clients of user `"A"`, the tab named after the address. -/
def demoMem : Ptr → Client := fun p => newClient "A" (toString p) 0

/-- The hub after `Unregister` of a registered session `s` that its user's entry
identifies by its ID. -/
def unregistered (s : Ptr) (h : Hub) : Hub :=
  { h with
    Clients := h.Clients.filter (fun q => decide (q ≠ s))
    mem := Function.update h.mem s (h.mem s).sendClosed
    UserClients :=
      if ((h.userClients (h.mem s).UserID).erase s).length = 0 then
        h.UserClients.erase (h.mem s).UserID
      else h.UserClients.insert (h.mem s).UserID ((h.userClients (h.mem s).UserID).erase s) }

/-- The events of the `Register` and `Unregister` channels. -/
def Event.isStructural : Event → Bool
  | .Register _ => true
  | .Unregister _ => true
  | _ => false

/-- A hub in which user `"A"` has the two registered sessions `0` and `1`. -/
def twoTabs : Hub :=
  { NewHub demoMem with
    Clients := [0, 1]
    UserClients := (∅ : Finmap (fun _ : String => List Ptr)).insert "A" [0, 1] }

/-- A hub in which user `"A"` has the single registered session `0`. -/
def oneTab : Hub :=
  { NewHub demoMem with
    Clients := [0]
    UserClients := (∅ : Finmap (fun _ : String => List Ptr)).insert "A" [0] }

/-- The fields of a client once `m` has been enqueued on its `Send` queue. -/
def Client.enqueued (c : Client) (m : Bytes) : Client :=
  { c with Send := { c.Send with buf := c.Send.buf ++ [m] } }

/-- The hub in which `payload` has been enqueued once on every active client among
`targets`, and nothing else has changed. -/
def delivered (payload : Bytes) (targets : List Ptr) (h : Hub) : Hub :=
  { h with mem := fun p =>
      if p ∈ targets ∧ (h.mem p).IsActive = true then (h.mem p).enqueued payload
      else h.mem p }

/-- A stand-in for `json.Marshal` on messages that are already byte strings. -/
def demoMarshal : Bytes → Option Bytes := fun m => some m

/-- The hub `twoTabs` after tab `1` has sent `user_away`: session `1` is still
registered but no longer active. -/
def twoTabsOneAway : Hub := userAway 1 twoTabs

/-- Tab `0` of user `"A"` connects and then 257 hub-wide broadcasts arrive while its
write pump drains nothing: 256 fill the `Send` queue, the last finds it full. -/
def connectThenFlood : List Event :=
  Event.Register 0 :: List.replicate 257 (Event.Broadcast pingMessage)

/-- Tab `0` of user `"A"` connects and then the ping ticker fires 257 times while its
write pump drains nothing. -/
def connectThenPings : List Event :=
  Event.Register 0 :: List.replicate 257 Event.pingTick

/-- Map consistency: `Clients` and the entries of `UserClients` hold the same sessions. -/
def MapsAgree (h : Hub) : Prop :=
  ∀ p, p ∈ h.Clients ↔ InUserClients h p

/-- The well-formedness that `Register`, `Unregister` and `checkHeartbeats` keep:
a registered session has its `Send` and `Done` channels open and is filed under its
user; an entry of `UserClients` holds distinct registered sessions of that user, no two
of which carry the same ID. -/
def Hub.WellFormed (h : Hub) : Prop :=
  (∀ p ∈ h.Clients, (h.mem p).Send.closed = false ∧ (h.mem p).DoneClosed = false ∧
    p ∈ h.userClients (h.mem p).UserID) ∧
  (∀ u l, h.UserClients.lookup u = some l → l.Nodup ∧
    ∀ p ∈ l, p ∈ h.Clients ∧ (h.mem p).UserID = u ∧
      ∀ q ∈ l, (h.mem q).ID = (h.mem p).ID → q = p)

/-- The hub in which `payload` has been enqueued once on every client among `targets`,
and nothing else has changed. -/
def enqueuedAll (payload : Bytes) (targets : List Ptr) (h : Hub) : Hub :=
  { h with mem := fun p =>
      if p ∈ targets then (h.mem p).enqueued payload else h.mem p }

/-- The fields of a client once `checkHeartbeats` has evicted it. -/
def Client.timedOut (c : Client) : Client :=
  { c with IsActive := false, ConnClosed := true, DoneClosed := true,
           Send := { c.Send with closed := true } }

/-- The hub after `checkHeartbeats` has evicted the registered session `s`. -/
def timedOut (s : Ptr) (h : Hub) : Hub :=
  { h with
    Clients := h.Clients.filter (fun q => decide (q ≠ s))
    mem := Function.update h.mem s (h.mem s).timedOut
    UserClients :=
      if ((h.userClients (h.mem s).UserID).erase s).length = 0 then
        h.UserClients.erase (h.mem s).UserID
      else h.UserClients.insert (h.mem s).UserID ((h.userClients (h.mem s).UserID).erase s)
    spawned :=
      if ((h.userClients (h.mem s).UserID).erase s).length = 0 then
        h.spawned ++ [GoCall.SetUserOffline (h.mem s).UserID]
      else h.spawned }

/-- Tab `0` of user `"A"` connects and 256 hub-wide broadcasts fill its `Send` queue. -/
def connectThenFill : List Event :=
  Event.Register 0 :: List.replicate 256 (Event.Broadcast pingMessage)

/-- The events of the hub loop under which well-formedness is an invariant:
`Register`, `Unregister` and the heartbeat tick. -/
def Event.isEviction : Event → Bool
  | .Register _ => true
  | .Unregister _ => true
  | .heartbeatTick _ => true
  | _ => false

/-- A memory with a client of user `"A"` at address `0` and clients of user `"B"`
elsewhere, all as the handler builds them. -/
def abMem : Ptr → Client := fun p =>
  if p = 0 then newClient "A" "t0" 0 else newClient "B" (toString p) 0

/-- A hub in which users `"A"` and `"B"` each have one registered session. -/
def twoUsers : Hub :=
  { NewHub abMem with
    Clients := [0, 1]
    UserClients :=
      ((∅ : Finmap (fun _ : String => List Ptr)).insert "A" [0]).insert "B" [1] }

/-- The hub in which `payload` has been enqueued once on every active client among
`targets` whose queue has room, and nothing else has changed. -/
def deliveredWhereRoom (payload : Bytes) (targets : List Ptr) (h : Hub) : Hub :=
  { h with mem := (fun p =>
      if p ∈ targets ∧ (h.mem p).IsActive = true ∧
          (h.mem p).Send.buf.length < (h.mem p).Send.cap then
        (h.mem p).enqueued payload
      else h.mem p) }

/-- The hub after the `Broadcast` loop has visited the clients `visited`, all with open
queues: a visited client with room has the message enqueued, a visited client without
room has its queue closed and is deleted from `Clients`. -/
def broadcasted (message : Bytes) (visited : List Ptr) (h : Hub) : Hub :=
  { h with
    Clients := h.Clients.filter (fun q =>
      decide (q ∉ visited ∨ (h.mem q).Send.buf.length < (h.mem q).Send.cap))
    mem := (fun p =>
      if p ∈ visited then
        if (h.mem p).Send.buf.length < (h.mem p).Send.cap then (h.mem p).enqueued message
        else (h.mem p).sendClosed
      else h.mem p) }

/-- A memory like `demoMem` in which the queue of the client at `0` holds 256 messages. -/
def fullMem : Ptr → Client := fun p =>
  if p = 0 then
    { newClient "A" "0" 0 with
      Send := { buf := List.replicate 256 pingMessage, cap := 256, closed := false } }
  else demoMem p

/-- The hub `twoTabs` in which the queue of session `0` is full. -/
def twoTabsOneFull : Hub := { twoTabs with mem := fullMem }

/-- The test of `checkHeartbeats` on a client: it is active and its last ping is older
than the heartbeat timeout. -/
def Hub.evictable (h : Hub) (now : Int) (p : Ptr) : Prop :=
  (h.mem p).IsActive = true ∧ now - (h.mem p).LastPingTime > h.heartbeatTimeout

instance (h : Hub) (now : Int) (p : Ptr) : Decidable (h.evictable now p) := by
  unfold Hub.evictable
  exact inferInstance

/-- The fields of a client once `IsActive = false; Conn.Close()` has run on it. -/
def Client.deactivated (c : Client) : Client :=
  { c with IsActive := false, ConnClosed := true }

/-- A memory in which the clients at `0` and `1` are two connections of the same tab
`"t"` of user `"A"` (same ID string), as the handler builds them. -/
def sameTabMem : Ptr → Client := fun _ => newClient "A" "t" 0

/-- A hub in which both connections of the same tab are filed under user `"A"`. -/
def sameTabTwice : Hub :=
  { NewHub sameTabMem with
    Clients := [0, 1]
    UserClients := (∅ : Finmap (fun _ : String => List Ptr)).insert "A" [0, 1] }

/-- From the empty hub: tab `0` of user `"A"` connects, goes to the background
(`user_away`, whose `SetUserOffline` drops the user's entry), comes back
(`user_active`, whose `SetUserOnline` runs), and then tab `1` of the same user
connects. -/
def awayBackThenSecondTab : List Event :=
  [Event.Register 0, Event.userAway 0, Event.go (GoCall.SetUserOffline "A"),
   Event.userActive 0, Event.go (GoCall.SetUserOnline "A"), Event.Register 1]

/-- The method `HasClientWithID`. -/
def HasClientWithID (clientID : String) (h : Hub) : Bool :=
  h.Clients.any (fun c => decide ((h.mem c).ID = clientID) && (h.mem c).IsActive)

/-- The method `CloseClientWithID`: the first client of the range that carries the ID
is marked inactive and its connection closed; it is not unregistered. -/
def CloseClientWithID (clientID : String) (h : Hub) : Hub :=
  match h.Clients.find? (fun c => decide ((h.mem c).ID = clientID)) with
  | some c => (h.setClient c { h.mem c with IsActive := false }).connClose c
  | none => h

/-- The presence check of `HandleConnection` that follows the hand-over of the client to
the `Register` channel: `go h.statusService.SetUserOnline(userID)` when the status
service is non-nil and the user has no active client. -/
def presenceCheck (statusService : Bool) (userID : String) (h : Hub) : Hub :=
  if statusService && !HasActiveClient userID h then
    { h with statusCalls := h.statusCalls ++ [StatusCall.SetUserOnline userID] }
  else h

/-- The handler `HandleConnection` for an authenticated request whose upgrade succeeds:
the check for a live connection of the same tab, the new `Client` (allocated at the
address `client`), its hand-over to the `Register` channel, and the presence check that
follows.  The `Register` case body runs before the presence check (`hubFirst`) or after
it (`handlerFirst`).  `tabID` is the query parameter or the generated fallback;
`statusService` tells whether the handler's status service is non-nil.  The pumps and
the watcher of `Done` start afterwards. -/
def HandleConnection (schedule : Schedule) (statusService : Bool) (userID tabID : String)
    (now : Int) (client : Ptr) (h : Hub) : Except Fault Hub :=
  let clientID := userID ++ ":" ++ tabID
  let h1 := if HasClientWithID clientID h then CloseClientWithID clientID h else h
  let h2 := h1.setClient client (newClient userID tabID now)
  match schedule with
  | .hubFirst =>
    match Register client h2 with
    | .error f => .error f
    | .ok h3 => .ok (presenceCheck statusService userID h3)
  | .handlerFirst => Register client (presenceCheck statusService userID h2)

/-- A connect or disconnect of one user's sessions: the handler run for a new connection
of tab `tabID` allocated at `client`, or the exit of the read pump of `client` followed
by the handler's watcher of `Done`, each under a schedule of the hub's case body and
the handler's check. -/
inductive Presence where
  | connect (schedule : Schedule) (tabID : String) (now : Int) (client : Ptr)
  | disconnect (schedule : Schedule) (client : Ptr)
  deriving DecidableEq, Repr

/-- One connect or disconnect event of user `userID`. -/
def presenceStep (userID : String) (h : Hub) : Presence → Except Fault Hub
  | .connect schedule tabID now client =>
    HandleConnection schedule true userID tabID now client h
  | .disconnect schedule client => disconnect schedule true client h

/-- A trace of connect and disconnect events of user `userID`. -/
def presenceRun (userID : String) (events : List Presence) (h : Hub) : Except Fault Hub :=
  events.foldlM (presenceStep userID) h

/-- The outcome of the receive `m, ok := <-ch` on a buffered channel: the oldest
buffered message (also after `close`), the zero value with `ok = false` once the channel
is closed and drained, or no progress while the channel is open and empty. -/
inductive Recv where
  | msg (m : Bytes) (rest : Chan)
  | closed
  | blocked
  deriving DecidableEq, Repr

/-- The receive operation `<-ch`. -/
def Chan.recv (c : Chan) : Recv :=
  match c.buf with
  | m :: rest => .msg m { c with buf := rest }
  | [] => if c.closed then .closed else .blocked

/-- The loop "Add queued messages to the current WebSocket message" of `WritePump`:
`n` times `w.Write([]byte{'\n'}); w.Write(<-c.Send)`, with `w` the bytes written to
the frame so far.  `none`: a receive does not return. -/
def drainQueued : Nat → Bytes → Chan → Option (Bytes × Chan)
  | 0, w, s => some (w, s)
  | n + 1, w, s =>
    match s.recv with
    | .msg m rest => drainQueued n (w ++ [10] ++ m) rest
    | .closed => drainQueued n (w ++ [10]) s
    | .blocked => none

/-- What one turn of the `case message, ok := <-c.Send` branch of `WritePump` does. -/
inductive WriteResult where
  | closeMessage
  | noWriter (send : Chan)
  | textFrame (frame : Bytes) (send : Chan)
  | blocked
  deriving DecidableEq, Repr

/-- One turn of the `case message, ok := <-c.Send` branch of `WritePump` on the queue
`s`.  `nextWriter` tells whether `c.Conn.NextWriter` returns a writer; the frame is the
concatenation of the arguments of `w.Write` up to `w.Close()`.  A closed and drained
channel makes the pump write the close message and return. -/
def writePumpRecv (nextWriter : Bool) (s : Chan) : WriteResult :=
  match s.recv with
  | .blocked => .blocked
  | .closed => .closeMessage
  | .msg message rest =>
    if nextWriter then
      match drainQueued rest.buf.length message rest with
      | some (frame, s1) => .textFrame frame s1
      | none => .blocked
    else .noWriter rest

/-- The client ID of `HandleConnection`: `fmt.Sprintf("%s:%s", userID, tabID)`. -/
def clientID (userID tabID : String) : String := userID ++ ":" ++ tabID

/-- A hub whose only registered session is the one tab `"b:c"` of user `"a"`. -/
def colonTab : Hub :=
  { NewHub (fun _ => newClient "a" "b:c" 0) with
    Clients := [0]
    UserClients := (∅ : Finmap (fun _ : String => List Ptr)).insert "a" [0] }

/-- What every event of the hub keeps true from the empty hub on: a registered session
has its `Send` and `Done` channels open, and an entry of `UserClients` holds distinct
sessions of that user, no two of which carry the same ID.  A registered session need
not be filed under its user (the `SetUserOffline` of a `user_away` drops the entry), and
a filed session need not be registered (the drop of `Broadcast` leaves it filed). -/
def Hub.Sound (h : Hub) : Prop :=
  (∀ p ∈ h.Clients, (h.mem p).Send.closed = false ∧ (h.mem p).DoneClosed = false) ∧
  (∀ u l, h.UserClients.lookup u = some l → l.Nodup ∧
    ∀ p ∈ l, (h.mem p).UserID = u ∧ ∀ q ∈ l, (h.mem q).ID = (h.mem p).ID → q = p)

/-- The slice that the loop "Update user-specific clients map" leaves: the slice without
the first client that carries the ID `id`, or the slice itself when no client does. -/
def dropFirstWithID (mem : Ptr → Client) (id : String) (l : List Ptr) : List Ptr :=
  (removeFirstWithID mem id l).getD l

/-- The hub `h1` is the hub `h` after the body of the loop of `checkHeartbeats` has
evicted the session `s`: `s` is deleted from `Clients` and has the fields of a timed-out
client; the entry of its user has lost the first client with the ID of `s` and is
deleted when it is empty, in which case a `SetUserOffline` goroutine is started. -/
def Evicts (s : Ptr) (h h1 : Hub) : Prop :=
  h1.Clients = h.Clients.filter (fun q => decide (q ≠ s)) ∧
  h1.mem = Function.update h.mem s (h.mem s).timedOut ∧
  (∀ v, h1.UserClients.lookup v =
    if v = (h.mem s).UserID then
      (if (dropFirstWithID h.mem (h.mem s).ID (h.userClients v)).length = 0 then none
       else some (dropFirstWithID h.mem (h.mem s).ID (h.userClients v)))
    else h.UserClients.lookup v) ∧
  h1.spawned =
    (if (dropFirstWithID h.mem (h.mem s).ID (h.userClients (h.mem s).UserID)).length = 0 then
      h.spawned ++ [GoCall.SetUserOffline (h.mem s).UserID]
     else h.spawned) ∧
  h1.statusCalls = h.statusCalls ∧ h1.hasStatusUpdater = h.hasStatusUpdater ∧
  h1.heartbeatTimeout = h.heartbeatTimeout

/-- The fields of a client that soundness speaks of: its ID, its user, and whether its
`Send` and `Done` channels are closed. -/
def Client.core (c : Client) : String × String × Bool × Bool :=
  (c.ID, c.UserID, c.Send.closed, c.DoneClosed)

/-- A client that the handler has built and not yet handed to `Register`: it is in
neither map and its channels are open. -/
def Hub.Fresh (h : Hub) (p : Ptr) : Prop :=
  p ∉ h.Clients ∧ ¬ InUserClients h p ∧ (h.mem p).Send.closed = false ∧
    (h.mem p).DoneClosed = false

/-- What every event of the hub other than `Register` does to the facts that soundness
speaks of: sessions only leave `Clients`; a session that is still registered, or that was
not registered, has its channels as before; IDs and users do not change; an entry of
`UserClients` is a sublist of the entry before. -/
def Shrinks (h h1 : Hub) : Prop :=
  (∀ p ∈ h1.Clients, p ∈ h.Clients) ∧
  (∀ p, p ∈ h1.Clients ∨ p ∉ h.Clients →
    (h1.mem p).Send.closed = (h.mem p).Send.closed ∧
      (h1.mem p).DoneClosed = (h.mem p).DoneClosed) ∧
  (∀ p, (h1.mem p).ID = (h.mem p).ID ∧ (h1.mem p).UserID = (h.mem p).UserID) ∧
  (∀ u l1, h1.UserClients.lookup u = some l1 →
    ∃ l, h.UserClients.lookup u = some l ∧ l1.Sublist l)

/-- From the empty hub: tab `1` of user `"B"` connects and goes to the background
(`user_away`, whose `SetUserOffline` drops the user's entry), and tab `0` of user `"A"`
connects.  Session `1` is then registered and inactive and in no entry of `UserClients`;
session `0` is registered, active and alone in the entry of `"A"`. -/
def awayThenOtherUser : List Event :=
  [Event.Register 1, Event.userAway 1, Event.go (GoCall.SetUserOffline "B"), Event.Register 0]

end Websocket

/-!
# The rate limiter of `backend/pkg/middleware/ratelimit.go`

A `time.Time` is its instant in nanoseconds and a `time.Duration` its length in
nanoseconds, both integers; instants stay in the range in which `Time.Add` is exact.
`rl.requests` is a map from the client key to the slice of recorded instants.  The mutex
makes the handler bodies run one after the other.
-/

namespace Middleware

/-- The fields of `type RateLimiter struct` that the middleware reads and writes. -/
structure RateLimiter where
  requests : String → Option (List Int)
  limit : Int
  window : Int

/-- The constructor `NewRateLimiter`. -/
def NewRateLimiter (limit : Int) (window : Int) : RateLimiter :=
  { requests := fun _ => none
    limit := limit
    window := window }

/-- The value of `rl.requests[clientIP]`, `nil` for an absent key. -/
def RateLimiter.timesOf (rl : RateLimiter) (clientIP : String) : List Int :=
  (rl.requests clientIP).getD []

/-- The negation `-d` of a `time.Duration`, an `int64`: the least value has no
positive counterpart and is its own negation. -/
def negDuration (d : Int) : Int :=
  if d = -9223372036854775808 then d else -d

/-- The body of the handler that `Middleware` returns, for a request whose key is
`clientIP` and with `now` the value of `time.Now()`: the limiter afterwards, and whether
`next.ServeHTTP` is called (`false`: the 429 answer is written). -/
def RateLimiter.Middleware (rl : RateLimiter) (clientIP : String) (now : Int) :
    RateLimiter × Bool :=
  let cutoff := now + negDuration rl.window
  let rl1 : RateLimiter :=
    match rl.requests clientIP with
    | some times =>
      { rl with requests := (Function.update rl.requests clientIP
          (some (times.filter (fun t => decide (t > cutoff))))) }
    | none => rl
  if ((rl1.timesOf clientIP).length : Int) ≥ rl1.limit then (rl1, false)
  else
    ({ rl1 with requests := (Function.update rl1.requests clientIP
        (some (rl1.timesOf clientIP ++ [now]))) }, true)

/-- One request `(key, time)` served by the middleware: the limiter afterwards and the
log of the requests passed to the next handler so far. -/
def serveStep (s : RateLimiter × List (String × Int)) (r : String × Int) :
    RateLimiter × List (String × Int) :=
  ((s.1.Middleware r.1 r.2).1, if (s.1.Middleware r.1 r.2).2 then s.2 ++ [r] else s.2)

/-- A sequence of requests served one after the other, from the limiter `rl`. -/
def serve (rl : RateLimiter) (reqs : List (String × Int)) :
    RateLimiter × List (String × Int) :=
  reqs.foldl serveStep (rl, [])

/-- The instants of the requests of the log `adm` that came from `key`. -/
def admittedTimes (adm : List (String × Int)) (key : String) : List Int :=
  (adm.filter (fun r => decide (r.1 = key))).map Prod.snd

/-- The number of requests of the log `adm` from `key` with an instant strictly after
`cutoff`. -/
def recentCount (adm : List (String × Int)) (key : String) (cutoff : Int) : Nat :=
  ((admittedTimes adm key).filter (fun t => decide (t > cutoff))).length

/-- The limiter `s.1` agrees with the log `s.2` of admitted requests, for requests that
arrive at `T` or later: it has limit `L` and window `W`, it stores at most `L` instants
per key, and for every cutoff from `T - W` on, the stored instants of a key after the
cutoff are the admitted instants of that key after the cutoff. -/
def Tracks (L W T : Int) (s : RateLimiter × List (String × Int)) : Prop :=
  s.1.limit = L ∧ s.1.window = W ∧
  (∀ k, ((s.1.timesOf k).length : Int) ≤ L) ∧
  (∀ k c, T - W ≤ c →
    (s.1.timesOf k).filter (fun x => decide (x > c))
      = (admittedTimes s.2 k).filter (fun x => decide (x > c)))

end Middleware

/-!
# The token functions of `backend/internal/auth/jwt.go`

A Go `string` that holds the text of a token is the list of its characters (all of them
ASCII); a `[]byte` is a list of natural numbers below 256.  A `time.Time` is its instant
in nanoseconds, a `time.Duration` its length in nanoseconds.  The functions of the Go
standard library that `jwt.go` calls are not part of the repository: the base64 codec
`base64.StdEncoding` is written out after RFC 4648, `strings.Split`, `ReplaceAll`,
`TrimRight` and `Repeat` after their documentation, and `encoding/json` and `crypto/hmac`
are parameters (`Lib`).
-/

namespace Auth

/-- A `[]byte`, one natural number below 256 per byte. -/
abbrev Bytes := List Nat

/-- The alphabet of `base64.StdEncoding`. -/
def encodeStd : List Char :=
  "ABCDEFGHIJKLMNOPQRSTUVWXYZabcdefghijklmnopqrstuvwxyz0123456789+/".toList

/-- The character of the 6-bit value `n` in the standard alphabet. -/
def stdChar (n : Nat) : Char := encodeStd.getD n 'A'

/-- The 6-bit value of a character of the standard alphabet, `none` for any other. -/
def stdIndex (c : Char) : Option Nat :=
  if encodeStd.indexOf c < 64 then some (encodeStd.indexOf c) else none

/-- The function `base64.StdEncoding.EncodeToString`: three bytes give four characters,
a last group of one or two bytes is padded with `=`. -/
def stdEncode : Bytes → List Char
  | b0 :: b1 :: b2 :: rest =>
    stdChar (b0 / 4) :: stdChar (b0 % 4 * 16 + b1 / 16) :: stdChar (b1 % 16 * 4 + b2 / 64)
      :: stdChar (b2 % 64) :: stdEncode rest
  | [b0, b1] => [stdChar (b0 / 4), stdChar (b0 % 4 * 16 + b1 / 16), stdChar (b1 % 16 * 4), '=']
  | [b0] => [stdChar (b0 / 4), stdChar (b0 % 4 * 16), '=', '=']
  | [] => []

/-- The decoder of `base64.StdEncoding` on text without line breaks: groups of four
characters of the alphabet, the last group possibly ending in one or two `=`.  `none` is
the `CorruptInputError`. -/
def decodeQuanta : List Char → Option Bytes
  | [] => some []
  | c0 :: c1 :: c2 :: c3 :: rest =>
    if rest = [] ∧ c3 = '=' then
      if c2 = '=' then
        match stdIndex c0, stdIndex c1 with
        | some s0, some s1 => some [s0 * 4 + s1 / 16]
        | _, _ => none
      else
        match stdIndex c0, stdIndex c1, stdIndex c2 with
        | some s0, some s1, some s2 => some [s0 * 4 + s1 / 16, s1 % 16 * 16 + s2 / 4]
        | _, _, _ => none
    else
      match stdIndex c0, stdIndex c1, stdIndex c2, stdIndex c3, decodeQuanta rest with
      | some s0, some s1, some s2, some s3, some tail =>
        some ((s0 * 4 + s1 / 16) :: (s1 % 16 * 16 + s2 / 4) :: (s2 % 4 * 64 + s3) :: tail)
      | _, _, _, _, _ => none
  | _ => none

/-- The characters that the decoder of `encoding/base64` skips: carriage return and line
feed. -/
def isLineBreak (c : Char) : Bool :=
  c = Char.ofNat 13 || c = Char.ofNat 10

/-- The function `base64.StdEncoding.DecodeString`: line breaks are skipped and the rest
is decoded in groups of four characters.  `none` is the `CorruptInputError`. -/
def stdDecode (s : List Char) : Option Bytes :=
  decodeQuanta (s.filter (fun c => !isLineBreak c))

/-- The function `strings.ReplaceAll(s, old, new)` for one-character `old` and `new`. -/
def replaceAll (s : List Char) (old new : Char) : List Char :=
  s.map (fun c => if c = old then new else c)

/-- The function `strings.TrimRight(s, cutset)` for a cutset of one character. -/
def trimRight (s : List Char) (cutset : Char) : List Char :=
  (s.reverse.dropWhile (fun c => decide (c = cutset))).reverse

/-- The function `base64URLEncode`. -/
def base64URLEncode (data : Bytes) : List Char :=
  let encoded := stdEncode data
  let encoded := replaceAll encoded '+' '-'
  let encoded := replaceAll encoded '/' '_'
  trimRight encoded '='

/-- The function `base64URLDecode`; `none` is the error of `DecodeString`. -/
def base64URLDecode (str : List Char) : Option Bytes :=
  let padding := 4 - str.length % 4
  let str := if padding < 4 then str ++ List.replicate padding '=' else str
  let str := replaceAll str '-' '+'
  let str := replaceAll str '_' '/'
  stdDecode str

/-- The characters that `stdEncode` writes for the bytes themselves, without the
padding. -/
def stdBody : Bytes → List Char
  | b0 :: b1 :: b2 :: rest =>
    stdChar (b0 / 4) :: stdChar (b0 % 4 * 16 + b1 / 16) :: stdChar (b1 % 16 * 4 + b2 / 64)
      :: stdChar (b2 % 64) :: stdBody rest
  | [b0, b1] => [stdChar (b0 / 4), stdChar (b0 % 4 * 16 + b1 / 16), stdChar (b1 % 16 * 4)]
  | [b0] => [stdChar (b0 / 4), stdChar (b0 % 4 * 16)]
  | [] => []

/-- The number of `=` that `stdEncode` appends. -/
def stdPadding : Bytes → Nat
  | _ :: _ :: _ :: rest => stdPadding rest
  | [_, _] => 1
  | [_] => 2
  | [] => 0

/-- The configuration `type JWTConfig struct`. -/
structure JWTConfig where
  SecretKey : String
  TokenDuration : Int
  Issuer : String
  deriving DecidableEq, Repr

/-- The claims `type StandardClaims struct`. -/
structure StandardClaims where
  ExpiresAt : Int
  IssuedAt : Int
  NotBefore : Int
  Issuer : String
  Subject : String
  deriving DecidableEq, Repr

/-- The claims `type Claims struct`, which embeds `StandardClaims`. -/
structure Claims extends StandardClaims where
  UserID : String
  deriving DecidableEq, Repr

/-- The errors that `GenerateToken` and `ValidateToken` return: `errors.New(text)`, an
error of `encoding/json`, or the `CorruptInputError` of `encoding/base64`. -/
inductive TokenError where
  | new (text : String)
  | json
  | corruptInput
  deriving DecidableEq, Repr

/-- The functions of the standard library that `jwt.go` calls on data: `json.Marshal` of
the header map and of the claims (`none`: an error), `json.Unmarshal` into a `Claims`
value (`none`: an error), and the HMAC-SHA256 of the bytes of `input` under the bytes
of `secret`. -/
structure StdLib where
  marshalHeader : Option Bytes
  marshalClaims : Claims → Option Bytes
  unmarshalClaims : Bytes → Option Claims
  hmacSHA256 : String → List Char → Bytes

/-- The method `Time.Unix`: the seconds of an instant given in nanoseconds. -/
def Unix (t : Int) : Int := t / 1000000000

/-- The function `strings.Split(s, sep)` for a separator of one character. -/
def Split : List Char → Char → List (List Char)
  | [], _ => [[]]
  | c :: cs, sep =>
    if c = sep then [] :: Split cs sep
    else
      match Split cs sep with
      | [] => [[c]]
      | p :: ps => (c :: p) :: ps

/-- The function `createSignature`. -/
def createSignature (lib : StdLib) (input : List Char) (secret : String) : List Char :=
  base64URLEncode (lib.hmacSHA256 secret input)

/-- The claims that `GenerateToken` builds; `now1`, `now2`, `now3` are the values of its
three calls of `time.Now()`. -/
def issuedClaims (now1 now2 now3 : Int) (userID : String) (config : JWTConfig) : Claims :=
  { UserID := userID
    ExpiresAt := Unix (now1 + config.TokenDuration)
    IssuedAt := Unix now2
    NotBefore := Unix now3
    Issuer := config.Issuer
    Subject := userID }

/-- The function `GenerateToken`. -/
def GenerateToken (lib : StdLib) (now1 now2 now3 : Int) (userID : String)
    (config : JWTConfig) : Except TokenError (List Char) :=
  let claims := issuedClaims now1 now2 now3 userID config
  match lib.marshalHeader with
  | none => .error .json
  | some headerJSON =>
    match lib.marshalClaims claims with
    | none => .error .json
    | some claimsJSON =>
      let headerBase64 := base64URLEncode headerJSON
      let claimsBase64 := base64URLEncode claimsJSON
      let signatureInput := headerBase64 ++ ['.'] ++ claimsBase64
      let signature := createSignature lib signatureInput config.SecretKey
      .ok (signatureInput ++ ['.'] ++ signature)

/-- The function `ValidateToken`; `now1`, `now2`, `now3` are the values of its calls of
`time.Now()`.  `sessionStore` is `none` when no store (or a nil store) is passed;
a store maps a user ID to the expiry instants of the user's sessions, `none` for an
error of `GetUserSessions`. -/
def ValidateToken (lib : StdLib) (now1 now2 now3 : Int) (tokenString : List Char)
    (config : JWTConfig) (sessionStore : Option (String → Option (List Int))) :
    Except TokenError Claims :=
  match Split tokenString '.' with
  | [headerBase64, claimsBase64, signatureBase64] =>
    let signatureInput := headerBase64 ++ ['.'] ++ claimsBase64
    let expectedSignature := createSignature lib signatureInput config.SecretKey
    if signatureBase64 ≠ expectedSignature then .error (.new "invalid token signature")
    else
      match base64URLDecode claimsBase64 with
      | none => .error .corruptInput
      | some claimsJSON =>
        match lib.unmarshalClaims claimsJSON with
        | none => .error .json
        | some claims =>
          if claims.ExpiresAt < Unix now1 then .error (.new "token has expired")
          else if claims.NotBefore > Unix now2 then .error (.new "token not valid yet")
          else
            match sessionStore with
            | some store =>
              match store claims.UserID with
              | none => .error (.new "failed to validate user session")
              | some sessions =>
                if sessions.any (fun expiresAt => decide (expiresAt > now3)) then .ok claims
                else .error (.new "no valid session found for user")
            | none => .ok claims
  | _ => .error (.new "invalid token format")

/-- The bytes of `{"alg":"HS256","typ":"JWT"}`, the JSON of the token header. -/
def demoHeaderJSON : Bytes :=
  ("\x7b\"alg\":\"HS256\",\"typ\":\"JWT\"\x7d".toList).map Char.toNat

/-- A stand-in for the JSON of a claims value: user ID and issuer, separated by `|`. -/
def demoClaimsJSON (c : Claims) : Bytes :=
  ((c.UserID ++ "|" ++ c.Issuer).toList).map (fun ch => ch.toNat % 256)

/-- The claims of a token issued for user `"u1"` at the instant 5 ns by the issuer
`"social"` for one hour. -/
def demoClaims : Claims :=
  issuedClaims 5 5 5 "u1"
    { SecretKey := "k1", TokenDuration := 3600000000000, Issuer := "social" }

/-- A stand-in for the library: the real header JSON, a claims codec that round-trips
`demoClaims`, and a keyed checksum in place of HMAC-SHA256. -/
def demoLib : StdLib :=
  { marshalHeader := some demoHeaderJSON
    marshalClaims := fun c => some (demoClaimsJSON c)
    unmarshalClaims := fun bs =>
      if bs = demoClaimsJSON demoClaims then some demoClaims else none
    hmacSHA256 := fun secret input =>
      ((secret.toList ++ input).map (fun ch => ch.toNat % 256)).take 32 }

end Auth

namespace Websocket

/-! ## Basic facts about the state updates -/

@[simp] theorem setClient_Clients (h : Hub) (p : Ptr) (c : Client) :
    (h.setClient p c).Clients = h.Clients := rfl

@[simp] theorem setClient_UserClients (h : Hub) (p : Ptr) (c : Client) :
    (h.setClient p c).UserClients = h.UserClients := rfl

@[simp] theorem setClient_spawned (h : Hub) (p : Ptr) (c : Client) :
    (h.setClient p c).spawned = h.spawned := rfl

@[simp] theorem setClient_statusCalls (h : Hub) (p : Ptr) (c : Client) :
    (h.setClient p c).statusCalls = h.statusCalls := rfl

@[simp] theorem setClient_hasStatusUpdater (h : Hub) (p : Ptr) (c : Client) :
    (h.setClient p c).hasStatusUpdater = h.hasStatusUpdater := rfl

@[simp] theorem setClient_heartbeatTimeout (h : Hub) (p : Ptr) (c : Client) :
    (h.setClient p c).heartbeatTimeout = h.heartbeatTimeout := rfl

theorem setClient_mem (h : Hub) (p q : Ptr) (c : Client) :
    (h.setClient p c).mem q = if q = p then c else h.mem q := by
  by_cases hq : q = p <;> simp [Hub.setClient, Function.update, hq]

@[simp] theorem setClient_mem_self (h : Hub) (p : Ptr) (c : Client) :
    (h.setClient p c).mem p = c := by
  simp [setClient_mem]

theorem setClient_mem_of_ne (h : Hub) {p q : Ptr} (c : Client) (hq : q ≠ p) :
    (h.setClient p c).mem q = h.mem q := by
  simp [setClient_mem, hq]

@[simp] theorem deleteClient_mem (h : Hub) (p : Ptr) : (h.deleteClient p).mem = h.mem := rfl

@[simp] theorem deleteClient_UserClients (h : Hub) (p : Ptr) :
    (h.deleteClient p).UserClients = h.UserClients := rfl

@[simp] theorem deleteClient_spawned (h : Hub) (p : Ptr) :
    (h.deleteClient p).spawned = h.spawned := rfl

@[simp] theorem deleteClient_statusCalls (h : Hub) (p : Ptr) :
    (h.deleteClient p).statusCalls = h.statusCalls := rfl

@[simp] theorem deleteClient_hasStatusUpdater (h : Hub) (p : Ptr) :
    (h.deleteClient p).hasStatusUpdater = h.hasStatusUpdater := rfl

@[simp] theorem deleteClient_heartbeatTimeout (h : Hub) (p : Ptr) :
    (h.deleteClient p).heartbeatTimeout = h.heartbeatTimeout := rfl

theorem mem_deleteClient (h : Hub) (p q : Ptr) :
    q ∈ (h.deleteClient p).Clients ↔ q ∈ h.Clients ∧ q ≠ p := by
  simp [Hub.deleteClient]

@[simp] theorem connClose_Clients (h : Hub) (p : Ptr) :
    (h.connClose p).Clients = h.Clients := rfl

@[simp] theorem connClose_UserClients (h : Hub) (p : Ptr) :
    (h.connClose p).UserClients = h.UserClients := rfl

@[simp] theorem connClose_spawned (h : Hub) (p : Ptr) :
    (h.connClose p).spawned = h.spawned := rfl

@[simp] theorem connClose_statusCalls (h : Hub) (p : Ptr) :
    (h.connClose p).statusCalls = h.statusCalls := rfl

@[simp] theorem connClose_hasStatusUpdater (h : Hub) (p : Ptr) :
    (h.connClose p).hasStatusUpdater = h.hasStatusUpdater := rfl

@[simp] theorem connClose_heartbeatTimeout (h : Hub) (p : Ptr) :
    (h.connClose p).heartbeatTimeout = h.heartbeatTimeout := rfl

theorem connClose_mem_of_ne (h : Hub) {p q : Ptr} (hq : q ≠ p) :
    (h.connClose p).mem q = h.mem q := by
  simp [Hub.connClose, setClient_mem, hq]

@[simp] theorem connClose_mem_self (h : Hub) (p : Ptr) :
    (h.connClose p).mem p = { h.mem p with ConnClosed := true } := by
  simp [Hub.connClose]

theorem closeSend_ok {h : Hub} {p : Ptr} (hopen : (h.mem p).Send.closed = false) :
    h.closeSend p = .ok (h.setClient p (h.mem p).sendClosed) := by
  simp [Hub.closeSend, Chan.close, hopen, Client.sendClosed]

theorem closeSend_error {h : Hub} {p : Ptr} (hclosed : (h.mem p).Send.closed = true) :
    h.closeSend p = .error Fault.closeOfClosedChannel := by
  simp [Hub.closeSend, Chan.close, hclosed]

theorem run_nil (h : Hub) : run [] h = .ok h := rfl

theorem run_cons (e : Event) (es : List Event) (h : Hub) :
    run (e :: es) h = (match step h e with
      | .error f => .error f
      | .ok h1 => run es h1) := by
  unfold run
  rw [List.foldlM_cons]
  cases step h e <;> rfl

/-- The loop of `Register` succeeds on distinct clients with open queues: it removes
them from `Clients`, closes their queue and connection, and touches nothing else. -/
theorem closeExisting_spec (l : List Ptr) : ∀ (h : Hub), l.Nodup →
    (∀ p ∈ l, (h.mem p).Send.closed = false) →
    ∃ h1, closeExisting l h = .ok h1 ∧
      h1.Clients = h.Clients.filter (fun q => decide (q ∉ l)) ∧
      h1.UserClients = h.UserClients ∧
      h1.hasStatusUpdater = h.hasStatusUpdater ∧
      h1.heartbeatTimeout = h.heartbeatTimeout ∧
      h1.spawned = h.spawned ∧
      h1.statusCalls = h.statusCalls ∧
      (∀ p, p ∉ l → h1.mem p = h.mem p) ∧
      (∀ p ∈ l, h1.mem p = { (h.mem p).sendClosed with ConnClosed := true }) := by
  induction l with
  | nil =>
    intro h _ _
    exact ⟨h, rfl, by simp, rfl, rfl, rfl, rfl, rfl, fun _ _ => rfl, by simp⟩
  | cons e rest ih =>
    intro h hnd hopen
    have he : ((h.deleteClient e).mem e).Send.closed = false := hopen e (by simp)
    have hnd1 := List.nodup_cons.mp hnd
    obtain ⟨h1, hrun, hC, hU, hS, hT, hG, hL, hout, hin⟩ :=
      ih ((((h.deleteClient e).setClient e ((h.deleteClient e).mem e).sendClosed)).connClose e)
        hnd1.2 (by
          intro p hp
          have hpe : p ≠ e := fun hpe => hnd1.1 (hpe ▸ hp)
          rw [connClose_mem_of_ne _ hpe, setClient_mem_of_ne _ _ hpe]
          exact hopen p (by simp [hp]))
    refine ⟨h1, ?_, ?_, ?_, ?_, ?_, ?_, ?_, ?_, ?_⟩
    · simp only [closeExisting, closeSend_ok he]
      exact hrun
    · rw [hC]
      simp [Hub.deleteClient, List.filter_filter, not_or]
      apply List.filter_congr
      intro x _
      by_cases hx : x = e <;> simp [hx]
    · rw [hU]; simp
    · rw [hS]; simp
    · rw [hT]; simp
    · rw [hG]; simp
    · rw [hL]; simp
    · intro p hp
      have hpe : p ≠ e := fun hpe => hp (by simp [hpe])
      rw [hout p (fun hpr => hp (by simp [hpr])), connClose_mem_of_ne _ hpe,
        setClient_mem_of_ne _ _ hpe]
      rfl
    · intro p hp
      rcases List.mem_cons.mp hp with hpe | hpr
      · subst hpe
        rw [hout p hnd1.1]
        simp
      · have hpe : p ≠ e := fun hpe => hnd1.1 (hpe ▸ hpr)
        rw [hin p hpr, connClose_mem_of_ne _ hpe, setClient_mem_of_ne _ _ hpe]
        rfl

/-- What `Register` does when the user's existing sessions are distinct objects with
open queues: it succeeds, evicts them, and files the new client alone. -/
theorem Register_spec (n : Ptr) (h : Hub)
    (hnd : (h.userClients (h.mem n).UserID).Nodup)
    (hopen : ∀ p ∈ h.userClients (h.mem n).UserID, (h.mem p).Send.closed = false) :
    ∃ h1, Register n h = .ok h1 ∧
      h1.UserClients = h.UserClients.insert (h.mem n).UserID [n] ∧
      (∀ q, q ∈ h1.Clients ↔
        q = n ∨ (q ∈ h.Clients ∧ q ∉ h.userClients (h.mem n).UserID)) ∧
      h1.hasStatusUpdater = h.hasStatusUpdater ∧
      h1.heartbeatTimeout = h.heartbeatTimeout ∧
      h1.spawned = h.spawned ∧
      h1.statusCalls = h.statusCalls ∧
      (∀ p, p ∉ h.userClients (h.mem n).UserID → h1.mem p = h.mem p) ∧
      (∀ p ∈ h.userClients (h.mem n).UserID,
        h1.mem p = { (h.mem p).sendClosed with ConnClosed := true }) := by
  cases hl : h.UserClients.lookup (h.mem n).UserID with
  | none =>
    have hu : h.userClients (h.mem n).UserID = [] := by simp [Hub.userClients, hl]
    refine ⟨{ h.addClient n with UserClients := h.UserClients.insert (h.mem n).UserID [n] },
      ?_, rfl, ?_, rfl, rfl, rfl, rfl, fun _ _ => rfl, ?_⟩
    · simp [Register, hl]
    · intro q
      by_cases hn : n ∈ h.Clients
      · simp only [Hub.addClient, hn, if_true, hu]
        constructor
        · intro hq; exact Or.inr ⟨hq, by simp⟩
        · rintro (rfl | ⟨hq, _⟩)
          · exact hn
          · exact hq
      · simp only [Hub.addClient, hn, if_false, hu, List.mem_append, List.mem_singleton]
        constructor
        · rintro (hq | hq)
          · exact Or.inr ⟨hq, by simp⟩
          · exact Or.inl hq
        · rintro (hq | ⟨hq, _⟩)
          · exact Or.inr hq
          · exact Or.inl hq
    · intro p hp
      rw [hu] at hp
      simp at hp
  | some l =>
    have hu : h.userClients (h.mem n).UserID = l := by simp [Hub.userClients, hl]
    rw [hu] at hnd hopen
    obtain ⟨h1, hrun, hC, hU, hS, hT, hG, hL, hout, hin⟩ := closeExisting_spec l h hnd hopen
    refine ⟨{ ({ h1 with UserClients := h1.UserClients.insert (h.mem n).UserID [] } : Hub).addClient n
        with UserClients := (h1.UserClients.insert (h.mem n).UserID []).insert (h.mem n).UserID [n] },
      ?_, ?_, ?_, hS, hT, hG, hL, ?_, ?_⟩
    · simp [Register, hl, hrun]
    · show (h1.UserClients.insert (h.mem n).UserID []).insert (h.mem n).UserID [n] = _
      rw [Finmap.insert_insert, hU]
    · intro q
      have hq1 : q ∈ h1.Clients ↔ (q ∈ h.Clients ∧ q ∉ l) := by
        rw [hC]; simp
      rw [hu]
      by_cases hn : n ∈ h1.Clients
      · simp only [Hub.addClient, hn, if_true]
        rw [hq1]
        constructor
        · intro hq; exact Or.inr hq
        · rintro (rfl | hq)
          · exact hq1.mp hn
          · exact hq
      · simp only [Hub.addClient, hn, if_false, List.mem_append, List.mem_singleton]
        rw [hq1]
        constructor
        · rintro (hq | hq)
          · exact Or.inr hq
          · exact Or.inl hq
        · rintro (hq | hq)
          · exact Or.inr hq
          · exact Or.inl hq
    · intro p hp
      rw [hu] at hp
      exact hout p hp
    · intro p hp
      rw [hu] at hp
      exact hin p hp

theorem userClients_insert_self (h : Hub) (m : Finmap (fun _ : String => List Ptr))
    (u : String) (l : List Ptr) :
    ({ h with UserClients := m.insert u l } : Hub).userClients u = l := by
  simp [Hub.userClients, Finmap.lookup_insert]

/-- Registering distinct new clients of one user, one after the other, from a state in
which that user's sessions are distinct and open: after each step the user's entry
holds exactly the client registered last. -/
theorem register_run_single (u : String) : ∀ (cs : List Ptr) (h : Hub),
    (h.userClients u).Nodup →
    (∀ p ∈ h.userClients u, (h.mem p).Send.closed = false ∧ p ∉ cs) →
    cs.Nodup →
    (∀ p ∈ cs, (h.mem p).UserID = u ∧ (h.mem p).Send.closed = false) →
    ∀ (k : Nat) (hk : k < cs.length),
      ∃ h1, run ((cs.take (k + 1)).map Event.Register) h = .ok h1 ∧
        h1.UserClients.lookup u = some [cs.get ⟨k, hk⟩] := by
  intro cs
  induction cs with
  | nil => intro h _ _ _ _ k hk; simp at hk
  | cons n rest ih =>
    intro h hnd hold hcs hnew k hk
    have hnu : (h.mem n).UserID = u := (hnew n (by simp)).1
    have hcs1 := List.nodup_cons.mp hcs
    obtain ⟨h1, hreg, hU, -, -, -, -, -, hout, -⟩ :=
      Register_spec n h (by rw [hnu]; exact hnd) (by
        intro p hp
        rw [hnu] at hp
        exact (hold p hp).1)
    rw [hnu] at hU hout
    have hlook : h1.UserClients.lookup u = some [n] := by
      rw [hU]; exact Finmap.lookup_insert _
    have hrun : ∀ es, run (Event.Register n :: es) h = run es h1 := by
      intro es
      rw [run_cons]
      simp [step, hreg]
    cases k with
    | zero =>
      refine ⟨h1, ?_, ?_⟩
      · simp only [List.take_succ_cons, List.take_zero, List.map_cons, List.map_nil]
        rw [hrun, run_nil]
      · simpa using hlook
    | succ j =>
      have hj : j < rest.length := by simpa using hk
      have hu1 : h1.userClients u = [n] := by simp [Hub.userClients, hlook]
      have hfresh : ∀ p ∈ rest, h1.mem p = h.mem p := by
        intro p hp
        apply hout
        intro hpin
        exact (hold p hpin).2 (by simp [hp])
      obtain ⟨h2, hrun2, hlook2⟩ := ih h1 (by rw [hu1]; simp) (by
          intro p hp
          rw [hu1] at hp
          have hpn : p = n := by simpa using hp
          subst hpn
          refine ⟨?_, hcs1.1⟩
          rw [hout p (fun hpin => (hold p hpin).2 (by simp))]
          exact (hnew p (by simp)).2)
        hcs1.2 (by
          intro p hp
          rw [hfresh p hp]
          exact hnew p (by simp [hp])) j hj
      refine ⟨h2, ?_, ?_⟩
      · simp only [List.take_succ_cons, List.map_cons]
        rw [hrun]
        exact hrun2
      · simpa using hlook2

/-- C1 (single active session).  From an empty hub, process `Register` events for
clients `cs` of one user `u`, each a newly built client as the connection handler
sends it (a distinct object whose `Send` queue is open).  After the `k+1`-th event
the hub has not faulted and `UserClients[u]` holds exactly one session, the one
registered last. -/
theorem register_single_active_session (h0 : Hub) (u : String) (cs : List Ptr)
    (hempty : h0.Clients = [] ∧ h0.UserClients = ∅)
    (hdistinct : cs.Nodup)
    (huser : ∀ c ∈ cs, (h0.mem c).UserID = u)
    (hopen : ∀ c ∈ cs, (h0.mem c).Send.closed = false)
    (k : Nat) (hk : k < cs.length) :
    ∃ h, run ((cs.take (k + 1)).map Event.Register) h0 = .ok h ∧
      h.UserClients.lookup u = some [cs.get ⟨k, hk⟩] := by
  have hu0 : h0.userClients u = [] := by
    simp [Hub.userClients, hempty.2, Finmap.lookup_empty]
  exact register_run_single u cs h0 (by rw [hu0]; simp) (by rw [hu0]; simp) hdistinct
    (fun p hp => ⟨huser p hp, hopen p hp⟩) k hk

theorem register_single_active_session_witness :
    ∃ h, run (([0, 1, 2].take (1 + 1)).map Event.Register) (NewHub demoMem) = .ok h ∧
      h.UserClients.lookup "A" = some [[0, 1, 2].get ⟨1, by decide⟩] :=
  register_single_active_session (NewHub demoMem) "A" [0, 1, 2] ⟨rfl, rfl⟩ (by decide)
    (fun _ _ => rfl) (fun _ _ => rfl) 1 (by decide)

theorem removeFirstWithID_eq_erase (mem : Ptr → Client) (s : Ptr) :
    ∀ (l : List Ptr), s ∈ l → (∀ p ∈ l, (mem p).ID = (mem s).ID → p = s) →
      removeFirstWithID mem (mem s).ID l = some (l.erase s) := by
  intro l
  induction l with
  | nil => intro hs; simp at hs
  | cons c cs ih =>
    intro hs huniq
    by_cases hc : (mem c).ID = (mem s).ID
    · have hcs : c = s := huniq c (by simp) hc
      subst hcs
      simp [removeFirstWithID]
    · have hne : c ≠ s := fun hcs => hc (by rw [hcs])
      have hs1 : s ∈ cs := by
        rcases List.mem_cons.mp hs with h1 | h1
        · exact absurd h1.symm hne
        · exact h1
      have := ih hs1 (fun p hp => huniq p (by simp [hp]))
      simp [removeFirstWithID, hc, this, List.erase_cons_tail, hne]

theorem removeFirstWithID_none (mem : Ptr → Client) (id : String) :
    ∀ (l : List Ptr), (∀ p ∈ l, (mem p).ID ≠ id) → removeFirstWithID mem id l = none := by
  intro l
  induction l with
  | nil => intro _; rfl
  | cons c cs ih =>
    intro hall
    have hc : (mem c).ID ≠ id := hall c (by simp)
    simp [removeFirstWithID, hc, ih (fun p hp => hall p (by simp [hp]))]

theorem Finmap_erase_insert (m : Finmap (fun _ : String => List Ptr)) (u : String)
    (l : List Ptr) : (m.insert u l).erase u = m.erase u := by
  apply Finmap.ext_lookup
  intro x
  by_cases hx : x = u
  · subst hx; simp [Finmap.lookup_erase]
  · rw [Finmap.lookup_erase_ne hx, Finmap.lookup_erase_ne hx, Finmap.lookup_insert_of_ne _ hx]

/-- `Unregister` of a session not in `Clients` is a no-op. -/
theorem Unregister_of_not_mem (s : Ptr) (h : Hub) (hs : s ∉ h.Clients) :
    Unregister s h = .ok h := by
  simp [Unregister, hs]

/-- `Unregister` of a registered session with an open queue, filed under its user and
the only one there to carry its ID. -/
theorem Unregister_spec (s : Ptr) (h : Hub) (hin : s ∈ h.Clients)
    (hopen : (h.mem s).Send.closed = false)
    (hfiled : s ∈ h.userClients (h.mem s).UserID)
    (huniq : ∀ p ∈ h.userClients (h.mem s).UserID, (h.mem p).ID = (h.mem s).ID → p = s) :
    Unregister s h = .ok (unregistered s h) := by
  have ho : ((h.deleteClient s).mem s).Send.closed = false := hopen
  have hrem : removeFirstWithID
      (((h.deleteClient s).setClient s ((h.deleteClient s).mem s).sendClosed).mem)
      ((((h.deleteClient s).setClient s ((h.deleteClient s).mem s).sendClosed).mem s).ID)
      (h.userClients (h.mem s).UserID) = some ((h.userClients (h.mem s).UserID).erase s) := by
    apply removeFirstWithID_eq_erase
    · exact hfiled
    · intro p hp hid
      apply huniq p hp
      by_cases hps : p = s
      · rw [hps]
      · rw [setClient_mem_self, setClient_mem_of_ne _ _ hps] at hid
        exact hid
  have hu : ((h.deleteClient s).setClient s ((h.deleteClient s).mem s).sendClosed).userClients
      (h.mem s).UserID = h.userClients (h.mem s).UserID := rfl
  have hid : (((h.deleteClient s).setClient s ((h.deleteClient s).mem s).sendClosed).mem s).UserID
      = (h.mem s).UserID := by
    rw [setClient_mem_self]; rfl
  unfold Unregister
  rw [if_pos hin, closeSend_ok ho]
  simp only [Hub.dropFromUserClients, hid, hu, hrem, userClients_insert_self]
  by_cases hlen : ((h.userClients (h.mem s).UserID).erase s).length = 0
  · rw [if_pos hlen]
    simp only [unregistered, if_pos hlen, Finmap_erase_insert]
    rfl
  · rw [if_neg hlen]
    simp only [unregistered, if_neg hlen]
    rfl

/-- The invariant behind map consistency for `Register`/`Unregister` traces: every
registered session has an open queue and is alone in its user's entry, every entry is
such a singleton, and the clients still to be registered are untouched. -/
theorem regInv_Register (n : Ptr) (future : List Ptr) (h : Hub)
    (hA : ∀ p ∈ h.Clients, (h.mem p).Send.closed = false ∧
      h.UserClients.lookup (h.mem p).UserID = some [p] ∧ p ∉ n :: future)
    (hB : ∀ u l, h.UserClients.lookup u = some l →
      ∃ p, l = [p] ∧ p ∈ h.Clients ∧ (h.mem p).UserID = u)
    (hC : ∀ p ∈ n :: future, (h.mem p).Send.closed = false)
    (hnd : (n :: future).Nodup) :
    ∃ h1, Register n h = .ok h1 ∧
      (∀ p ∈ h1.Clients, (h1.mem p).Send.closed = false ∧
        h1.UserClients.lookup (h1.mem p).UserID = some [p] ∧ p ∉ future) ∧
      (∀ u l, h1.UserClients.lookup u = some l →
        ∃ p, l = [p] ∧ p ∈ h1.Clients ∧ (h1.mem p).UserID = u) ∧
      (∀ p ∈ future, (h1.mem p).Send.closed = false) := by
  have hnd1 := List.nodup_cons.mp hnd
  -- the user's entry holds registered sessions only
  have hsub : ∀ p ∈ h.userClients (h.mem n).UserID,
      p ∈ h.Clients ∧ (h.mem p).UserID = (h.mem n).UserID ∧
        h.userClients (h.mem n).UserID = [p] := by
    intro p hp
    cases hl : h.UserClients.lookup (h.mem n).UserID with
    | none => simp [Hub.userClients, hl] at hp
    | some l =>
      obtain ⟨q, hq, hqC, hqU⟩ := hB _ _ hl
      have : h.userClients (h.mem n).UserID = [q] := by simp [Hub.userClients, hl, hq]
      rw [this] at hp
      have hpq : p = q := by simpa using hp
      subst hpq
      exact ⟨hqC, hqU, this⟩
  obtain ⟨h1, hreg, hU, hCl, -, -, -, -, hout, -⟩ := Register_spec n h (by
      cases hl : h.UserClients.lookup (h.mem n).UserID with
      | none => simp [Hub.userClients, hl]
      | some l =>
        obtain ⟨q, hq, -, -⟩ := hB _ _ hl
        simp [Hub.userClients, hl, hq])
    (fun p hp => (hA p (hsub p hp).1).1)
  have hnotin : ∀ p, p ∈ n :: future → p ∉ h.userClients (h.mem n).UserID :=
    fun p hp hpin => (hA p (hsub p hpin).1).2.2 hp
  have hmemn : h1.mem n = h.mem n := hout n (hnotin n (by simp))
  refine ⟨h1, hreg, ?_, ?_, ?_⟩
  · intro q hq
    rcases (hCl q).mp hq with rfl | ⟨hqC, hqn⟩
    · refine ⟨?_, ?_, hnd1.1⟩
      · rw [hmemn]; exact hC q (by simp)
      · rw [hmemn, hU]; exact Finmap.lookup_insert _
    · have hmq : h1.mem q = h.mem q := hout q hqn
      obtain ⟨ho, hlq, hfut⟩ := hA q hqC
      have hne : (h.mem q).UserID ≠ (h.mem n).UserID := by
        intro heq
        apply hqn
        rw [heq] at hlq
        simp [Hub.userClients, hlq]
      refine ⟨by rw [hmq]; exact ho, ?_, fun hf => hfut (by simp [hf])⟩
      rw [hmq, hU, Finmap.lookup_insert_of_ne _ hne]
      exact hlq
  · intro u l hl
    rw [hU] at hl
    by_cases hu : u = (h.mem n).UserID
    · subst hu
      rw [Finmap.lookup_insert] at hl
      have hl1 : l = [n] := by simpa using hl.symm
      exact ⟨n, hl1, (hCl n).mpr (Or.inl rfl), hmemn ▸ rfl⟩
    · rw [Finmap.lookup_insert_of_ne _ hu] at hl
      obtain ⟨p, hp, hpC, hpU⟩ := hB u l hl
      have hpn : p ∉ h.userClients (h.mem n).UserID := by
        intro hpin
        exact hu ((hpU.symm).trans (hsub p hpin).2.1)
      refine ⟨p, hp, (hCl p).mpr (Or.inr ⟨hpC, hpn⟩), ?_⟩
      rw [hout p hpn]; exact hpU
  · intro p hp
    rw [hout p (hnotin p (by simp [hp]))]
    exact hC p (by simp [hp])

theorem regInv_Unregister (c : Ptr) (future : List Ptr) (h : Hub)
    (hA : ∀ p ∈ h.Clients, (h.mem p).Send.closed = false ∧
      h.UserClients.lookup (h.mem p).UserID = some [p] ∧ p ∉ future)
    (hB : ∀ u l, h.UserClients.lookup u = some l →
      ∃ p, l = [p] ∧ p ∈ h.Clients ∧ (h.mem p).UserID = u)
    (hC : ∀ p ∈ future, (h.mem p).Send.closed = false) :
    ∃ h1, Unregister c h = .ok h1 ∧
      (∀ p ∈ h1.Clients, (h1.mem p).Send.closed = false ∧
        h1.UserClients.lookup (h1.mem p).UserID = some [p] ∧ p ∉ future) ∧
      (∀ u l, h1.UserClients.lookup u = some l →
        ∃ p, l = [p] ∧ p ∈ h1.Clients ∧ (h1.mem p).UserID = u) ∧
      (∀ p ∈ future, (h1.mem p).Send.closed = false) := by
  by_cases hin : c ∈ h.Clients
  · obtain ⟨ho, hl, hfut⟩ := hA c hin
    have hu : h.userClients (h.mem c).UserID = [c] := by simp [Hub.userClients, hl]
    have hspec := Unregister_spec c h hin ho (by rw [hu]; simp) (by
      intro p hp _
      rw [hu] at hp
      simpa using hp)
    have hUC : (unregistered c h).UserClients = h.UserClients.erase (h.mem c).UserID := by
      simp [unregistered, hu]
    have hmem : ∀ p, p ≠ c → (unregistered c h).mem p = h.mem p := by
      intro p hp
      simp [unregistered, Function.update, hp]
    have hCl : ∀ p, p ∈ (unregistered c h).Clients ↔ p ∈ h.Clients ∧ p ≠ c := by
      intro p
      simp [unregistered]
    refine ⟨_, hspec, ?_, ?_, ?_⟩
    · intro p hp
      obtain ⟨hpC, hpc⟩ := (hCl p).mp hp
      obtain ⟨hpo, hpl, hpf⟩ := hA p hpC
      rw [hmem p hpc, hUC]
      refine ⟨hpo, ?_, hpf⟩
      have hne : (h.mem p).UserID ≠ (h.mem c).UserID := by
        intro heq
        rw [heq, hl] at hpl
        apply hpc
        simpa using hpl.symm
      rw [Finmap.lookup_erase_ne hne]
      exact hpl
    · intro u l hlu
      rw [hUC] at hlu
      have hne : u ≠ (h.mem c).UserID := by
        intro heq
        rw [heq, Finmap.lookup_erase] at hlu
        exact absurd hlu (by simp)
      rw [Finmap.lookup_erase_ne hne] at hlu
      obtain ⟨p, hp, hpC, hpU⟩ := hB u l hlu
      have hpc : p ≠ c := by
        intro heq
        rw [heq] at hpU
        exact hne hpU.symm
      exact ⟨p, hp, (hCl p).mpr ⟨hpC, hpc⟩, by rw [hmem p hpc]; exact hpU⟩
    · intro p hp
      have hpc : p ≠ c := fun heq => hfut (heq ▸ hp)
      rw [hmem p hpc]
      exact hC p hp
  · exact ⟨h, Unregister_of_not_mem c h hin, hA, hB, hC⟩

/-- A trace of `Register` and `Unregister` events keeps the invariant. -/
theorem regInv_run : ∀ (evs : List Event) (h : Hub),
    (∀ e ∈ evs, e.isStructural = true) →
    (registered evs).Nodup →
    (∀ p ∈ h.Clients, (h.mem p).Send.closed = false ∧
      h.UserClients.lookup (h.mem p).UserID = some [p] ∧ p ∉ registered evs) →
    (∀ u l, h.UserClients.lookup u = some l →
      ∃ p, l = [p] ∧ p ∈ h.Clients ∧ (h.mem p).UserID = u) →
    (∀ p ∈ registered evs, (h.mem p).Send.closed = false) →
    ∃ h1, run evs h = .ok h1 ∧
      (∀ p ∈ h1.Clients, h1.UserClients.lookup (h1.mem p).UserID = some [p]) ∧
      (∀ u l, h1.UserClients.lookup u = some l → ∃ p, l = [p] ∧ p ∈ h1.Clients) := by
  intro evs
  induction evs with
  | nil =>
    intro h _ _ hA hB _
    refine ⟨h, rfl, fun p hp => (hA p hp).2.1, ?_⟩
    intro u l hl
    obtain ⟨p, hp, hpC, -⟩ := hB u l hl
    exact ⟨p, hp, hpC⟩
  | cons e rest ih =>
    intro h hkind hnd hA hB hC
    have hkind1 : ∀ e ∈ rest, e.isStructural = true :=
      fun e he => hkind e (by simp [he])
    have hkind0 : (∃ c, e = Event.Register c) ∨ (∃ c, e = Event.Unregister c) := by
      have := hkind e (by simp)
      cases e <;> simp [Event.isStructural] at this ⊢
    rcases hkind0 with ⟨c, rfl⟩ | ⟨c, rfl⟩
    · have hreg : registered (Event.Register c :: rest) = c :: registered rest := rfl
      rw [hreg] at hnd hA hC
      obtain ⟨h1, hstep, hA1, hB1, hC1⟩ := regInv_Register c (registered rest) h hA hB hC hnd
      obtain ⟨h2, hrun, hres⟩ := ih h1 hkind1 (List.nodup_cons.mp hnd).2 hA1 hB1 hC1
      refine ⟨h2, ?_, hres⟩
      rw [run_cons]
      simp only [step, hstep]
      exact hrun
    · have hreg : registered (Event.Unregister c :: rest) = registered rest := rfl
      rw [hreg] at hnd hA hC
      obtain ⟨h1, hstep, hA1, hB1, hC1⟩ := regInv_Unregister c (registered rest) h hA hB hC
      obtain ⟨h2, hrun, hres⟩ := ih h1 hkind1 hnd hA1 hB1 hC1
      refine ⟨h2, ?_, hres⟩
      rw [run_cons]
      simp only [step, hstep]
      exact hrun

/-- C2 (map consistency).  From an empty hub, process any finite sequence of `Register`
and `Unregister` events in which every `Register` carries a newly built client (a
distinct object whose `Send` queue is open).  The hub does not fault, and afterwards a
session is in `Clients` if and only if it appears in some entry of `UserClients`. -/
theorem register_unregister_map_consistency (h0 : Hub) (evs : List Event)
    (hempty : h0.Clients = [] ∧ h0.UserClients = ∅)
    (hkind : ∀ e ∈ evs, e.isStructural = true)
    (hdistinct : (registered evs).Nodup)
    (hopen : ∀ c ∈ registered evs, (h0.mem c).Send.closed = false) :
    ∃ h, run evs h0 = .ok h ∧ ∀ p, p ∈ h.Clients ↔ InUserClients h p := by
  obtain ⟨h, hrun, hA, hB⟩ := regInv_run evs h0 hkind hdistinct
    (by rw [hempty.1]; simp)
    (by rw [hempty.2]; intro u l hl; rw [Finmap.lookup_empty] at hl; exact absurd hl (by simp))
    hopen
  refine ⟨h, hrun, ?_⟩
  intro p
  constructor
  · intro hp
    exact ⟨_, _, hA p hp, by simp⟩
  · rintro ⟨u, l, hl, hpl⟩
    obtain ⟨q, hq, hqC⟩ := hB u l hl
    rw [hq] at hpl
    have : p = q := by simpa using hpl
    rw [this]; exact hqC

theorem register_unregister_map_consistency_witness :
    ∃ h, run [Event.Register 0, Event.Register 1, Event.Unregister 0, Event.Unregister 1,
        Event.Register 2] (NewHub demoMem) = .ok h ∧
      ∀ p, p ∈ h.Clients ↔ InUserClients h p :=
  register_unregister_map_consistency (NewHub demoMem) _ ⟨rfl, rfl⟩ (by decide) (by decide)
    (fun _ _ => rfl)

theorem closeSend_Clients {h h1 : Hub} {p : Ptr} (hc : h.closeSend p = .ok h1) :
    h1.Clients = h.Clients := by
  unfold Hub.closeSend at hc
  split at hc
  · cases hc
  · cases hc; rfl

theorem dropFromUserClients_Clients (h : Hub) (p : Ptr) :
    (h.dropFromUserClients p).Clients = h.Clients := by
  unfold Hub.dropFromUserClients
  dsimp only
  split <;> rfl

/-- After a successful `Unregister` the session is not in `Clients`. -/
theorem Unregister_not_mem {s : Ptr} {h h1 : Hub} (hu : Unregister s h = .ok h1) :
    s ∉ h1.Clients := by
  unfold Unregister at hu
  by_cases hs : s ∈ h.Clients
  · rw [if_pos hs] at hu
    split at hu
    · cases hu
    · rename_i h2 hc
      have hC2 : h2.Clients = (h.deleteClient s).Clients := closeSend_Clients hc
      have hnot : s ∉ (h2.dropFromUserClients s).Clients := by
        rw [dropFromUserClients_Clients, hC2, mem_deleteClient]
        exact fun hx => hx.2 rfl
      dsimp only at hu
      split at hu
      · cases hu; exact hnot
      · cases hu; exact hnot
  · rw [if_neg hs] at hu
    cases hu
    exact hs

/-- C4 (idempotent unregister).  For every hub state and every session, processing
`Unregister` of the session twice in a row gives exactly the result of processing it
once: the same hub state (maps, client objects with their queues, recorded presence
calls), or the same fault.  An `Unregister` of a session that is not in `Clients`
returns the state unchanged. -/
theorem unregister_idempotent (s : Ptr) (h : Hub) :
    run [Event.Unregister s, Event.Unregister s] h = run [Event.Unregister s] h ∧
      (s ∉ h.Clients → Unregister s h = .ok h) := by
  refine ⟨?_, Unregister_of_not_mem s h⟩
  rw [run_cons, run_cons]
  simp only [step]
  cases hu : Unregister s h with
  | error f => rfl
  | ok h1 =>
    simp only [run_cons, run_nil, step, Unregister_of_not_mem s h1 (Unregister_not_mem hu)]

theorem unregister_idempotent_witness :
    (run [Event.Unregister 0, Event.Unregister 0] (NewHub demoMem)
        = run [Event.Unregister 0] (NewHub demoMem)) ∧
      (0 ∉ (NewHub demoMem).Clients ∧ Unregister 0 (NewHub demoMem) = .ok (NewHub demoMem)) :=
  ⟨(unregister_idempotent 0 (NewHub demoMem)).1, by decide,
    (unregister_idempotent 0 (NewHub demoMem)).2 (by decide)⟩

theorem userClients_eq_of_lookup {h : Hub} {u : String} {l : List Ptr}
    (hl : h.UserClients.lookup u = some l) : h.userClients u = l := by
  simp [Hub.userClients, hl]

theorem mem_userClients_iff (h : Hub) (u : String) (p : Ptr) :
    p ∈ h.userClients u ↔ ∃ l, h.UserClients.lookup u = some l ∧ p ∈ l := by
  cases hl : h.UserClients.lookup u with
  | none => simp [Hub.userClients, hl]
  | some l => simp [Hub.userClients, hl]

/-- Membership in the entries of `UserClients` after `Unregister`, for a session
filed once and only under its own user. -/
theorem not_inUserClients_unregistered (s : Ptr) (h : Hub)
    (hnd : (h.userClients (h.mem s).UserID).Nodup)
    (hown : ∀ u l, h.UserClients.lookup u = some l → s ∈ l → u = (h.mem s).UserID) :
    ¬ InUserClients (unregistered s h) s := by
  rintro ⟨u, l, hl, hsl⟩
  by_cases hu : u = (h.mem s).UserID
  · subst hu
    by_cases hlen : ((h.userClients (h.mem s).UserID).erase s).length = 0
    · simp [unregistered, hlen, Finmap.lookup_erase] at hl
    · simp only [unregistered, if_neg hlen, Finmap.lookup_insert] at hl
      have hl1 : (h.userClients (h.mem s).UserID).erase s = l := by simpa using hl
      rw [← hl1] at hsl
      exact (List.Nodup.mem_erase_iff hnd).mp hsl |>.1 rfl
  · have hl0 : h.UserClients.lookup u = some l := by
      by_cases hlen : ((h.userClients (h.mem s).UserID).erase s).length = 0
      · simpa [unregistered, hlen, Finmap.lookup_erase_ne hu] using hl
      · simpa [unregistered, hlen, Finmap.lookup_insert_of_ne _ hu] using hl
    exact hu (hown u l hl0 hsl)

/-- C5 (Unregister postcondition).  Let `s` be registered: in `Clients` and in
`UserClients[s.UserID]`.  In a well-formed hub (the queue of a registered session is
open; `s` is filed once, only under its own user, and no other session of that entry
carries its ID), `Unregister` of `s` succeeds, and afterwards `s` is in neither
`Clients` nor any entry of `UserClients`, its `Send` queue is closed, and if `s` was
the user's only session the key `s.UserID` is absent from `UserClients`. -/
theorem unregister_postcondition (s : Ptr) (h : Hub)
    (hin : s ∈ h.Clients)
    (hfiled : s ∈ h.userClients (h.mem s).UserID)
    (hopen : (h.mem s).Send.closed = false)
    (huniq : ∀ p ∈ h.userClients (h.mem s).UserID, (h.mem p).ID = (h.mem s).ID → p = s)
    (hnd : (h.userClients (h.mem s).UserID).Nodup)
    (hown : ∀ u l, h.UserClients.lookup u = some l → s ∈ l → u = (h.mem s).UserID) :
    ∃ h1, Unregister s h = .ok h1 ∧
      s ∉ h1.Clients ∧
      ¬ InUserClients h1 s ∧
      (h1.mem s).Send.closed = true ∧
      (h.userClients (h.mem s).UserID = [s] →
        h1.UserClients.lookup (h.mem s).UserID = none) := by
  refine ⟨unregistered s h, Unregister_spec s h hin hopen hfiled huniq, ?_,
    not_inUserClients_unregistered s h hnd hown, ?_, ?_⟩
  · simp [unregistered]
  · simp [unregistered, Client.sendClosed]
  · intro honly
    simp [unregistered, honly, Finmap.lookup_erase]

theorem unregister_postcondition_witness :
    ∃ h1, Unregister 0 oneTab = .ok h1 ∧
      0 ∉ h1.Clients ∧
      ¬ InUserClients h1 0 ∧
      (h1.mem 0).Send.closed = true ∧
      (oneTab.userClients (oneTab.mem 0).UserID = [0] →
        h1.UserClients.lookup (oneTab.mem 0).UserID = none) :=
  unregister_postcondition 0 oneTab (by decide) (by decide) (by decide) (by decide)
    (by decide) (by
      intro u l hl _
      by_cases hu : u = "A"
      · exact hu
      · have : oneTab.UserClients.lookup u = none := by
          simp [oneTab, Finmap.lookup_insert_of_ne _ hu, Finmap.lookup_empty]
        rw [this] at hl
        exact absurd hl (by simp))

/-- C9 (BroadcastToUser on an absent user).  For every hub state, every user with no
entry in `UserClients` and every message (whether or not `json.Marshal` accepts it),
`BroadcastToUser` returns normally and the whole hub state (both maps, every client
object with its queue and flags, the recorded calls) is unchanged. -/
theorem broadcastToUser_absent_user {α : Type} (jsonMarshal : α → Option Bytes)
    (userID : String) (message : α) (h : Hub)
    (habsent : h.UserClients.lookup userID = none) :
    BroadcastToUser jsonMarshal userID message h = .ok h := by
  unfold BroadcastToUser
  cases jsonMarshal message with
  | none => rfl
  | some payload => simp [habsent]

theorem broadcastToUser_absent_user_witness :
    oneTab.UserClients.lookup "C" = none ∧
      BroadcastToUser demoMarshal "C" pingMessage oneTab = .ok oneTab :=
  ⟨by decide, broadcastToUser_absent_user demoMarshal "C" pingMessage oneTab (by decide)⟩

theorem sendToUserOne_ok (payload : Bytes) (h : Hub) (c : Ptr)
    (hroom : (h.mem c).IsActive = true →
      (h.mem c).Send.closed = false ∧ (h.mem c).Send.buf.length < (h.mem c).Send.cap) :
    sendToUserOne payload h c = .ok (delivered payload [c] h) := by
  unfold sendToUserOne
  by_cases ha : (h.mem c).IsActive = true
  · obtain ⟨ho, hr⟩ := hroom ha
    simp only [ha, if_true, Chan.trySend, ho, hr, Bool.false_eq_true, if_false]
    congr 1
    simp only [Hub.setClient, delivered]
    congr 1
    funext p
    by_cases hp : p = c
    · subst hp; simp [ha, Client.enqueued, ho]
    · simp [Function.update, hp]
  · simp only [ha, Bool.false_eq_true, if_false]
    congr 1
    simp only [delivered]
    have : (fun p => if p ∈ [c] ∧ (h.mem p).IsActive = true
        then (h.mem p).enqueued payload else h.mem p) = h.mem := by
      funext p
      by_cases hp : p = c
      · subst hp; simp [ha]
      · simp [hp]
    rw [this]

/-- The loop of `BroadcastToUser` over distinct clients whose queues have room. -/
theorem foldlM_sendToUserOne (payload : Bytes) : ∀ (l : List Ptr) (h : Hub), l.Nodup →
    (∀ p ∈ l, (h.mem p).IsActive = true →
      (h.mem p).Send.closed = false ∧ (h.mem p).Send.buf.length < (h.mem p).Send.cap) →
    l.foldlM (sendToUserOne payload) h = .ok (delivered payload l h) := by
  intro l
  induction l with
  | nil =>
    intro h _ _
    simp [delivered]
    rfl
  | cons c rest ih =>
    intro h hnd hroom
    have hnd1 := List.nodup_cons.mp hnd
    rw [List.foldlM_cons, sendToUserOne_ok payload h c (hroom c (by simp))]
    have hsame : ∀ p ∈ rest, (delivered payload [c] h).mem p = h.mem p := by
      intro p hp
      have hpc : p ≠ c := fun hpc => hnd1.1 (hpc ▸ hp)
      simp [delivered, hpc]
    show rest.foldlM (sendToUserOne payload) (delivered payload [c] h) = _
    rw [ih (delivered payload [c] h) hnd1.2 (by
      intro p hp
      rw [hsame p hp]
      exact hroom p (by simp [hp]))]
    congr 1
    simp only [delivered]
    congr 1
    funext p
    by_cases hpc : p = c
    · subst hpc
      simp [hnd1.1]
    · simp [hpc]

/-- C10 (BroadcastToUser targeting).  Let `json.Marshal` encode the message as
`payload`, and let the sessions filed under the user be distinct objects whose queues
are neither closed nor full.  Then `BroadcastToUser` returns normally and the hub
afterwards is the hub before with `payload` appended once at the tail of the `Send`
queue of exactly the sessions of `UserClients[userID]` whose `IsActive` is true:
inactive sessions of the user, sessions of other users and both maps are unchanged. -/
theorem broadcastToUser_targets_active {α : Type} (jsonMarshal : α → Option Bytes)
    (userID : String) (message : α) (payload : Bytes) (h : Hub)
    (hjson : jsonMarshal message = some payload)
    (hdistinct : (h.userClients userID).Nodup)
    (hroom : ∀ p ∈ h.userClients userID,
      (h.mem p).Send.closed = false ∧ (h.mem p).Send.buf.length < (h.mem p).Send.cap) :
    BroadcastToUser jsonMarshal userID message h
        = .ok (delivered payload (h.userClients userID) h) ∧
      (delivered payload (h.userClients userID) h).Clients = h.Clients ∧
      (delivered payload (h.userClients userID) h).UserClients = h.UserClients ∧
      ∀ p, (delivered payload (h.userClients userID) h).mem p =
        if p ∈ h.userClients userID ∧ (h.mem p).IsActive = true then
          { h.mem p with Send := { (h.mem p).Send with buf := (h.mem p).Send.buf ++ [payload] } }
        else h.mem p := by
  refine ⟨?_, rfl, rfl, fun p => rfl⟩
  unfold BroadcastToUser
  rw [hjson]
  cases hl : h.UserClients.lookup userID with
  | none =>
    have hu : h.userClients userID = [] := by simp [Hub.userClients, hl]
    simp only [hu, delivered]
    congr 1
  | some l =>
    have hu : h.userClients userID = l := userClients_eq_of_lookup hl
    rw [hu] at hdistinct hroom ⊢
    exact foldlM_sendToUserOne payload l h hdistinct (fun p hp _ => hroom p hp)

theorem broadcastToUser_targets_active_witness :
    BroadcastToUser demoMarshal "A" pingMessage twoTabs
        = .ok (delivered pingMessage (twoTabs.userClients "A") twoTabs) ∧
      (delivered pingMessage (twoTabs.userClients "A") twoTabs).Clients = twoTabs.Clients ∧
      (delivered pingMessage (twoTabs.userClients "A") twoTabs).UserClients
        = twoTabs.UserClients ∧
      ∀ p, (delivered pingMessage (twoTabs.userClients "A") twoTabs).mem p =
        if p ∈ twoTabs.userClients "A" ∧ (twoTabs.mem p).IsActive = true then
          { twoTabs.mem p with
            Send := { (twoTabs.mem p).Send with
              buf := (twoTabs.mem p).Send.buf ++ [pingMessage] } }
        else twoTabs.mem p :=
  broadcastToUser_targets_active demoMarshal "A" pingMessage pingMessage twoTabs rfl
    (by decide) (by
      intro p _
      exact ⟨rfl, show (0 : Nat) < 256 by decide⟩)

theorem unregistered_UserClients (s : Ptr) (h : Hub) :
    (unregistered s h).UserClients =
      if ((h.userClients (h.mem s).UserID).erase s).length = 0 then
        h.UserClients.erase (h.mem s).UserID
      else h.UserClients.insert (h.mem s).UserID ((h.userClients (h.mem s).UserID).erase s) :=
  rfl

theorem userClients_unregistered_self (s : Ptr) (h : Hub) :
    (unregistered s h).userClients (h.mem s).UserID
      = (h.userClients (h.mem s).UserID).erase s := by
  have hdef : (unregistered s h).userClients (h.mem s).UserID
      = ((unregistered s h).UserClients.lookup (h.mem s).UserID).getD [] := rfl
  rw [hdef, unregistered_UserClients]
  by_cases hlen : ((h.userClients (h.mem s).UserID).erase s).length = 0
  · have hnil : (h.userClients (h.mem s).UserID).erase s = [] := List.length_eq_zero.mp hlen
    rw [if_pos hlen, Finmap.lookup_erase, hnil]
    rfl
  · rw [if_neg hlen, Finmap.lookup_insert]
    rfl

theorem unregistered_mem_of_ne (s : Ptr) (h : Hub) {p : Ptr} (hp : p ≠ s) :
    (unregistered s h).mem p = h.mem p := by
  simp [unregistered, Function.update, hp]

theorem unregistered_statusCalls (s : Ptr) (h : Hub) :
    (unregistered s h).statusCalls = h.statusCalls := rfl

theorem HasActiveClient_eq_any (u : String) (h : Hub) :
    HasActiveClient u h = (h.userClients u).any (fun c => (h.mem c).IsActive) := by
  unfold HasActiveClient Hub.userClients
  cases h.UserClients.lookup u <;> simp

theorem any_congr_mem {l : List Ptr} {f g : Ptr → Bool} (hfg : ∀ p ∈ l, f p = g p) :
    l.any f = l.any g := by
  induction l with
  | nil => rfl
  | cons a t ih =>
    simp only [List.any_cons]
    rw [hfg a (by simp), ih (fun p hp => hfg p (by simp [hp]))]

/-- The presence calls of a disconnect of a registered session when the `Unregister` case
body runs before the check of the handler's watcher of `Done`: the hub's `Unregister`
case makes none, and the watcher calls the offline operation exactly when none of the
sessions left in the user's entry is active. -/
theorem disconnect_statusCalls (s : Ptr) (h : Hub)
    (hin : s ∈ h.Clients)
    (hfiled : s ∈ h.userClients (h.mem s).UserID)
    (hopen : (h.mem s).Send.closed = false)
    (hdone : (h.mem s).DoneClosed = false)
    (huniq : ∀ p ∈ h.userClients (h.mem s).UserID, (h.mem p).ID = (h.mem s).ID → p = s)
    (hnd : (h.userClients (h.mem s).UserID).Nodup) :
    ∃ h0 h1, Unregister s h = .ok h0 ∧ h0.statusCalls = h.statusCalls ∧
      disconnect Schedule.hubFirst true s h = .ok h1 ∧
      h1.statusCalls = h.statusCalls ++
        (if ((h.userClients (h.mem s).UserID).erase s).any (fun c => (h.mem c).IsActive)
         then [] else [StatusCall.SetUserOffline (h.mem s).UserID]) := by
  have hspec := Unregister_spec s h hin hopen hfiled huniq
  have hd : (((unregistered s h).connClose s).mem s).DoneClosed = false := by
    simp [unregistered, Client.sendClosed, hdone]
  obtain ⟨hx, hexit, hxcalls, hactive⟩ : ∃ hx, readPumpExit s h = .ok hx ∧
      hx.statusCalls = h.statusCalls ∧
      HasActiveClient (h.mem s).UserID hx
        = ((h.userClients (h.mem s).UserID).erase s).any (fun c => (h.mem c).IsActive) := by
    refine ⟨((unregistered s h).connClose s).setClient s
      { ((unregistered s h).connClose s).mem s with DoneClosed := true }, ?_, rfl, ?_⟩
    · simp only [readPumpExit, hspec, Hub.closeDone, hd, Bool.false_eq_true, if_false]
    · rw [HasActiveClient_eq_any]
      have hu : ((((unregistered s h).connClose s).setClient s
          { ((unregistered s h).connClose s).mem s with DoneClosed := true })).userClients
            (h.mem s).UserID = (h.userClients (h.mem s).UserID).erase s :=
        userClients_unregistered_self s h
      rw [hu]
      apply any_congr_mem
      intro p hp
      have hps : p ≠ s := fun hps => ((List.Nodup.mem_erase_iff hnd).mp hp).1 hps
      rw [setClient_mem_of_ne _ _ hps, connClose_mem_of_ne _ hps,
        unregistered_mem_of_ne s h hps]
  refine ⟨unregistered s h, doneWatcher true (h.mem s).UserID hx, hspec, rfl, ?_, ?_⟩
  · simp only [disconnect, hexit]
  · simp only [doneWatcher, hactive, Bool.and_true]
    cases hany : ((h.userClients (h.mem s).UserID).erase s).any (fun c => (h.mem c).IsActive)
    · simp [hxcalls]
    · simp [hxcalls]

/-- Let `s` be a registered session.  The `Unregister` case of the hub loop records no
presence call itself.  Under the schedule in which that case body runs before the check
of the handler's watcher, the disconnect of `s` calls the offline operation for
`s.UserID` exactly once when `s` is the only session of the user's entry, and also when
every other session of the entry is inactive; it makes no call when another session of
the entry is active. -/
theorem disconnect_offline_presence (s : Ptr) (h : Hub)
    (hin : s ∈ h.Clients)
    (hfiled : s ∈ h.userClients (h.mem s).UserID)
    (hopen : (h.mem s).Send.closed = false)
    (hdone : (h.mem s).DoneClosed = false)
    (huniq : ∀ p ∈ h.userClients (h.mem s).UserID, (h.mem p).ID = (h.mem s).ID → p = s)
    (hnd : (h.userClients (h.mem s).UserID).Nodup) :
    ∃ h0 h1, Unregister s h = .ok h0 ∧ h0.statusCalls = h.statusCalls ∧
      disconnect Schedule.hubFirst true s h = .ok h1 ∧
      (h.userClients (h.mem s).UserID = [s] →
        h1.statusCalls = h.statusCalls ++ [StatusCall.SetUserOffline (h.mem s).UserID]) ∧
      ((∀ o ∈ h.userClients (h.mem s).UserID, o ≠ s → (h.mem o).IsActive = false) →
        h1.statusCalls = h.statusCalls ++ [StatusCall.SetUserOffline (h.mem s).UserID]) ∧
      ((∃ o ∈ h.userClients (h.mem s).UserID, o ≠ s ∧ (h.mem o).IsActive = true) →
        h1.statusCalls = h.statusCalls) := by
  obtain ⟨h0, h1, hu, hc0, hd, hcalls⟩ :=
    disconnect_statusCalls s h hin hfiled hopen hdone huniq hnd
  have hnone : (∀ o ∈ h.userClients (h.mem s).UserID, o ≠ s → (h.mem o).IsActive = false) →
      h1.statusCalls = h.statusCalls ++ [StatusCall.SetUserOffline (h.mem s).UserID] := by
    intro hall
    have hany : ((h.userClients (h.mem s).UserID).erase s).any (fun c => (h.mem c).IsActive)
        = false := by
      rw [List.any_eq_false]
      intro o ho
      have := (List.Nodup.mem_erase_iff hnd).mp ho
      simp [hall o this.2 this.1]
    rw [hcalls, hany]
    simp
  refine ⟨h0, h1, hu, hc0, hd, ?_, hnone, ?_⟩
  · intro honly
    apply hnone
    intro o ho hos
    rw [honly] at ho
    exact absurd (by simpa using ho) hos
  · rintro ⟨o, ho, hos, hoa⟩
    have hany : ((h.userClients (h.mem s).UserID).erase s).any (fun c => (h.mem c).IsActive)
        = true := by
      rw [List.any_eq_true]
      exact ⟨o, (List.Nodup.mem_erase_iff hnd).mpr ⟨hos, ho⟩, hoa⟩
    rw [hcalls, hany]
    simp

theorem disconnect_offline_presence_witness :
    ∃ h0 h1, Unregister 0 twoTabs = .ok h0 ∧ h0.statusCalls = twoTabs.statusCalls ∧
      disconnect Schedule.hubFirst true 0 twoTabs = .ok h1 ∧
      (twoTabs.userClients (twoTabs.mem 0).UserID = [0] →
        h1.statusCalls
          = twoTabs.statusCalls ++ [StatusCall.SetUserOffline (twoTabs.mem 0).UserID]) ∧
      ((∀ o ∈ twoTabs.userClients (twoTabs.mem 0).UserID, o ≠ 0 →
          (twoTabs.mem o).IsActive = false) →
        h1.statusCalls
          = twoTabs.statusCalls ++ [StatusCall.SetUserOffline (twoTabs.mem 0).UserID]) ∧
      ((∃ o ∈ twoTabs.userClients (twoTabs.mem 0).UserID,
          o ≠ 0 ∧ (twoTabs.mem o).IsActive = true) →
        h1.statusCalls = twoTabs.statusCalls) :=
  disconnect_offline_presence 0 twoTabs (by decide) (by decide) (by decide) (by decide)
    (by decide) (by decide)

/-- The offline call of a disconnect looks at the active sessions of the user's entry
only, here under the schedule in which the `Unregister` case body runs first.
(1) From the empty hub: tab `0` of user `"A"` connects, sends `user_away` (its
`SetUserOffline` goroutine runs and drops the user's entry), then tab `1` connects.
Session `0` is still in `Clients` with its connection open.  The disconnect of `1`
calls the offline operation although the user still has session `0`.
(2) In `twoTabsOneAway` user `"A"` has the registered sessions `0` and `1`, of which `1`
is inactive.  The disconnect of `0` leaves `1` registered in both maps, and the offline
operation is called for `"A"` all the same. -/
theorem disconnect_offline_despite_other_session :
    (∃ h, run [Event.Register 0, Event.userAway 0, Event.go (GoCall.SetUserOffline "A"),
          Event.Register 1] (NewHub demoMem).SetStatusUpdater = .ok h ∧
        0 ∈ h.Clients ∧ 1 ∈ h.Clients ∧ (h.mem 0).UserID = "A" ∧ (h.mem 1).UserID = "A" ∧
        (h.mem 0).ConnClosed = false ∧ (h.mem 0).Send.closed = false ∧
        h.statusCalls = [StatusCall.SetUserOffline "A"] ∧
        ∃ h1, disconnect Schedule.hubFirst true 1 h = .ok h1 ∧ 0 ∈ h1.Clients ∧
          h1.statusCalls = [StatusCall.SetUserOffline "A", StatusCall.SetUserOffline "A"]) ∧
    (0 ∈ twoTabsOneAway.Clients ∧ 1 ∈ twoTabsOneAway.Clients ∧
      twoTabsOneAway.UserClients.lookup "A" = some [0, 1] ∧
      twoTabsOneAway.statusCalls = [] ∧
      ∃ h1, disconnect Schedule.hubFirst true 0 twoTabsOneAway = .ok h1 ∧
        1 ∈ h1.Clients ∧ h1.UserClients.lookup "A" = some [1] ∧
        h1.statusCalls = [StatusCall.SetUserOffline "A"]) := by
  refine ⟨⟨_, rfl, by decide, by decide, by decide, by decide, by decide, by decide,
      by decide, _, rfl, by decide, by decide⟩,
    by decide, by decide, by decide, by decide, _, rfl, by decide, by decide, by decide⟩

theorem dropFromUserClients_presence_frame (h : Hub) (p : Ptr) :
    (h.dropFromUserClients p).statusCalls = h.statusCalls ∧
      (h.dropFromUserClients p).spawned = h.spawned := by
  unfold Hub.dropFromUserClients
  dsimp only
  split <;> exact ⟨rfl, rfl⟩

/-- The `Unregister` case of the hub loop neither calls a status operation nor starts a
goroutine, whatever the hub and the session. -/
theorem Unregister_presence_frame {s : Ptr} {h h1 : Hub} (hu : Unregister s h = .ok h1) :
    h1.statusCalls = h.statusCalls ∧ h1.spawned = h.spawned := by
  unfold Unregister at hu
  by_cases hin : s ∈ h.Clients
  · rw [if_pos hin] at hu
    cases hcs : (h.deleteClient s).closeSend s with
    | error f => rw [hcs] at hu; cases hu
    | ok hz =>
      rw [hcs] at hu
      have hz1 : hz.statusCalls = h.statusCalls ∧ hz.spawned = h.spawned := by
        unfold Hub.closeSend at hcs
        split at hcs
        · cases hcs
        · cases hcs; exact ⟨rfl, rfl⟩
      obtain ⟨d1, d2⟩ := dropFromUserClients_presence_frame hz s
      dsimp only at hu
      split at hu
      · cases hu
        exact ⟨d1.trans hz1.1, d2.trans hz1.2⟩
      · cases hu
        exact ⟨d1.trans hz1.1, d2.trans hz1.2⟩
  · rw [if_neg hin] at hu
    cases hu
    exact ⟨rfl, rfl⟩

/-- C6 at its failing input.  From the empty hub with a status updater and a status
service, tab `0` of user `"A"` connects: it is the only registered session of its user.
The `Unregister` case on it removes it from both maps and closes its queue, and neither
calls the offline operation nor starts a goroutine (the sweep of `checkHeartbeats`
starts `SetUserOffline` in the same place).  In a disconnect the only offline call is
that of the handler's watcher of `Done`: when the watcher's check takes the lock before
the `Unregister` case body, it finds the session still filed and active, and the
offline operation is never called; it is called once when the case body runs first. -/
theorem unregister_only_session_no_offline :
    ∃ h, run [Event.Register 0] (NewHub demoMem).SetStatusUpdater = .ok h ∧
      h.Clients = [0] ∧ h.UserClients.lookup "A" = some [0] ∧ (h.mem 0).UserID = "A" ∧
      h.statusCalls = [] ∧ h.spawned = [] ∧
      (∃ h1, Unregister 0 h = .ok h1 ∧ h1.Clients = [] ∧ h1.UserClients.lookup "A" = none ∧
        (h1.mem 0).Send.closed = true ∧ h1.statusCalls = [] ∧ h1.spawned = []) ∧
      (∃ h2, disconnect Schedule.handlerFirst true 0 h = .ok h2 ∧ h2.Clients = [] ∧
        h2.UserClients.lookup "A" = none ∧ (h2.mem 0).DoneClosed = true ∧
        h2.statusCalls = [] ∧ h2.spawned = []) ∧
      (∃ h3, disconnect Schedule.hubFirst true 0 h = .ok h3 ∧ h3.Clients = [] ∧
        h3.statusCalls = [StatusCall.SetUserOffline "A"]) :=
  ⟨_, rfl, rfl, rfl, rfl, rfl, rfl, ⟨_, rfl, rfl, rfl, rfl, rfl, rfl⟩,
    ⟨_, rfl, rfl, rfl, rfl, rfl, rfl⟩, ⟨_, rfl, rfl, rfl⟩⟩

/-- Register takeover where it holds: when the sessions filed under the new client's
user are distinct objects with open queues, `Register` succeeds; each of them leaves
`Clients`, has its queue and connection closed and is gone from the user's entry, which
now holds the new client alone; the entries of other users and the sessions of
`Clients` not filed under this user stay. -/
theorem Register_takeover (n : Ptr) (h : Hub)
    (hnd : (h.userClients (h.mem n).UserID).Nodup)
    (hopen : ∀ p ∈ h.userClients (h.mem n).UserID, (h.mem p).Send.closed = false)
    (hnew : n ∉ h.userClients (h.mem n).UserID) :
    ∃ h1, Register n h = .ok h1 ∧
      (∀ p ∈ h.userClients (h.mem n).UserID,
        p ∉ h1.Clients ∧ p ∉ h1.userClients (h.mem n).UserID ∧
          (h1.mem p).Send.closed = true) ∧
      n ∈ h1.Clients ∧ h1.UserClients.lookup (h.mem n).UserID = some [n] ∧
      (∀ u, u ≠ (h.mem n).UserID → h1.UserClients.lookup u = h.UserClients.lookup u) ∧
      (∀ p, p ∉ h.userClients (h.mem n).UserID → p ≠ n →
        (p ∈ h1.Clients ↔ p ∈ h.Clients)) := by
  obtain ⟨h1, hreg, hU, hCl, -, -, -, -, -, hin⟩ := Register_spec n h hnd hopen
  have hlook : h1.UserClients.lookup (h.mem n).UserID = some [n] := by
    rw [hU]; exact Finmap.lookup_insert _
  refine ⟨h1, hreg, ?_, (hCl n).mpr (Or.inl rfl), hlook, ?_, ?_⟩
  · intro p hp
    have hpn : p ≠ n := fun hpn => hnew (hpn ▸ hp)
    refine ⟨?_, ?_, ?_⟩
    · intro hpC
      rcases (hCl p).mp hpC with hpn1 | ⟨-, hnot⟩
      · exact hpn hpn1
      · exact hnot hp
    · rw [userClients_eq_of_lookup hlook]
      simpa using hpn
    · rw [hin p hp]
      rfl
  · intro u hu
    rw [hU, Finmap.lookup_insert_of_ne _ hu]
  · intro p hp hpn
    rw [hCl p]
    constructor
    · rintro (h1 | ⟨h1, -⟩)
      · exact absurd h1 hpn
      · exact h1
    · intro h1
      exact Or.inr ⟨h1, hp⟩

set_option maxRecDepth 100000 in
/-- C7 at its failing input.  Tab `0` of user `"A"` connects and 257 broadcasts arrive
undrained: the `Broadcast` case closes the full queue and deletes the session from
`Clients`, but leaves it in `UserClients`.  When tab `1` of the same user then
connects, the eviction loop of `Register` closes that queue a second time: the hub
panics instead of registering the new session. -/
theorem register_after_drop_panics :
    ∃ h, run connectThenFlood (NewHub demoMem) = .ok h ∧
      h.UserClients.lookup "A" = some [0] ∧ 0 ∉ h.Clients ∧
      (h.mem 0).Send.closed = true ∧ (h.mem 1).UserID = "A" ∧
      Register 1 h = .error Fault.closeOfClosedChannel := by
  refine ⟨_, rfl, ?_, ?_, ?_, ?_, rfl⟩
  · decide
  · decide
  · decide
  · decide

set_option maxRecDepth 100000 in
/-- C8 at its failing input.  Tab `0` of user `"A"` connects and the ping ticker fires
257 times undrained: `sendPingToAllClients` closes the full queue and deletes the
session from `Clients` only.  The closed session is still referenced by
`UserClients["A"]`, and the next `BroadcastToUser` for `"A"` sends on the closed
queue and panics. -/
theorem closed_session_still_indexed :
    ∃ h, run connectThenPings (NewHub demoMem) = .ok h ∧
      (h.mem 0).Send.closed = true ∧ 0 ∉ h.Clients ∧
      h.UserClients.lookup "A" = some [0] ∧
      BroadcastToUser demoMarshal "A" pingMessage h = .error Fault.sendOnClosedChannel := by
  refine ⟨_, rfl, ?_, ?_, ?_, rfl⟩
  · decide
  · decide
  · decide

/-! ## Broadcast, ping and the presence callbacks on the two maps -/

theorem broadcastOne_ok (message : Bytes) (h : Hub) (c : Ptr)
    (hopen : (h.mem c).Send.closed = false)
    (hroom : (h.mem c).Send.buf.length < (h.mem c).Send.cap) :
    broadcastOne message h c = .ok (enqueuedAll message [c] h) := by
  unfold broadcastOne
  simp only [Chan.trySend, hopen, hroom, Bool.false_eq_true, if_false, if_true]
  congr 1
  simp only [Hub.setClient, enqueuedAll]
  congr 1
  funext p
  by_cases hp : p = c
  · subst hp; simp [Client.enqueued, hopen]
  · simp [Function.update, hp]

/-- The loop of the `Broadcast` case over distinct clients whose queues have room. -/
theorem foldlM_broadcastOne (message : Bytes) : ∀ (l : List Ptr) (h : Hub), l.Nodup →
    (∀ p ∈ l, (h.mem p).Send.closed = false ∧
      (h.mem p).Send.buf.length < (h.mem p).Send.cap) →
    l.foldlM (broadcastOne message) h = .ok (enqueuedAll message l h) := by
  intro l
  induction l with
  | nil =>
    intro h _ _
    simp [enqueuedAll]
    rfl
  | cons c rest ih =>
    intro h hnd hroom
    have hnd1 := List.nodup_cons.mp hnd
    rw [List.foldlM_cons, broadcastOne_ok message h c (hroom c (by simp)).1 (hroom c (by simp)).2]
    have hsame : ∀ p ∈ rest, (enqueuedAll message [c] h).mem p = h.mem p := by
      intro p hp
      have hpc : p ≠ c := fun hpc => hnd1.1 (hpc ▸ hp)
      simp [enqueuedAll, hpc]
    show rest.foldlM (broadcastOne message) (enqueuedAll message [c] h) = _
    rw [ih (enqueuedAll message [c] h) hnd1.2 (by
      intro p hp
      rw [hsame p hp]
      exact hroom p (by simp [hp]))]
    congr 1
    simp only [enqueuedAll]
    congr 1
    funext p
    by_cases hpc : p = c
    · subst hpc
      simp [hnd1.1]
    · simp [hpc]

/-- `Broadcast` when no registered session's queue is closed or full. -/
theorem Broadcast_of_room (message : Bytes) (h : Hub) (hnd : h.Clients.Nodup)
    (hroom : ∀ p ∈ h.Clients, (h.mem p).Send.closed = false ∧
      (h.mem p).Send.buf.length < (h.mem p).Send.cap) :
    Broadcast message h = .ok (enqueuedAll message h.Clients h) :=
  foldlM_broadcastOne message h.Clients h hnd hroom

theorem pingOne_eq_sendToUserOne (h : Hub) (c : Ptr)
    (hroom : (h.mem c).IsActive = true →
      (h.mem c).Send.closed = false ∧ (h.mem c).Send.buf.length < (h.mem c).Send.cap) :
    pingOne h c = .ok (delivered pingMessage [c] h) := by
  rw [← sendToUserOne_ok pingMessage h c hroom]
  unfold pingOne sendToUserOne broadcastOne
  by_cases ha : (h.mem c).IsActive = true
  · obtain ⟨ho, hr⟩ := hroom ha
    simp [ha, Chan.trySend, ho, hr]
  · simp [ha]

theorem foldlM_pingOne : ∀ (l : List Ptr) (h : Hub), l.Nodup →
    (∀ p ∈ l, (h.mem p).IsActive = true →
      (h.mem p).Send.closed = false ∧ (h.mem p).Send.buf.length < (h.mem p).Send.cap) →
    l.foldlM pingOne h = .ok (delivered pingMessage l h) := by
  intro l
  induction l with
  | nil =>
    intro h _ _
    simp [delivered]
    rfl
  | cons c rest ih =>
    intro h hnd hroom
    have hnd1 := List.nodup_cons.mp hnd
    rw [List.foldlM_cons, pingOne_eq_sendToUserOne h c (hroom c (by simp))]
    have hsame : ∀ p ∈ rest, (delivered pingMessage [c] h).mem p = h.mem p := by
      intro p hp
      have hpc : p ≠ c := fun hpc => hnd1.1 (hpc ▸ hp)
      simp [delivered, hpc]
    show rest.foldlM pingOne (delivered pingMessage [c] h) = _
    rw [ih (delivered pingMessage [c] h) hnd1.2 (by
      intro p hp
      rw [hsame p hp]
      exact hroom p (by simp [hp]))]
    congr 1
    simp only [delivered]
    congr 1
    funext p
    by_cases hpc : p = c
    · subst hpc
      simp [hnd1.1]
    · simp [hpc]

/-- `sendPingToAllClients` when no active registered session's queue is closed or full. -/
theorem sendPing_of_room (h : Hub) (hnd : h.Clients.Nodup)
    (hroom : ∀ p ∈ h.Clients, (h.mem p).IsActive = true →
      (h.mem p).Send.closed = false ∧ (h.mem p).Send.buf.length < (h.mem p).Send.cap) :
    sendPingToAllClients h = .ok (delivered pingMessage h.Clients h) :=
  foldlM_pingOne h.Clients h hnd hroom

theorem SetUserOnline_maps (u : String) (h : Hub) :
    (SetUserOnline u h).Clients = h.Clients ∧
      (SetUserOnline u h).UserClients = h.UserClients ∧ (SetUserOnline u h).mem = h.mem := by
  unfold SetUserOnline
  split
  · exact ⟨rfl, rfl, rfl⟩
  · split <;> exact ⟨rfl, rfl, rfl⟩

theorem userAway_maps (c : Ptr) (h : Hub) :
    (userAway c h).Clients = h.Clients ∧ (userAway c h).UserClients = h.UserClients := by
  unfold userAway
  dsimp only
  split <;> exact ⟨rfl, rfl⟩

theorem deactivate_maps (h : Hub) (p : Ptr) :
    (h.deactivate p).Clients = h.Clients ∧ (h.deactivate p).UserClients = h.UserClients ∧
      (h.deactivate p).hasStatusUpdater = h.hasStatusUpdater := by
  unfold Hub.deactivate
  split <;> exact ⟨rfl, rfl, rfl⟩

theorem foldl_deactivate_maps : ∀ (l : List Ptr) (h : Hub),
    (l.foldl Hub.deactivate h).Clients = h.Clients ∧
      (l.foldl Hub.deactivate h).UserClients = h.UserClients ∧
      (l.foldl Hub.deactivate h).hasStatusUpdater = h.hasStatusUpdater := by
  intro l
  induction l with
  | nil => intro h; exact ⟨rfl, rfl, rfl⟩
  | cons a t ih =>
    intro h
    rw [List.foldl_cons]
    obtain ⟨h1, h2, h3⟩ := ih (h.deactivate a)
    obtain ⟨g1, g2, g3⟩ := deactivate_maps h a
    exact ⟨h1.trans g1, h2.trans g2, h3.trans g3⟩

/-- `SetUserOffline` leaves `Clients` alone and drops the user's entry. -/
theorem SetUserOffline_maps (u : String) (h : Hub) :
    (SetUserOffline u h).Clients = h.Clients ∧
      (SetUserOffline u h).UserClients = h.UserClients.erase u := by
  unfold SetUserOffline
  cases hl : h.UserClients.lookup u with
  | none =>
    have herase : h.UserClients.erase u = h.UserClients := by
      apply Finmap.ext_lookup
      intro x
      by_cases hx : x = u
      · subst hx; rw [Finmap.lookup_erase, hl]
      · rw [Finmap.lookup_erase_ne hx]
    dsimp only
    split
    · exact ⟨rfl, herase.symm⟩
    · exact ⟨rfl, herase.symm⟩
  | some l =>
    obtain ⟨h1, h2, -⟩ := foldl_deactivate_maps l h
    dsimp only
    split
    · exact ⟨h1, by rw [← h2]⟩
    · exact ⟨h1, by rw [← h2]⟩

theorem closeOthers_maps (id : String) : ∀ (l : List Ptr) (s : Hub × Bool),
    (closeOthers id l s).1.Clients = s.1.Clients ∧
      (closeOthers id l s).1.UserClients = s.1.UserClients := by
  intro l
  induction l with
  | nil => intro s; exact ⟨rfl, rfl⟩
  | cons o rest ih =>
    rintro ⟨h, w⟩
    unfold closeOthers
    split
    · obtain ⟨h1, h2⟩ := ih (h.deactivate o, false)
      obtain ⟨g1, g2, -⟩ := deactivate_maps h o
      exact ⟨h1.trans g1, h2.trans g2⟩
    · exact ih (h, w)

theorem deactivate_ID (h : Hub) (p o : Ptr) :
    ((h.deactivate p).mem o).ID = (h.mem o).ID := by
  unfold Hub.deactivate
  split
  · by_cases hop : o = p
    · subst hop; simp [Hub.connClose]
    · rw [connClose_mem_of_ne _ hop, setClient_mem_of_ne _ _ hop]
  · rfl

theorem closeOthers_ID (id : String) (o : Ptr) : ∀ (l : List Ptr) (s : Hub × Bool),
    ((closeOthers id l s).1.mem o).ID = (s.1.mem o).ID := by
  intro l
  induction l with
  | nil => intro s; rfl
  | cons a rest ih =>
    rintro ⟨h, w⟩
    unfold closeOthers
    split
    · rw [ih (h.deactivate a, false)]
      exact deactivate_ID h a o
    · exact ih (h, w)

theorem setClient_ID_of_eq (h : Hub) (c o : Ptr) (x : Client) (hx : x.ID = (h.mem c).ID) :
    ((h.setClient c x).mem o).ID = (h.mem o).ID := by
  by_cases hoc : o = c
  · subst hoc; simp [hx]
  · rw [setClient_mem_of_ne _ _ hoc]

/-- The `user_active` branch leaves `Clients` alone; in `UserClients` it replaces an
existing entry of the client's user by those of its sessions that carry the client's
ID. -/
theorem userActive_maps (c : Ptr) (h : Hub) :
    (userActive c h).Clients = h.Clients ∧
      (userActive c h).UserClients =
        (match h.UserClients.lookup (h.mem c).UserID with
          | none => h.UserClients
          | some l0 => h.UserClients.insert (h.mem c).UserID
              (l0.filter (fun o => decide ((h.mem o).ID = (h.mem c).ID)))) := by
  have hid : ((h.setClient c { h.mem c with IsActive := true }).mem c).UserID
      = (h.mem c).UserID := by simp
  unfold userActive
  dsimp only
  rw [hid]
  cases hl : h.UserClients.lookup (h.mem c).UserID with
  | none =>
    have hl1 : (h.setClient c { h.mem c with IsActive := true }).UserClients.lookup
        (h.mem c).UserID = none := hl
    simp only [hl1]
    exact ⟨rfl, rfl⟩
  | some l0 =>
    have hl1 : (h.setClient c { h.mem c with IsActive := true }).UserClients.lookup
        (h.mem c).UserID = some l0 := hl
    simp only [hl1]
    obtain ⟨g1, g2⟩ := closeOthers_maps
      ((h.setClient c { h.mem c with IsActive := true }).mem c).ID l0
      (h.setClient c { h.mem c with IsActive := true }, true)
    have g3 : (closeOthers ((h.setClient c { h.mem c with IsActive := true }).mem c).ID l0
        (h.setClient c { h.mem c with IsActive := true }, true)).1.UserClients
          = h.UserClients := g2
    have hfilter : l0.filter (fun o => decide
        (((closeOthers ((h.setClient c { h.mem c with IsActive := true }).mem c).ID l0
            (h.setClient c { h.mem c with IsActive := true }, true)).1.mem o).ID =
          ((closeOthers ((h.setClient c { h.mem c with IsActive := true }).mem c).ID l0
            (h.setClient c { h.mem c with IsActive := true }, true)).1.mem c).ID))
        = l0.filter (fun o => decide ((h.mem o).ID = (h.mem c).ID)) := by
      apply List.filter_congr
      intro o _
      rw [closeOthers_ID, closeOthers_ID]
      have ho := setClient_ID_of_eq h c o { h.mem c with IsActive := true } rfl
      have hc := setClient_ID_of_eq h c c { h.mem c with IsActive := true } rfl
      simp only [ho, hc]
    split
    · refine ⟨g1, ?_⟩
      show Finmap.insert _ _ _ = _
      rw [g3, hfilter]
    · refine ⟨g1, ?_⟩
      show Finmap.insert _ _ _ = _
      rw [g3, hfilter]

/-! ## The heartbeat sweep on a well-formed hub -/

theorem Hub.WellFormed.mapsAgree {h : Hub} (hwf : h.WellFormed) : MapsAgree h := by
  intro p
  constructor
  · intro hp
    obtain ⟨-, -, hfiled⟩ := hwf.1 p hp
    obtain ⟨l, hl, hpl⟩ := (mem_userClients_iff h _ p).mp hfiled
    exact ⟨_, l, hl, hpl⟩
  · rintro ⟨u, l, hl, hpl⟩
    exact ((hwf.2 u l hl).2 p hpl).1

theorem removeFirstWithID_congr {mem1 mem2 : Ptr → Client} (hid : ∀ p, (mem1 p).ID = (mem2 p).ID)
    (id : String) : ∀ l, removeFirstWithID mem1 id l = removeFirstWithID mem2 id l := by
  intro l
  induction l with
  | nil => rfl
  | cons c cs ih => simp only [removeFirstWithID, hid c, ih]

@[simp] theorem setClient_setClient (h : Hub) (p : Ptr) (a b : Client) :
    (h.setClient p a).setClient p b = h.setClient p b := by
  simp [Hub.setClient]

theorem setClient_deleteClient (h : Hub) (p q : Ptr) (a : Client) :
    (h.setClient p a).deleteClient q = (h.deleteClient q).setClient p a := rfl

/-- The removal of `s` from its user's entry, once `s` has left `Clients` and its
fields have been replaced by `x` (same ID, same user). -/
theorem dropFromUserClients_evicted (h : Hub) (s : Ptr) (x : Client)
    (hxid : x.ID = (h.mem s).ID) (hxu : x.UserID = (h.mem s).UserID)
    (hfiled : s ∈ h.userClients (h.mem s).UserID)
    (huniq : ∀ p ∈ h.userClients (h.mem s).UserID, (h.mem p).ID = (h.mem s).ID → p = s) :
    ((h.deleteClient s).setClient s x).dropFromUserClients s =
      { (h.deleteClient s).setClient s x with
        UserClients := h.UserClients.insert (h.mem s).UserID
          ((h.userClients (h.mem s).UserID).erase s) } := by
  have hrem : removeFirstWithID ((h.deleteClient s).setClient s x).mem x.ID
      (h.userClients (h.mem s).UserID) = some ((h.userClients (h.mem s).UserID).erase s) := by
    have hids : ∀ p, (((h.deleteClient s).setClient s x).mem p).ID = (h.mem p).ID := by
      intro p
      by_cases hp : p = s
      · subst hp; simp [hxid]
      · rw [setClient_mem_of_ne _ _ hp]; rfl
    rw [removeFirstWithID_congr hids, hxid]
    exact removeFirstWithID_eq_erase h.mem s _ hfiled huniq
  unfold Hub.dropFromUserClients
  simp only [setClient_mem_self, hxu]
  have hu : ((h.deleteClient s).setClient s x).userClients (h.mem s).UserID
      = h.userClients (h.mem s).UserID := rfl
  rw [hu, hrem]
  rfl

/-- The eviction step of `checkHeartbeats` on a registered, active, stale session of a
well-formed hub. -/
theorem heartbeatOne_evict (now : Int) (s : Ptr) (h : Hub) (hwf : h.WellFormed)
    (hin : s ∈ h.Clients) (hactive : (h.mem s).IsActive = true)
    (hstale : now - (h.mem s).LastPingTime > h.heartbeatTimeout) :
    heartbeatOne now h s = .ok (timedOut s h) := by
  obtain ⟨hopen, hdone, hfiled⟩ := hwf.1 s hin
  obtain ⟨l, hl, hsl⟩ := (mem_userClients_iff h _ s).mp hfiled
  have hul : h.userClients (h.mem s).UserID = l := userClients_eq_of_lookup hl
  have huniq : ∀ p ∈ h.userClients (h.mem s).UserID, (h.mem p).ID = (h.mem s).ID → p = s := by
    rw [hul]
    exact fun p hp => ((hwf.2 _ l hl).2 s hsl).2.2 p hp
  have e1 : ((h.setClient s { h.mem s with IsActive := false }).connClose s).deleteClient s
      = (h.deleteClient s).setClient s { h.mem s with IsActive := false, ConnClosed := true } := by
    simp [Hub.connClose, setClient_deleteClient]
  have e2 : ((h.deleteClient s).setClient s
        { h.mem s with IsActive := false, ConnClosed := true }).closeSend s
      = .ok ((h.deleteClient s).setClient s
        { h.mem s with IsActive := false, ConnClosed := true,
                       Send := { (h.mem s).Send with closed := true } }) := by
    rw [closeSend_ok (by simp [hopen])]
    simp [Client.sendClosed]
  have e3 : ((h.deleteClient s).setClient s
        { h.mem s with IsActive := false, ConnClosed := true,
                       Send := { (h.mem s).Send with closed := true } }).closeDone s
      = .ok ((h.deleteClient s).setClient s (h.mem s).timedOut) := by
    simp [Hub.closeDone, hdone, Client.timedOut]
  unfold heartbeatOne
  rw [if_pos ⟨hactive, hstale⟩]
  dsimp only
  rw [e1, e2]
  dsimp only
  rw [e3]
  dsimp only
  rw [dropFromUserClients_evicted h s (h.mem s).timedOut rfl rfl hfiled huniq]
  have hu : (((h.deleteClient s).setClient s (h.mem s).timedOut).mem s).UserID
      = (h.mem s).UserID := by simp [Client.timedOut]
  rw [hu]
  have hlen : (({ (h.deleteClient s).setClient s (h.mem s).timedOut with
        UserClients := h.UserClients.insert (h.mem s).UserID
          ((h.userClients (h.mem s).UserID).erase s) } : Hub).userClients (h.mem s).UserID)
      = (h.userClients (h.mem s).UserID).erase s := by
    simp [Hub.userClients, Finmap.lookup_insert]
  rw [hlen]
  by_cases hz : ((h.userClients (h.mem s).UserID).erase s).length = 0
  · rw [if_pos hz]
    simp only [timedOut, if_pos hz, Finmap_erase_insert]
    rfl
  · rw [if_neg hz]
    simp only [timedOut, if_neg hz]
    rfl

/-- Well-formedness survives the removal of a registered session `s` from both maps:
`h1` is `h` without `s` in `Clients`, with `s` erased from its user's entry (the entry
dropped when it becomes empty), and with memory changed at `s` only. -/
theorem Hub.WellFormed.of_removed {h h1 : Hub} {s : Ptr} (hwf : h.WellFormed) (hin : s ∈ h.Clients)
    (hC : ∀ p, p ∈ h1.Clients ↔ p ∈ h.Clients ∧ p ≠ s)
    (hM : ∀ p, p ≠ s → h1.mem p = h.mem p)
    (hU : h1.UserClients =
      if ((h.userClients (h.mem s).UserID).erase s).length = 0 then
        h.UserClients.erase (h.mem s).UserID
      else h.UserClients.insert (h.mem s).UserID ((h.userClients (h.mem s).UserID).erase s)) :
    h1.WellFormed := by
  obtain ⟨-, -, hfiled⟩ := hwf.1 s hin
  obtain ⟨l, hl, hsl⟩ := (mem_userClients_iff h _ s).mp hfiled
  have hul : h.userClients (h.mem s).UserID = l := userClients_eq_of_lookup hl
  rw [hul] at hU
  obtain ⟨hlnd, hlall⟩ := hwf.2 _ l hl
  have hother : ∀ u, u ≠ (h.mem s).UserID → h1.UserClients.lookup u = h.UserClients.lookup u := by
    intro u hu
    rw [hU]
    split
    · exact Finmap.lookup_erase_ne hu
    · exact Finmap.lookup_insert_of_ne _ hu
  have hself : ∀ l1, h1.UserClients.lookup (h.mem s).UserID = some l1 → l1 = l.erase s := by
    intro l1 hl1
    rw [hU] at hl1
    split at hl1
    · rw [Finmap.lookup_erase] at hl1
      exact absurd hl1 (by simp)
    · rw [Finmap.lookup_insert] at hl1
      exact (Option.some.inj hl1).symm
  have hself2 : ∀ p ∈ l, p ≠ s → h1.UserClients.lookup (h.mem s).UserID = some (l.erase s) := by
    intro p hp hps
    have hmem : p ∈ l.erase s := (List.Nodup.mem_erase_iff hlnd).mpr ⟨hps, hp⟩
    have hlen : ¬ (l.erase s).length = 0 := by
      intro hz
      rw [List.length_eq_zero.mp hz] at hmem
      simp at hmem
    rw [hU, if_neg hlen, Finmap.lookup_insert]
  constructor
  · intro p hp
    obtain ⟨hpC, hps⟩ := (hC p).mp hp
    obtain ⟨ho, hd, hf⟩ := hwf.1 p hpC
    rw [hM p hps]
    refine ⟨ho, hd, ?_⟩
    obtain ⟨lp, hlp, hplp⟩ := (mem_userClients_iff h _ p).mp hf
    rw [mem_userClients_iff]
    by_cases hu : (h.mem p).UserID = (h.mem s).UserID
    · rw [hu] at hlp ⊢
      rw [hl] at hlp
      have hlp1 : l = lp := Option.some.inj hlp
      rw [← hlp1] at hplp
      exact ⟨l.erase s, hself2 p hplp hps, (List.Nodup.mem_erase_iff hlnd).mpr ⟨hps, hplp⟩⟩
    · exact ⟨lp, by rw [hother _ hu]; exact hlp, hplp⟩
  · intro u l1 hl1
    by_cases hu : u = (h.mem s).UserID
    · subst hu
      have hl1e := hself l1 hl1
      subst hl1e
      refine ⟨hlnd.erase s, ?_⟩
      intro p hp
      obtain ⟨hps, hpl⟩ := (List.Nodup.mem_erase_iff hlnd).mp hp
      obtain ⟨hpC, hpU, hpI⟩ := hlall p hpl
      refine ⟨(hC p).mpr ⟨hpC, hps⟩, by rw [hM p hps]; exact hpU, ?_⟩
      intro q hq
      obtain ⟨hqs, hql⟩ := (List.Nodup.mem_erase_iff hlnd).mp hq
      rw [hM q hqs, hM p hps]
      exact hpI q hql
    · rw [hother u hu] at hl1
      obtain ⟨hnd1, hall1⟩ := hwf.2 u l1 hl1
      have hne : ∀ p ∈ l1, p ≠ s := by
        intro p hp hps
        rw [hps] at hp
        exact hu (hall1 s hp).2.1.symm
      refine ⟨hnd1, ?_⟩
      intro p hp
      obtain ⟨hpC, hpU, hpI⟩ := hall1 p hp
      refine ⟨(hC p).mpr ⟨hpC, hne p hp⟩, by rw [hM p (hne p hp)]; exact hpU, ?_⟩
      intro q hq
      rw [hM q (hne q hq), hM p (hne p hp)]
      exact hpI q hq

theorem Hub.WellFormed.timedOut {h : Hub} {s : Ptr} (hwf : h.WellFormed) (hin : s ∈ h.Clients) :
    (timedOut s h).WellFormed :=
  hwf.of_removed hin (by intro p; simp [Websocket.timedOut])
    (by intro p hp; simp [Websocket.timedOut, Function.update, hp]) rfl

theorem Hub.WellFormed.unregistered {h : Hub} {s : Ptr} (hwf : h.WellFormed) (hin : s ∈ h.Clients) :
    (unregistered s h).WellFormed :=
  hwf.of_removed hin (by intro p; simp [Websocket.unregistered])
    (by intro p hp; simp [Websocket.unregistered, Function.update, hp]) rfl

/-- The sweep of `checkHeartbeats` over the keys it ranges over: on a well-formed hub it
does not fault and leaves a well-formed hub. -/
theorem foldlM_heartbeatOne_wellFormed (now : Int) : ∀ (l : List Ptr) (h : Hub),
    h.WellFormed → (∀ p ∈ l, p ∈ h.Clients ∨ (h.mem p).IsActive = false) →
    ∃ h1, l.foldlM (heartbeatOne now) h = .ok h1 ∧ h1.WellFormed := by
  intro l
  induction l with
  | nil => intro h hwf _; exact ⟨h, rfl, hwf⟩
  | cons c rest ih =>
    intro h hwf hreg
    rw [List.foldlM_cons]
    by_cases hgo : (h.mem c).IsActive = true ∧ now - (h.mem c).LastPingTime > h.heartbeatTimeout
    · have hin : c ∈ h.Clients := by
        rcases hreg c (by simp) with hc | hc
        · exact hc
        · rw [hgo.1] at hc; exact absurd hc (by simp)
      rw [heartbeatOne_evict now c h hwf hin hgo.1 hgo.2]
      obtain ⟨h1, hrun, hwf1⟩ := ih (timedOut c h) (hwf.timedOut hin) (by
        intro p hp
        by_cases hpc : p = c
        · right
          rw [hpc]
          simp [timedOut, Client.timedOut]
        · rcases hreg p (by simp [hp]) with hpC | hpA
          · left
            simp [timedOut, hpC, hpc]
          · right
            simp [timedOut, Function.update, hpc, hpA])
      exact ⟨h1, hrun, hwf1⟩
    · have hskip : heartbeatOne now h c = .ok h := by
        unfold heartbeatOne
        rw [if_neg hgo]
      rw [hskip]
      exact ih h hwf (fun p hp => hreg p (by simp [hp]))

/-- `checkHeartbeats` on a well-formed hub does not fault and keeps it well-formed. -/
theorem checkHeartbeats_wellFormed (now : Int) (h : Hub) (hwf : h.WellFormed) :
    ∃ h1, checkHeartbeats now h = .ok h1 ∧ h1.WellFormed :=
  foldlM_heartbeatOne_wellFormed now h.Clients h hwf (fun _ hp => Or.inl hp)

theorem mapsAgree_congr {h h1 : Hub} (hC : h1.Clients = h.Clients)
    (hU : h1.UserClients = h.UserClients) (hagree : MapsAgree h) : MapsAgree h1 := by
  intro p
  unfold InUserClients
  rw [hC, hU]
  exact hagree p

theorem inUserClients_of_single {h : Hub} {u : String} {l : List Ptr}
    (hU : h.UserClients = (∅ : Finmap (fun _ : String => List Ptr)).insert u l) (p : Ptr) :
    InUserClients h p ↔ p ∈ l := by
  unfold InUserClients
  rw [hU]
  constructor
  · rintro ⟨v, l1, hl1, hp⟩
    by_cases hv : v = u
    · subst hv
      rw [Finmap.lookup_insert] at hl1
      rw [Option.some.inj hl1]
      exact hp
    · rw [Finmap.lookup_insert_of_ne _ hv, Finmap.lookup_empty] at hl1
      exact absurd hl1 (by simp)
  · intro hp
    exact ⟨u, l, Finmap.lookup_insert _, hp⟩

theorem not_inUserClients_of_empty {h : Hub} (hU : h.UserClients = ∅) (p : Ptr) :
    ¬ InUserClients h p := by
  rintro ⟨v, l1, hl1, -⟩
  rw [hU, Finmap.lookup_empty] at hl1
  exact absurd hl1 (by simp)

theorem wellFormed_oneTab : oneTab.WellFormed := by
  constructor
  · intro p hp
    have hp0 : p = 0 := by simpa [oneTab] using hp
    subst hp0
    exact ⟨rfl, rfl, by decide⟩
  · intro u l hl
    have hin : InUserClients oneTab 0 ↔ 0 ∈ [0] := inUserClients_of_single rfl 0
    by_cases hu : u = "A"
    · subst hu
      have hl0 : oneTab.UserClients.lookup "A" = some [0] := by decide
      rw [hl0] at hl
      rw [← Option.some.inj hl]
      refine ⟨by decide, ?_⟩
      intro p hp
      have hp0 : p = 0 := by simpa using hp
      subst hp0
      refine ⟨by decide, rfl, ?_⟩
      intro q hq _
      simpa using hq
    · have : oneTab.UserClients.lookup u = none := by
        simp [oneTab, Finmap.lookup_insert_of_ne _ hu, Finmap.lookup_empty]
      rw [this] at hl
      exact absurd hl (by simp)

/-- C3 as amended (map consistency under the other hub operations).  Let `Clients` and
`UserClients` of `h` hold the same sessions.
* `SetUserOnline` and the `user_away` branch change neither map.
* The `Broadcast` case and `sendPingToAllClients` change neither map when the keys of
  `Clients` are distinct and no (active, for the ping) registered session's queue is
  closed or full.
* `checkHeartbeats` on a well-formed hub does not fault and leaves the two maps
  holding the same sessions.
* `SetUserOffline` and the `user_active` branch leave `Clients` untouched and only take
  sessions out of `UserClients` (the user's whole entry, respectively the sessions of
  the entry that do not carry the client's ID): afterwards every session in
  `UserClients` is still in `Clients`, but not conversely. -/
theorem maps_under_other_operations (h : Hub) (hagree : MapsAgree h) :
    (∀ u, MapsAgree (SetUserOnline u h)) ∧
    (∀ c, MapsAgree (userAway c h)) ∧
    (∀ m, h.Clients.Nodup →
      (∀ p ∈ h.Clients, (h.mem p).Send.closed = false ∧
        (h.mem p).Send.buf.length < (h.mem p).Send.cap) →
      ∃ h1, Broadcast m h = .ok h1 ∧ h1.Clients = h.Clients ∧
        h1.UserClients = h.UserClients ∧ MapsAgree h1) ∧
    (h.Clients.Nodup →
      (∀ p ∈ h.Clients, (h.mem p).IsActive = true → (h.mem p).Send.closed = false ∧
        (h.mem p).Send.buf.length < (h.mem p).Send.cap) →
      ∃ h1, sendPingToAllClients h = .ok h1 ∧ h1.Clients = h.Clients ∧
        h1.UserClients = h.UserClients ∧ MapsAgree h1) ∧
    (∀ now, h.WellFormed → ∃ h1, checkHeartbeats now h = .ok h1 ∧ MapsAgree h1) ∧
    (∀ u, (SetUserOffline u h).Clients = h.Clients ∧
      (SetUserOffline u h).UserClients = h.UserClients.erase u ∧
      ∀ p, InUserClients (SetUserOffline u h) p → p ∈ (SetUserOffline u h).Clients) ∧
    (∀ c, (userActive c h).Clients = h.Clients ∧
      (∀ u, u ≠ (h.mem c).UserID →
        (userActive c h).UserClients.lookup u = h.UserClients.lookup u) ∧
      (userActive c h).UserClients.lookup (h.mem c).UserID =
        (h.UserClients.lookup (h.mem c).UserID).map
          (fun l0 => l0.filter (fun o => decide ((h.mem o).ID = (h.mem c).ID))) ∧
      ∀ p, InUserClients (userActive c h) p → p ∈ (userActive c h).Clients) := by
  refine ⟨?_, ?_, ?_, ?_, ?_, ?_, ?_⟩
  · intro u
    obtain ⟨h1, h2, -⟩ := SetUserOnline_maps u h
    exact mapsAgree_congr h1 h2 hagree
  · intro c
    obtain ⟨h1, h2⟩ := userAway_maps c h
    exact mapsAgree_congr h1 h2 hagree
  · intro m hnd hroom
    exact ⟨_, Broadcast_of_room m h hnd hroom, rfl, rfl, mapsAgree_congr rfl rfl hagree⟩
  · intro hnd hroom
    exact ⟨_, sendPing_of_room h hnd hroom, rfl, rfl, mapsAgree_congr rfl rfl hagree⟩
  · intro now hwf
    obtain ⟨h1, hrun, hwf1⟩ := checkHeartbeats_wellFormed now h hwf
    exact ⟨h1, hrun, hwf1.mapsAgree⟩
  · intro u
    obtain ⟨h1, h2⟩ := SetUserOffline_maps u h
    refine ⟨h1, h2, ?_⟩
    rintro p ⟨v, l, hl, hp⟩
    rw [h1]
    rw [h2] at hl
    have hv : v ≠ u := by
      intro hvu
      rw [hvu, Finmap.lookup_erase] at hl
      exact absurd hl (by simp)
    rw [Finmap.lookup_erase_ne hv] at hl
    exact (hagree p).mpr ⟨v, l, hl, hp⟩
  · intro c
    obtain ⟨h1, h2⟩ := userActive_maps c h
    have hother : ∀ u, u ≠ (h.mem c).UserID →
        (userActive c h).UserClients.lookup u = h.UserClients.lookup u := by
      intro u hu
      rw [h2]
      cases hl : h.UserClients.lookup (h.mem c).UserID with
      | none => rfl
      | some l0 => exact Finmap.lookup_insert_of_ne _ hu
    have hself : (userActive c h).UserClients.lookup (h.mem c).UserID =
        (h.UserClients.lookup (h.mem c).UserID).map
          (fun l0 => l0.filter (fun o => decide ((h.mem o).ID = (h.mem c).ID))) := by
      rw [h2]
      cases hl : h.UserClients.lookup (h.mem c).UserID with
      | none => simp [hl]
      | some l0 => simp [Finmap.lookup_insert]
    refine ⟨h1, hother, hself, ?_⟩
    rintro p ⟨v, l, hl, hp⟩
    rw [h1]
    by_cases hv : v = (h.mem c).UserID
    · subst hv
      rw [hself] at hl
      cases hl0 : h.UserClients.lookup (h.mem c).UserID with
      | none => rw [hl0] at hl; exact absurd hl (by simp)
      | some l0 =>
        rw [hl0] at hl
        have hl1 : l0.filter (fun o => decide ((h.mem o).ID = (h.mem c).ID)) = l := by
          simpa using hl
        rw [← hl1] at hp
        exact (hagree p).mpr ⟨_, l0, hl0, (List.mem_filter.mp hp).1⟩
    · rw [hother v hv] at hl
      exact (hagree p).mpr ⟨v, l, hl, hp⟩

theorem maps_under_other_operations_witness :
    MapsAgree oneTab ∧
      (∃ h1, Broadcast pingMessage oneTab = .ok h1 ∧ h1.Clients = oneTab.Clients ∧
        h1.UserClients = oneTab.UserClients ∧ MapsAgree h1) ∧
      (∃ h1, sendPingToAllClients oneTab = .ok h1 ∧ h1.Clients = oneTab.Clients ∧
        h1.UserClients = oneTab.UserClients ∧ MapsAgree h1) ∧
      (∃ h1, checkHeartbeats 0 oneTab = .ok h1 ∧ MapsAgree h1) ∧
      (∀ p, InUserClients (userActive 0 oneTab) p → p ∈ (userActive 0 oneTab).Clients) :=
  ⟨wellFormed_oneTab.mapsAgree,
    (maps_under_other_operations oneTab wellFormed_oneTab.mapsAgree).2.2.1 pingMessage
      (by decide) (by
        intro p hp
        have hp0 : p = 0 := by simpa [oneTab] using hp
        subst hp0
        exact ⟨rfl, show (0 : Nat) < 256 by decide⟩),
    (maps_under_other_operations oneTab wellFormed_oneTab.mapsAgree).2.2.2.1
      (by decide) (by
        intro p hp _
        have hp0 : p = 0 := by simpa [oneTab] using hp
        subst hp0
        exact ⟨rfl, show (0 : Nat) < 256 by decide⟩),
    (maps_under_other_operations oneTab wellFormed_oneTab.mapsAgree).2.2.2.2.1 0
      wellFormed_oneTab,
    ((maps_under_other_operations oneTab wellFormed_oneTab.mapsAgree).2.2.2.2.2.2 0).2.2.2⟩

theorem mapsAgree_iff_of_single {h : Hub} {u : String} {l : List Ptr}
    (hU : h.UserClients = (∅ : Finmap (fun _ : String => List Ptr)).insert u l) :
    MapsAgree h ↔ ∀ p, p ∈ h.Clients ↔ p ∈ l := by
  unfold MapsAgree
  constructor
  · intro hagree p
    rw [hagree p, inUserClients_of_single hU]
  · intro hall p
    rw [hall p, inUserClients_of_single hU]

theorem mapsAgree_iff_of_empty {h : Hub} (hU : h.UserClients = ∅) :
    MapsAgree h ↔ ∀ p, p ∉ h.Clients := by
  unfold MapsAgree
  constructor
  · intro hagree p hp
    exact not_inUserClients_of_empty hU p ((hagree p).mp hp)
  · intro hall p
    constructor
    · intro hp; exact absurd hp (hall p)
    · intro hp; exact absurd hp (not_inUserClients_of_empty hU p)

set_option maxRecDepth 100000 in
/-- C3 fails as stated, at three inputs reached from the empty hub.
(1) After tab `0` of user `"A"` has connected the two maps agree; `SetUserOffline "A"`
drops the user's entry and leaves session `0` in `Clients`.
(2) After tabs `0` and `1` of `"A"` have connected (the second evicting the first) the
maps agree; a `user_active` frame of the evicted tab `0` empties the user's entry and
leaves session `1` in `Clients`.
(3) After tab `0` has connected and 256 broadcasts have filled its queue the maps
agree; the next `Broadcast` deletes session `0` from `Clients` and leaves it in
`UserClients`. -/
theorem maps_not_mutated_together :
    (∃ h, run [Event.Register 0] (NewHub demoMem) = .ok h ∧ MapsAgree h ∧
      ¬ MapsAgree (SetUserOffline "A" h)) ∧
    (∃ h, run [Event.Register 0, Event.Register 1] (NewHub demoMem) = .ok h ∧ MapsAgree h ∧
      ¬ MapsAgree (userActive 0 h)) ∧
    (∃ h, run connectThenFill (NewHub demoMem) = .ok h ∧ MapsAgree h ∧
      ∃ h1, Broadcast pingMessage h = .ok h1 ∧ ¬ MapsAgree h1) := by
  have k1 : ∃ h, run [Event.Register 0] (NewHub demoMem) = .ok h ∧
      h.UserClients = (∅ : Finmap (fun _ : String => List Ptr)).insert "A" [0] ∧
      h.Clients = [0] ∧
      (SetUserOffline "A" h).UserClients = ∅ ∧ (SetUserOffline "A" h).Clients = [0] :=
    ⟨_, rfl, rfl, rfl, rfl, rfl⟩
  have k2 : ∃ h, run [Event.Register 0, Event.Register 1] (NewHub demoMem) = .ok h ∧
      h.UserClients = (∅ : Finmap (fun _ : String => List Ptr)).insert "A" [1] ∧
      h.Clients = [1] ∧
      (userActive 0 h).UserClients = (∅ : Finmap (fun _ : String => List Ptr)).insert "A" [] ∧
      (userActive 0 h).Clients = [1] :=
    ⟨_, rfl, rfl, rfl, rfl, rfl⟩
  have k3 : ∃ h, run connectThenFill (NewHub demoMem) = .ok h ∧
      h.UserClients = (∅ : Finmap (fun _ : String => List Ptr)).insert "A" [0] ∧
      h.Clients = [0] ∧
      ∃ h1, Broadcast pingMessage h = .ok h1 ∧
        h1.UserClients = (∅ : Finmap (fun _ : String => List Ptr)).insert "A" [0] ∧
        h1.Clients = [] :=
    ⟨_, rfl, rfl, rfl, _, rfl, rfl, rfl⟩
  obtain ⟨h, hrun, hU, hC, hU1, hC1⟩ := k1
  obtain ⟨g, grun, gU, gC, gU1, gC1⟩ := k2
  obtain ⟨f, frun, fU, fC, f1, f1run, fU1, fC1⟩ := k3
  refine ⟨⟨h, hrun, ?_, ?_⟩, ⟨g, grun, ?_, ?_⟩, ⟨f, frun, ?_, f1, f1run, ?_⟩⟩
  · rw [mapsAgree_iff_of_single hU, hC]
    exact fun p => Iff.rfl
  · rw [mapsAgree_iff_of_empty hU1, hC1]
    intro hall
    exact hall 0 (by simp)
  · rw [mapsAgree_iff_of_single gU, gC]
    exact fun p => Iff.rfl
  · rw [mapsAgree_iff_of_single gU1, gC1]
    intro hall
    have := (hall 1).mp (by simp)
    simp at this
  · rw [mapsAgree_iff_of_single fU, fC]
    exact fun p => Iff.rfl
  · rw [mapsAgree_iff_of_single fU1, fC1]
    intro hall
    have := (hall 0).mpr (by simp)
    simp at this

/-! ## Well-formedness is an invariant of the hub loop -/

/-- `Register` of a new client (not yet registered, `Send` and `Done` open) keeps the
hub well-formed, and leaves unregistered clients other than the new one untouched. -/
theorem Hub.WellFormed.Register {h : Hub} {n : Ptr} (hwf : h.WellFormed)
    (hn : n ∉ h.Clients) (hopen : (h.mem n).Send.closed = false)
    (hdone : (h.mem n).DoneClosed = false) :
    ∃ h1, Websocket.Register n h = .ok h1 ∧ h1.WellFormed ∧
      ∀ p, p ∉ h.Clients → h1.mem p = h.mem p ∧ (p ≠ n → p ∉ h1.Clients) := by
  have hsub : ∀ p ∈ h.userClients (h.mem n).UserID,
      p ∈ h.Clients ∧ (h.mem p).UserID = (h.mem n).UserID := by
    intro p hp
    obtain ⟨l, hl, hpl⟩ := (mem_userClients_iff h _ p).mp hp
    exact ⟨((hwf.2 _ l hl).2 p hpl).1, ((hwf.2 _ l hl).2 p hpl).2.1⟩
  have hnd : (h.userClients (h.mem n).UserID).Nodup := by
    cases hl : h.UserClients.lookup (h.mem n).UserID with
    | none => simp [Hub.userClients, hl]
    | some l => rw [userClients_eq_of_lookup hl]; exact (hwf.2 _ l hl).1
  obtain ⟨h1, hreg, hU, hCl, -, -, -, -, hout, -⟩ :=
    Register_spec n h hnd (fun p hp => (hwf.1 p (hsub p hp).1).1)
  have hnl : n ∉ h.userClients (h.mem n).UserID := fun hx => hn (hsub n hx).1
  have hmemn : h1.mem n = h.mem n := hout n hnl
  refine ⟨h1, hreg, ⟨?_, ?_⟩, ?_⟩
  · intro p hp
    rcases (hCl p).mp hp with rfl | ⟨hpC, hpl⟩
    · rw [hmemn]
      refine ⟨hopen, hdone, ?_⟩
      rw [mem_userClients_iff]
      exact ⟨[p], by rw [hU]; exact Finmap.lookup_insert _, by simp⟩
    · obtain ⟨ho, hd, hf⟩ := hwf.1 p hpC
      rw [hout p hpl]
      refine ⟨ho, hd, ?_⟩
      have hne : (h.mem p).UserID ≠ (h.mem n).UserID := by
        intro heq
        rw [heq] at hf
        exact hpl hf
      obtain ⟨lp, hlp, hplp⟩ := (mem_userClients_iff h _ p).mp hf
      rw [mem_userClients_iff]
      exact ⟨lp, by rw [hU, Finmap.lookup_insert_of_ne _ hne]; exact hlp, hplp⟩
  · intro u l hl
    rw [hU] at hl
    by_cases hu : u = (h.mem n).UserID
    · subst hu
      rw [Finmap.lookup_insert] at hl
      rw [← Option.some.inj hl]
      refine ⟨by simp, ?_⟩
      intro p hp
      have hpn : p = n := by simpa using hp
      subst hpn
      refine ⟨(hCl p).mpr (Or.inl rfl), by rw [hmemn], ?_⟩
      intro q hq _
      simpa using hq
    · rw [Finmap.lookup_insert_of_ne _ hu] at hl
      obtain ⟨hnd1, hall1⟩ := hwf.2 u l hl
      have hnot : ∀ p ∈ l, p ∉ h.userClients (h.mem n).UserID := by
        intro p hp hx
        exact hu ((hall1 p hp).2.1.symm.trans (hsub p hx).2)
      refine ⟨hnd1, ?_⟩
      intro p hp
      obtain ⟨hpC, hpU, hpI⟩ := hall1 p hp
      refine ⟨(hCl p).mpr (Or.inr ⟨hpC, hnot p hp⟩), by rw [hout p (hnot p hp)]; exact hpU, ?_⟩
      intro q hq
      rw [hout q (hnot q hq), hout p (hnot p hp)]
      exact hpI q hq
  · intro p hp
    have hpl : p ∉ h.userClients (h.mem n).UserID := fun hx => hp (hsub p hx).1
    refine ⟨hout p hpl, ?_⟩
    intro hpn hpC
    rcases (hCl p).mp hpC with h2 | ⟨h2, -⟩
    · exact hpn h2
    · exact hp h2

/-- `Unregister` keeps the hub well-formed and leaves unregistered clients untouched. -/
theorem Hub.WellFormed.Unregister {h : Hub} (s : Ptr) (hwf : h.WellFormed) :
    ∃ h1, Websocket.Unregister s h = .ok h1 ∧ h1.WellFormed ∧
      ∀ p, p ∉ h.Clients → h1.mem p = h.mem p ∧ p ∉ h1.Clients := by
  by_cases hin : s ∈ h.Clients
  · obtain ⟨hopen, -, hfiled⟩ := hwf.1 s hin
    obtain ⟨l, hl, hsl⟩ := (mem_userClients_iff h _ s).mp hfiled
    have hspec := Unregister_spec s h hin hopen hfiled (by
      rw [userClients_eq_of_lookup hl]
      exact fun p hp => ((hwf.2 _ l hl).2 s hsl).2.2 p hp)
    refine ⟨_, hspec, hwf.unregistered hin, ?_⟩
    intro p hp
    have hps : p ≠ s := fun hps => hp (hps ▸ hin)
    refine ⟨unregistered_mem_of_ne s h hps, ?_⟩
    intro hx
    have : p ∈ h.Clients := by
      simp only [Websocket.unregistered, List.mem_filter] at hx
      exact hx.1
    exact hp this
  · exact ⟨h, Unregister_of_not_mem s h hin, hwf, fun p hp => ⟨rfl, hp⟩⟩

/-- The sweep of `checkHeartbeats` keeps the hub well-formed and leaves unregistered
clients untouched. -/
theorem foldlM_heartbeatOne_frame (now : Int) : ∀ (l : List Ptr) (h : Hub),
    h.WellFormed → (∀ p ∈ l, p ∈ h.Clients ∨ (h.mem p).IsActive = false) →
    ∃ h1, l.foldlM (heartbeatOne now) h = .ok h1 ∧ h1.WellFormed ∧
      ∀ p, p ∉ h.Clients → h1.mem p = h.mem p ∧ p ∉ h1.Clients := by
  intro l
  induction l with
  | nil => intro h hwf _; exact ⟨h, rfl, hwf, fun p hp => ⟨rfl, hp⟩⟩
  | cons c rest ih =>
    intro h hwf hreg
    rw [List.foldlM_cons]
    by_cases hgo : (h.mem c).IsActive = true ∧ now - (h.mem c).LastPingTime > h.heartbeatTimeout
    · have hin : c ∈ h.Clients := by
        rcases hreg c (by simp) with hc | hc
        · exact hc
        · rw [hgo.1] at hc; exact absurd hc (by simp)
      rw [heartbeatOne_evict now c h hwf hin hgo.1 hgo.2]
      obtain ⟨h1, hrun, hwf1, hframe⟩ := ih (timedOut c h) (hwf.timedOut hin) (by
        intro p hp
        by_cases hpc : p = c
        · right
          rw [hpc]
          simp [timedOut, Client.timedOut]
        · rcases hreg p (by simp [hp]) with hpC | hpA
          · left
            simp [timedOut, hpC, hpc]
          · right
            simp [timedOut, Function.update, hpc, hpA])
      refine ⟨h1, hrun, hwf1, ?_⟩
      intro p hp
      have hpc : p ≠ c := fun hpc => hp (hpc ▸ hin)
      have hp1 : p ∉ (timedOut c h).Clients := by
        simp only [timedOut, List.mem_filter]
        exact fun hx => hp hx.1
      obtain ⟨hm, hc1⟩ := hframe p hp1
      refine ⟨?_, hc1⟩
      rw [hm]
      simp [timedOut, Function.update, hpc]
    · have hskip : heartbeatOne now h c = .ok h := by
        unfold heartbeatOne
        rw [if_neg hgo]
      rw [hskip]
      exact ih h hwf (fun p hp => hreg p (by simp [hp]))

/-- Well-formedness is an invariant: from an empty hub, every sequence of `Register`,
`Unregister` and heartbeat events whose `Register` events carry newly built clients
(distinct objects, `Send` and `Done` open) runs without fault and ends in a well-formed
hub. -/
theorem wellFormed_run : ∀ (evs : List Event) (h : Hub),
    (∀ e ∈ evs, e.isEviction = true) →
    (registered evs).Nodup →
    h.WellFormed →
    (∀ p ∈ registered evs, p ∉ h.Clients ∧ (h.mem p).Send.closed = false ∧
      (h.mem p).DoneClosed = false) →
    ∃ h1, run evs h = .ok h1 ∧ h1.WellFormed := by
  intro evs
  induction evs with
  | nil => intro h _ _ hwf _; exact ⟨h, rfl, hwf⟩
  | cons e rest ih =>
    intro h hkind hnd hwf hfresh
    have hkind1 : ∀ e ∈ rest, e.isEviction = true := fun e he => hkind e (by simp [he])
    have hk0 := hkind e (by simp)
    rw [run_cons]
    cases e with
    | Register c =>
      have hreg : registered (Event.Register c :: rest) = c :: registered rest := rfl
      rw [hreg] at hnd hfresh
      have hnd1 := List.nodup_cons.mp hnd
      obtain ⟨hc, hco, hcd⟩ := hfresh c (by simp)
      obtain ⟨h1, hstep, hwf1, hframe⟩ := hwf.Register hc hco hcd
      obtain ⟨h2, hrun, hwf2⟩ := ih h1 hkind1 hnd1.2 hwf1 (by
        intro p hp
        obtain ⟨hpC, hpo, hpd⟩ := hfresh p (by simp [hp])
        have hpc : p ≠ c := fun hpc => hnd1.1 (hpc ▸ hp)
        obtain ⟨hm, hnc⟩ := hframe p hpC
        rw [hm]
        exact ⟨hnc hpc, hpo, hpd⟩)
      refine ⟨h2, ?_, hwf2⟩
      simp only [step, hstep]
      exact hrun
    | Unregister c =>
      have hreg : registered (Event.Unregister c :: rest) = registered rest := rfl
      rw [hreg] at hnd hfresh
      obtain ⟨h1, hstep, hwf1, hframe⟩ := hwf.Unregister c
      obtain ⟨h2, hrun, hwf2⟩ := ih h1 hkind1 hnd hwf1 (by
        intro p hp
        obtain ⟨hpC, hpo, hpd⟩ := hfresh p hp
        obtain ⟨hm, hnc⟩ := hframe p hpC
        rw [hm]
        exact ⟨hnc, hpo, hpd⟩)
      refine ⟨h2, ?_, hwf2⟩
      simp only [step, hstep]
      exact hrun
    | heartbeatTick now =>
      have hreg : registered (Event.heartbeatTick now :: rest) = registered rest := rfl
      rw [hreg] at hnd hfresh
      obtain ⟨h1, hstep, hwf1, hframe⟩ :=
        foldlM_heartbeatOne_frame now h.Clients h hwf (fun _ hp => Or.inl hp)
      obtain ⟨h2, hrun, hwf2⟩ := ih h1 hkind1 hnd hwf1 (by
        intro p hp
        obtain ⟨hpC, hpo, hpd⟩ := hfresh p hp
        obtain ⟨hm, hnc⟩ := hframe p hpC
        rw [hm]
        exact ⟨hnc, hpo, hpd⟩)
      refine ⟨h2, ?_, hwf2⟩
      simp only [step, checkHeartbeats, hstep]
      exact hrun
    | Broadcast m => simp [Event.isEviction] at hk0
    | pingTick => simp [Event.isEviction] at hk0
    | ping now c => simp [Event.isEviction] at hk0
    | userAway c => simp [Event.isEviction] at hk0
    | userActive c => simp [Event.isEviction] at hk0
    | go call => simp [Event.isEviction] at hk0

/-- The empty hub is well-formed. -/
theorem wellFormed_NewHub (mem : Ptr → Client) : (NewHub mem).WellFormed := by
  constructor
  · intro p hp
    simp [NewHub] at hp
  · intro u l hl
    have : (NewHub mem).UserClients.lookup u = none := Finmap.lookup_empty u
    rw [this] at hl
    exact absurd hl (by simp)

/-! ## Ping, hub-wide broadcast and backpressure -/

/-- C20 (ping is answered with pong).  For every session `c` whose `Send` queue is open
and not full, `handlePing` at time `now` returns normally, and the hub afterwards is the
hub before with, at `c` only, `LastPingTime` set to `now` and exactly one message
appended at the tail of the queue: `pongMessage`, the bytes of the JSON envelope
`{"type":"pong","payload":null}`.  No other client object and neither map changes. -/
theorem handlePing_answers_pong (now : Int) (c : Ptr) (h : Hub)
    (hopen : (h.mem c).Send.closed = false)
    (hroom : (h.mem c).Send.buf.length < (h.mem c).Send.cap) :
    handlePing now c h = .ok { h with mem := (Function.update h.mem c
        { h.mem c with
          LastPingTime := now,
          Send := { (h.mem c).Send with buf := (h.mem c).Send.buf ++ [pongMessage] } }) } ∧
      pongMessage =
        (String.toList "\x7b\"type\":\"pong\",\"payload\":null\x7d").map Char.toNat := by
  refine ⟨?_, by decide⟩
  unfold handlePing
  simp only [setClient_mem_self, Chan.send, hopen, hroom, Bool.false_eq_true, if_false, if_true,
    setClient_setClient]
  rfl

theorem handlePing_answers_pong_witness :
    handlePing 5 0 oneTab = .ok { oneTab with mem := (Function.update oneTab.mem 0
        { oneTab.mem 0 with
          LastPingTime := 5,
          Send := { (oneTab.mem 0).Send with
            buf := (oneTab.mem 0).Send.buf ++ [pongMessage] } }) } ∧
      pongMessage =
        (String.toList "\x7b\"type\":\"pong\",\"payload\":null\x7d").map Char.toNat :=
  handlePing_answers_pong 5 0 oneTab rfl (show (0 : Nat) < 256 by decide)

/-- C12 (BroadcastAll delivery).  For every hub state in which no registered session's
queue is closed or full (the keys of `Clients` being distinct, as the keys of a map
are), the `Broadcast` case returns normally and the hub afterwards is the hub before
with the message appended exactly once at the tail of the `Send` queue of every session
in `Clients`; nothing else changes. -/
theorem broadcast_delivers_to_all (message : Bytes) (h : Hub) (hkeys : h.Clients.Nodup)
    (hroom : ∀ p ∈ h.Clients, (h.mem p).Send.closed = false ∧
      (h.mem p).Send.buf.length < (h.mem p).Send.cap) :
    Broadcast message h = .ok { h with mem := (fun p =>
      if p ∈ h.Clients then
        { h.mem p with Send := { (h.mem p).Send with buf := (h.mem p).Send.buf ++ [message] } }
      else h.mem p) } :=
  Broadcast_of_room message h hkeys hroom

theorem broadcast_delivers_to_all_witness :
    Broadcast pingMessage twoUsers = .ok { twoUsers with mem := (fun p =>
      if p ∈ twoUsers.Clients then
        { twoUsers.mem p with
          Send := { (twoUsers.mem p).Send with
            buf := (twoUsers.mem p).Send.buf ++ [pingMessage] } }
      else twoUsers.mem p) } :=
  broadcast_delivers_to_all pingMessage twoUsers (by decide) (by
    intro p hp
    have hp01 : p = 0 ∨ p = 1 := by simpa [twoUsers] using hp
    rcases hp01 with rfl | rfl
    · exact ⟨rfl, show (0 : Nat) < 256 by decide⟩
    · exact ⟨rfl, show (0 : Nat) < 256 by decide⟩)

theorem sendToUserOne_of_open (payload : Bytes) (h : Hub) (c : Ptr)
    (hopen : (h.mem c).IsActive = true → (h.mem c).Send.closed = false) :
    sendToUserOne payload h c = .ok (deliveredWhereRoom payload [c] h) := by
  unfold sendToUserOne
  by_cases ha : (h.mem c).IsActive = true
  · have ho := hopen ha
    by_cases hr : (h.mem c).Send.buf.length < (h.mem c).Send.cap
    · simp only [ha, if_true, Chan.trySend, ho, hr, Bool.false_eq_true, if_false]
      congr 1
      simp only [Hub.setClient, deliveredWhereRoom]
      congr 1
      funext p
      by_cases hp : p = c
      · subst hp; simp [ha, hr, Client.enqueued, ho]
      · simp [Function.update, hp]
    · simp only [ha, if_true, Chan.trySend, ho, hr, Bool.false_eq_true, if_false]
      congr 1
      simp only [deliveredWhereRoom]
      have : (fun p => if p ∈ [c] ∧ (h.mem p).IsActive = true ∧
          (h.mem p).Send.buf.length < (h.mem p).Send.cap
          then (h.mem p).enqueued payload else h.mem p) = h.mem := by
        funext p
        by_cases hp : p = c
        · subst hp; simp [hr]
        · simp [hp]
      rw [this]
  · simp only [ha, Bool.false_eq_true, if_false]
    congr 1
    simp only [deliveredWhereRoom]
    have : (fun p => if p ∈ [c] ∧ (h.mem p).IsActive = true ∧
        (h.mem p).Send.buf.length < (h.mem p).Send.cap
        then (h.mem p).enqueued payload else h.mem p) = h.mem := by
      funext p
      by_cases hp : p = c
      · subst hp; simp [ha]
      · simp [hp]
    rw [this]

/-- The loop of `BroadcastToUser` over distinct clients of which the active ones have
open queues: a full queue drops the message for that client only. -/
theorem foldlM_sendToUserOne_of_open (payload : Bytes) : ∀ (l : List Ptr) (h : Hub),
    l.Nodup → (∀ p ∈ l, (h.mem p).IsActive = true → (h.mem p).Send.closed = false) →
    l.foldlM (sendToUserOne payload) h = .ok (deliveredWhereRoom payload l h) := by
  intro l
  induction l with
  | nil =>
    intro h _ _
    simp [deliveredWhereRoom]
    rfl
  | cons c rest ih =>
    intro h hnd hopen
    have hnd1 := List.nodup_cons.mp hnd
    rw [List.foldlM_cons, sendToUserOne_of_open payload h c (hopen c (by simp))]
    have hsame : ∀ p ∈ rest, (deliveredWhereRoom payload [c] h).mem p = h.mem p := by
      intro p hp
      have hpc : p ≠ c := fun hpc => hnd1.1 (hpc ▸ hp)
      simp [deliveredWhereRoom, hpc]
    show rest.foldlM (sendToUserOne payload) (deliveredWhereRoom payload [c] h) = _
    rw [ih (deliveredWhereRoom payload [c] h) hnd1.2 (by
      intro p hp
      rw [hsame p hp]
      exact hopen p (by simp [hp]))]
    congr 1
    simp only [deliveredWhereRoom]
    congr 1
    funext p
    by_cases hpc : p = c
    · subst hpc
      simp [hnd1.1]
    · simp [hpc]

/-- C11 (BroadcastToUser backpressure).  Let `s` be an active session of the user whose
`Send` queue is full, let `json.Marshal` encode the message as `payload`, and let the
sessions filed under the user be distinct objects of which the active ones have open
queues.  Then `BroadcastToUser` returns normally (the full queue takes the `default`
branch, nothing blocks); the client object `s`, with its queue contents and its open
queue, is unchanged; both maps are unchanged, so `s` stays registered; and every other
active session of the user whose queue has room has `payload` appended. -/
theorem broadcastToUser_backpressure {α : Type} (jsonMarshal : α → Option Bytes)
    (userID : String) (message : α) (payload : Bytes) (h : Hub) (s : Ptr)
    (hjson : jsonMarshal message = some payload)
    (hs : s ∈ h.userClients userID)
    (hactive : (h.mem s).IsActive = true)
    (hfull : (h.mem s).Send.cap ≤ (h.mem s).Send.buf.length)
    (hdistinct : (h.userClients userID).Nodup)
    (hopen : ∀ p ∈ h.userClients userID,
      (h.mem p).IsActive = true → (h.mem p).Send.closed = false) :
    ∃ h1, BroadcastToUser jsonMarshal userID message h = .ok h1 ∧
      h1.mem s = h.mem s ∧ (h1.mem s).Send.closed = false ∧
      h1.Clients = h.Clients ∧ h1.UserClients = h.UserClients ∧
      (∀ p ∈ h.userClients userID, p ≠ s → (h.mem p).IsActive = true →
        (h.mem p).Send.buf.length < (h.mem p).Send.cap →
        h1.mem p = { h.mem p with
          Send := { (h.mem p).Send with buf := (h.mem p).Send.buf ++ [payload] } }) ∧
      (∀ p, ¬ (p ∈ h.userClients userID ∧ (h.mem p).IsActive = true ∧
          (h.mem p).Send.buf.length < (h.mem p).Send.cap) → h1.mem p = h.mem p) := by
  have hrun : BroadcastToUser jsonMarshal userID message h
      = .ok (deliveredWhereRoom payload (h.userClients userID) h) := by
    unfold BroadcastToUser
    rw [hjson]
    cases hl : h.UserClients.lookup userID with
    | none =>
      have hu : h.userClients userID = [] := by simp [Hub.userClients, hl]
      rw [hu] at hs
      simp at hs
    | some l =>
      have hu : h.userClients userID = l := userClients_eq_of_lookup hl
      rw [hu] at hdistinct hopen ⊢
      exact foldlM_sendToUserOne_of_open payload l h hdistinct hopen
  have hnoroom : ¬ (h.mem s).Send.buf.length < (h.mem s).Send.cap := Nat.not_lt.mpr hfull
  have hmems : (deliveredWhereRoom payload (h.userClients userID) h).mem s = h.mem s := by
    simp [deliveredWhereRoom, hnoroom]
  refine ⟨_, hrun, hmems, ?_, rfl, rfl, ?_, ?_⟩
  · rw [hmems]
    exact hopen s hs hactive
  · intro p hp _ hpa hpr
    simp [deliveredWhereRoom, hp, hpa, hpr, Client.enqueued]
  · intro p hp
    simp only [deliveredWhereRoom]
    rw [if_neg hp]

theorem broadcastToUser_backpressure_witness :
    ∃ h1, BroadcastToUser demoMarshal "A" pingMessage twoTabsOneFull = .ok h1 ∧
      h1.mem 0 = twoTabsOneFull.mem 0 ∧ (h1.mem 0).Send.closed = false ∧
      h1.Clients = twoTabsOneFull.Clients ∧ h1.UserClients = twoTabsOneFull.UserClients ∧
      (∀ p ∈ twoTabsOneFull.userClients "A", p ≠ 0 → (twoTabsOneFull.mem p).IsActive = true →
        (twoTabsOneFull.mem p).Send.buf.length < (twoTabsOneFull.mem p).Send.cap →
        h1.mem p = { twoTabsOneFull.mem p with
          Send := { (twoTabsOneFull.mem p).Send with
            buf := (twoTabsOneFull.mem p).Send.buf ++ [pingMessage] } }) ∧
      (∀ p, ¬ (p ∈ twoTabsOneFull.userClients "A" ∧ (twoTabsOneFull.mem p).IsActive = true ∧
          (twoTabsOneFull.mem p).Send.buf.length < (twoTabsOneFull.mem p).Send.cap) →
        h1.mem p = twoTabsOneFull.mem p) :=
  broadcastToUser_backpressure demoMarshal "A" pingMessage pingMessage twoTabsOneFull 0 rfl
    (by decide) rfl
    (by show (256 : Nat) ≤ (List.replicate 256 pingMessage).length; rw [List.length_replicate])
    (by decide) (by
      intro p hp _
      have hp01 : p = 0 ∨ p = 1 := by
        have : twoTabsOneFull.userClients "A" = [0, 1] := by decide
        rw [this] at hp
        simpa using hp
      rcases hp01 with rfl | rfl
      · rfl
      · rfl)

theorem broadcastOne_of_open (message : Bytes) (h : Hub) (c : Ptr)
    (hopen : (h.mem c).Send.closed = false) :
    broadcastOne message h c = .ok (broadcasted message [c] h) := by
  by_cases hr : (h.mem c).Send.buf.length < (h.mem c).Send.cap
  · rw [broadcastOne_ok message h c hopen hr]
    congr 1
    simp only [enqueuedAll, broadcasted]
    congr 1
    · symm
      rw [List.filter_eq_self]
      intro q _
      by_cases hq : q = c
      · subst hq; simp [hr]
      · simp [hq]
    · funext p
      by_cases hp : p = c
      · subst hp; simp [hr]
      · simp [hp]
  · unfold broadcastOne
    simp only [Chan.trySend, hopen, hr, Bool.false_eq_true, if_false]
    rw [closeSend_ok hopen]
    simp only [Hub.deleteClient, Hub.setClient, broadcasted]
    congr 2
    · apply List.filter_congr
      intro q _
      by_cases hq : q = c
      · subst hq; simp [hr]
      · simp [hq]
    · funext p
      by_cases hp : p = c
      · subst hp; simp [hr]
      · simp [Function.update, hp]

/-- The loop of the `Broadcast` case over distinct clients with open queues. -/
theorem foldlM_broadcastOne_of_open (message : Bytes) : ∀ (l : List Ptr) (h : Hub),
    l.Nodup → (∀ p ∈ l, (h.mem p).Send.closed = false) →
    l.foldlM (broadcastOne message) h = .ok (broadcasted message l h) := by
  intro l
  induction l with
  | nil =>
    intro h _ _
    simp [broadcasted]
    rfl
  | cons c rest ih =>
    intro h hnd hopen
    have hnd1 := List.nodup_cons.mp hnd
    rw [List.foldlM_cons, broadcastOne_of_open message h c (hopen c (by simp))]
    have hsame : ∀ p, p ≠ c → (broadcasted message [c] h).mem p = h.mem p := by
      intro p hpc
      simp [broadcasted, hpc]
    show rest.foldlM (broadcastOne message) (broadcasted message [c] h) = _
    rw [ih (broadcasted message [c] h) hnd1.2 (by
      intro p hp
      have hpc : p ≠ c := fun hpc => hnd1.1 (hpc ▸ hp)
      rw [hsame p hpc]
      exact hopen p (by simp [hp]))]
    congr 1
    have hC : (broadcasted message rest (broadcasted message [c] h)).Clients
        = (broadcasted message (c :: rest) h).Clients := by
      simp only [broadcasted, List.filter_filter]
      apply List.filter_congr
      intro q _
      by_cases hq : q = c
      · subst hq; simp [hnd1.1]
      · simp [hq]
    have hM : (broadcasted message rest (broadcasted message [c] h)).mem
        = (broadcasted message (c :: rest) h).mem := by
      simp only [broadcasted]
      funext p
      by_cases hpc : p = c
      · subst hpc; simp [hnd1.1]
      · simp [hpc]
    calc broadcasted message rest (broadcasted message [c] h)
        = { h with
            Clients := (broadcasted message rest (broadcasted message [c] h)).Clients
            mem := (broadcasted message rest (broadcasted message [c] h)).mem } := rfl
      _ = broadcasted message (c :: rest) h := by rw [hC, hM]; rfl

/-- The `Broadcast` case when the keys of `Clients` are distinct and every registered
session's queue is open. -/
theorem Broadcast_of_open (message : Bytes) (h : Hub) (hkeys : h.Clients.Nodup)
    (hopen : ∀ p ∈ h.Clients, (h.mem p).Send.closed = false) :
    Broadcast message h = .ok (broadcasted message h.Clients h) :=
  foldlM_broadcastOne_of_open message h.Clients h hkeys hopen

/-- C13 as amended (BroadcastAll backpressure).  Let `s` be a registered session whose
`Send` queue is full, in a hub whose registered sessions have open queues (the keys of
`Clients` being distinct).  The `Broadcast` case returns normally and a full queue is
fatal to the session: `s` is deleted from `Clients` and its queue is closed, with the
messages it held unchanged (the new message is not enqueued).  Every registered session
whose queue has room stays in `Clients` with the message appended. -/
theorem broadcast_full_queue_closes_session (message : Bytes) (h : Hub) (s : Ptr)
    (hs : s ∈ h.Clients)
    (hfull : (h.mem s).Send.cap ≤ (h.mem s).Send.buf.length)
    (hkeys : h.Clients.Nodup)
    (hopen : ∀ p ∈ h.Clients, (h.mem p).Send.closed = false) :
    ∃ h1, Broadcast message h = .ok h1 ∧
      s ∉ h1.Clients ∧ (h1.mem s).Send.closed = true ∧
      (h1.mem s).Send.buf = (h.mem s).Send.buf ∧
      (∀ p ∈ h.Clients, (h.mem p).Send.buf.length < (h.mem p).Send.cap →
        p ∈ h1.Clients ∧ h1.mem p = { h.mem p with
          Send := { (h.mem p).Send with buf := (h.mem p).Send.buf ++ [message] } }) := by
  have hnoroom : ¬ (h.mem s).Send.buf.length < (h.mem s).Send.cap := Nat.not_lt.mpr hfull
  refine ⟨_, Broadcast_of_open message h hkeys hopen, ?_, ?_, ?_, ?_⟩
  · simp [broadcasted, hs, hnoroom]
  · simp [broadcasted, hs, hnoroom, Client.sendClosed]
  · simp [broadcasted, hs, hnoroom, Client.sendClosed]
  · intro p hp hr
    constructor
    · simp [broadcasted, hp, hr]
    · simp [broadcasted, hp, hr, Client.enqueued]

theorem broadcast_full_queue_closes_session_witness :
    ∃ h1, Broadcast pingMessage twoTabsOneFull = .ok h1 ∧
      0 ∉ h1.Clients ∧ (h1.mem 0).Send.closed = true ∧
      (h1.mem 0).Send.buf = (twoTabsOneFull.mem 0).Send.buf ∧
      (∀ p ∈ twoTabsOneFull.Clients,
        (twoTabsOneFull.mem p).Send.buf.length < (twoTabsOneFull.mem p).Send.cap →
        p ∈ h1.Clients ∧ h1.mem p = { twoTabsOneFull.mem p with
          Send := { (twoTabsOneFull.mem p).Send with
            buf := (twoTabsOneFull.mem p).Send.buf ++ [pingMessage] } }) :=
  broadcast_full_queue_closes_session pingMessage twoTabsOneFull 0 (by decide)
    (by show (256 : Nat) ≤ (List.replicate 256 pingMessage).length; rw [List.length_replicate])
    (by decide) (by
      intro p hp
      have hp01 : p = 0 ∨ p = 1 := by
        have : twoTabsOneFull.Clients = [0, 1] := rfl
        rw [this] at hp
        simpa using hp
      rcases hp01 with rfl | rfl
      · rfl
      · rfl)

set_option maxRecDepth 100000 in
/-- C13 fails as stated.  From the empty hub, tab `0` of user `"A"` connects and 256
broadcasts fill its queue; it is registered with an open, full queue.  The next
`Broadcast` does not merely drop the message: it closes the session's queue and deletes
the session from `Clients`. -/
theorem broadcast_full_queue_is_fatal :
    ∃ h, run connectThenFill (NewHub demoMem) = .ok h ∧
      h.Clients = [0] ∧ h.UserClients.lookup "A" = some [0] ∧
      (h.mem 0).Send.closed = false ∧ (h.mem 0).Send.buf.length = 256 ∧
      (h.mem 0).Send.cap = 256 ∧
      ∃ h1, Broadcast pingMessage h = .ok h1 ∧
        h1.Clients = [] ∧ (h1.mem 0).Send.closed = true :=
  ⟨_, rfl, rfl, rfl, rfl, rfl, rfl, _, rfl, rfl, rfl⟩

/-! ## What the heartbeat sweep evicts -/

theorem evictable_timedOut (now : Int) (c p : Ptr) (h : Hub) :
    (timedOut c h).evictable now p ↔ p ≠ c ∧ h.evictable now p := by
  unfold Hub.evictable
  by_cases hpc : p = c
  · subst hpc
    simp [timedOut, Client.timedOut]
  · have hm : (timedOut c h).mem p = h.mem p := by
      simp [timedOut, Function.update, hpc]
    rw [hm]
    simp [hpc, timedOut]

/-- The sweep of `checkHeartbeats` over the keys `l` on a well-formed hub: exactly the
visited clients that pass the test are deleted from `Clients` and get the fields of a
timed-out client; the other client objects, the timeout and the recorded status calls
are unchanged, and the hub stays well-formed. -/
theorem foldlM_heartbeatOne_spec (now : Int) : ∀ (l : List Ptr) (h : Hub),
    h.WellFormed → (∀ p ∈ l, p ∈ h.Clients ∨ (h.mem p).IsActive = false) →
    ∃ h1, l.foldlM (heartbeatOne now) h = .ok h1 ∧ h1.WellFormed ∧
      h1.Clients = h.Clients.filter (fun p => decide (¬ (p ∈ l ∧ h.evictable now p))) ∧
      (∀ p, h1.mem p = if p ∈ l ∧ h.evictable now p then (h.mem p).timedOut else h.mem p) ∧
      h1.heartbeatTimeout = h.heartbeatTimeout ∧
      h1.statusCalls = h.statusCalls ∧
      h1.hasStatusUpdater = h.hasStatusUpdater := by
  intro l
  induction l with
  | nil =>
    intro h hwf _
    refine ⟨h, rfl, hwf, ?_, ?_, rfl, rfl, rfl⟩
    · simp
    · intro p; simp
  | cons c rest ih =>
    intro h hwf hreg
    rw [List.foldlM_cons]
    by_cases hgo : h.evictable now c
    · have hin : c ∈ h.Clients := by
        rcases hreg c (by simp) with hc | hc
        · exact hc
        · rw [hgo.1] at hc; exact absurd hc (by simp)
      rw [heartbeatOne_evict now c h hwf hin hgo.1 hgo.2]
      obtain ⟨h1, hrun, hwf1, hC, hM, hT, hS, hU⟩ := ih (timedOut c h) (hwf.timedOut hin) (by
        intro p hp
        by_cases hpc : p = c
        · right
          rw [hpc]
          simp [timedOut, Client.timedOut]
        · rcases hreg p (by simp [hp]) with hpC | hpA
          · left
            simp [timedOut, hpC, hpc]
          · right
            simp [timedOut, Function.update, hpc, hpA])
      refine ⟨h1, hrun, hwf1, ?_, ?_, hT, hS, hU⟩
      · rw [hC]
        simp only [timedOut, List.filter_filter]
        apply List.filter_congr
        intro q _
        have hev := evictable_timedOut now c q h
        simp only [timedOut] at hev
        by_cases hq : q = c
        · subst hq
          simp [hgo]
        · simp only [hev]
          simp [hq]
      · intro p
        rw [hM p]
        by_cases hpc : p = c
        · subst hpc
          have hnot : ¬ (timedOut p h).evictable now p := by
            rw [evictable_timedOut]; simp
          rw [if_neg (fun hx => hnot hx.2), if_pos ⟨by simp, hgo⟩]
          simp [timedOut]
        · have hm : (timedOut c h).mem p = h.mem p := by
            simp [timedOut, Function.update, hpc]
          rw [hm]
          simp only [evictable_timedOut, List.mem_cons, hpc, false_or, ne_eq, not_false_eq_true,
            true_and]
    · have hgo1 : ¬ ((h.mem c).IsActive = true ∧
          now - (h.mem c).LastPingTime > h.heartbeatTimeout) := hgo
      have hskip : heartbeatOne now h c = .ok h := by
        unfold heartbeatOne
        rw [if_neg hgo1]
      rw [hskip]
      obtain ⟨h1, hrun, hwf1, hC, hM, hT, hS, hU⟩ :=
        ih h hwf (fun p hp => hreg p (by simp [hp]))
      refine ⟨h1, hrun, hwf1, ?_, ?_, hT, hS, hU⟩
      · rw [hC]
        apply List.filter_congr
        intro q _
        by_cases hq : q = c
        · subst hq; simp [hgo]
        · simp [hq]
      · intro p
        rw [hM p]
        by_cases hpc : p = c
        · subst hpc; simp [hgo]
        · simp [hpc]

/-- What `checkHeartbeats` does to `Clients` and to the client objects of a well-formed
hub. -/
theorem checkHeartbeats_spec (now : Int) (h : Hub) (hwf : h.WellFormed) :
    ∃ h1, checkHeartbeats now h = .ok h1 ∧ h1.WellFormed ∧
      (∀ p, p ∈ h1.Clients ↔ p ∈ h.Clients ∧ ¬ h.evictable now p) ∧
      (∀ p, h1.mem p =
        if p ∈ h.Clients ∧ h.evictable now p then (h.mem p).timedOut else h.mem p) ∧
      h1.heartbeatTimeout = h.heartbeatTimeout ∧
      h1.statusCalls = h.statusCalls ∧
      h1.hasStatusUpdater = h.hasStatusUpdater := by
  obtain ⟨h1, hrun, hwf1, hC, hM, hT, hS, hU⟩ :=
    foldlM_heartbeatOne_spec now h.Clients h hwf (fun _ hp => Or.inl hp)
  refine ⟨h1, hrun, hwf1, ?_, hM, hT, hS, hU⟩
  intro p
  rw [hC]
  simp only [List.mem_filter, decide_eq_true_eq]
  constructor
  · rintro ⟨hp, hn⟩
    exact ⟨hp, fun he => hn ⟨hp, he⟩⟩
  · rintro ⟨hp, hn⟩
    exact ⟨hp, fun he => hn he.2⟩

theorem inUserClients_of_wellFormed {h : Hub} (hwf : h.WellFormed) {p : Ptr}
    (hp : p ∈ h.Clients) : InUserClients h p := (hwf.mapsAgree p).mp hp

/-- C14 fails as stated.  From the empty hub, tab `0` of user `"A"` connects at time 0
and sends `user_away` (its `IsActive` flag is now false); 121 s later the heartbeat
sweep runs.  The session is stale beyond the 120 s timeout, yet it is still in
`Clients` with its queue open: (1) in both maps when the `SetUserOffline` goroutine of
the `user_away` has not run, (2) in `Clients` when it has. -/
theorem heartbeat_keeps_inactive_stale :
    (∃ h, run [Event.Register 0, Event.userAway 0, Event.heartbeatTick 121000000000]
          (NewHub demoMem) = .ok h ∧
        h.heartbeatTimeout = 120000000000 ∧ (h.mem 0).LastPingTime = 0 ∧
        h.Clients = [0] ∧ h.UserClients.lookup "A" = some [0] ∧
        (h.mem 0).Send.closed = false) ∧
    (∃ h, run [Event.Register 0, Event.userAway 0, Event.go (GoCall.SetUserOffline "A"),
          Event.heartbeatTick 121000000000] (NewHub demoMem) = .ok h ∧
        h.heartbeatTimeout = 120000000000 ∧ (h.mem 0).LastPingTime = 0 ∧
        h.Clients = [0] ∧ (h.mem 0).Send.closed = false) :=
  ⟨⟨_, rfl, rfl, rfl, rfl, rfl, rfl⟩, ⟨_, rfl, rfl, rfl, rfl, rfl⟩⟩

/-! ## The `user_active` and `user_away` branches -/

theorem deactivate_mem (h : Hub) (o p : Ptr) :
    (h.deactivate o).mem p =
      if p = o ∧ (h.mem o).IsActive = true then (h.mem o).deactivated else h.mem p := by
  unfold Hub.deactivate
  by_cases ha : (h.mem o).IsActive = true
  · rw [if_pos ha]
    by_cases hp : p = o
    · subst hp
      simp [Hub.connClose, ha, Client.deactivated]
    · rw [connClose_mem_of_ne _ hp, setClient_mem_of_ne _ _ hp]
      simp [hp]
  · rw [if_neg ha]
    simp [ha]

/-- The memory after the first loop of `user_active`: exactly the clients of the list
that carry another ID and are active have been deactivated. -/
theorem closeOthers_mem (id : String) (p : Ptr) : ∀ (l : List Ptr) (h : Hub) (w : Bool),
    (closeOthers id l (h, w)).1.mem p =
      if p ∈ l ∧ (h.mem p).ID ≠ id ∧ (h.mem p).IsActive = true then (h.mem p).deactivated
      else h.mem p := by
  intro l
  induction l with
  | nil => intro h w; simp [closeOthers]
  | cons o rest ih =>
    intro h w
    unfold closeOthers
    by_cases hc : (h.mem o).ID ≠ id ∧ (h.mem o).IsActive = true
    · rw [if_pos hc, ih (h.deactivate o) false]
      simp only [deactivate_mem]
      by_cases hp : p = o
      · subst hp
        simp [hc.1, hc.2, Client.deactivated]
      · simp [hp]
    · rw [if_neg hc, ih h w]
      by_cases hp : p = o
      · subst hp
        have hc1 : ¬ ((h.mem p).ID ≠ id ∧ (h.mem p).IsActive = true) := hc
        simp only [List.mem_cons, true_or, true_and]
        rw [if_neg (fun hx => hc1 hx.2), if_neg hc1]
      · simp [hp]

/-- The flag `wasOffline` after the first loop of `user_active`. -/
theorem closeOthers_flag (id : String) : ∀ (l : List Ptr) (h : Hub) (w : Bool),
    (closeOthers id l (h, w)).2 =
      (w && !(l.any (fun o => decide ((h.mem o).ID ≠ id) && (h.mem o).IsActive))) := by
  intro l
  induction l with
  | nil => intro h w; simp [closeOthers]
  | cons o rest ih =>
    intro h w
    unfold closeOthers
    by_cases hc : (h.mem o).ID ≠ id ∧ (h.mem o).IsActive = true
    · rw [if_pos hc, ih (h.deactivate o) false]
      simp [hc.1, hc.2]
    · rw [if_neg hc, ih h w]
      have hc1 : (decide ((h.mem o).ID ≠ id) && (h.mem o).IsActive) = false := by
        by_cases h1 : (h.mem o).ID = id
        · simp [h1]
        · have : (h.mem o).IsActive = false := by
            cases hx : (h.mem o).IsActive
            · rfl
            · exact absurd ⟨h1, hx⟩ hc
          simp [this]
      rw [List.any_cons, hc1, Bool.false_or]

theorem closeOthers_spawned (id : String) : ∀ (l : List Ptr) (s : Hub × Bool),
    (closeOthers id l s).1.spawned = s.1.spawned ∧
      (closeOthers id l s).1.statusCalls = s.1.statusCalls ∧
      (closeOthers id l s).1.hasStatusUpdater = s.1.hasStatusUpdater := by
  intro l
  induction l with
  | nil => intro s; exact ⟨rfl, rfl, rfl⟩
  | cons o rest ih =>
    rintro ⟨h, w⟩
    unfold closeOthers
    have hd : (h.deactivate o).spawned = h.spawned ∧
        (h.deactivate o).statusCalls = h.statusCalls ∧
        (h.deactivate o).hasStatusUpdater = h.hasStatusUpdater := by
      unfold Hub.deactivate
      split <;> exact ⟨rfl, rfl, rfl⟩
    split
    · obtain ⟨h1, h2, h3⟩ := ih (h.deactivate o, false)
      exact ⟨h1.trans hd.1, h2.trans hd.2.1, h3.trans hd.2.2⟩
    · exact ih (h, w)

/-- The client objects after the `user_active` branch. -/
theorem userActive_mem (c : Ptr) (h : Hub) (p : Ptr) :
    (userActive c h).mem p =
      if p = c then { h.mem c with IsActive := true }
      else if p ∈ h.userClients (h.mem c).UserID ∧ (h.mem p).ID ≠ (h.mem c).ID ∧
          (h.mem p).IsActive = true then (h.mem p).deactivated
      else h.mem p := by
  have hid : ((h.setClient c { h.mem c with IsActive := true }).mem c).UserID
      = (h.mem c).UserID := by simp
  have hidc : ((h.setClient c { h.mem c with IsActive := true }).mem c).ID
      = (h.mem c).ID := by simp
  unfold userActive
  dsimp only
  rw [hid, hidc]
  cases hl : h.UserClients.lookup (h.mem c).UserID with
  | none =>
    have hl1 : (h.setClient c { h.mem c with IsActive := true }).UserClients.lookup
        (h.mem c).UserID = none := hl
    have hu : h.userClients (h.mem c).UserID = [] := by simp [Hub.userClients, hl]
    simp only [hl1, hu]
    by_cases hp : p = c
    · subst hp; simp
    · simp [hp, setClient_mem_of_ne]
  | some l0 =>
    have hl1 : (h.setClient c { h.mem c with IsActive := true }).UserClients.lookup
        (h.mem c).UserID = some l0 := hl
    have hu : h.userClients (h.mem c).UserID = l0 := userClients_eq_of_lookup hl
    simp only [hl1, hu]
    have hmem : ∀ hx : Hub, hx.mem = (closeOthers (h.mem c).ID l0
        (h.setClient c { h.mem c with IsActive := true }, true)).1.mem →
        hx.mem p = if p = c then { h.mem c with IsActive := true }
          else if p ∈ l0 ∧ (h.mem p).ID ≠ (h.mem c).ID ∧ (h.mem p).IsActive = true
            then (h.mem p).deactivated else h.mem p := by
      intro hx hxm
      rw [hxm, closeOthers_mem]
      by_cases hp : p = c
      · subst hp; simp
      · simp [hp, setClient_mem_of_ne]
    split
    · exact hmem _ rfl
    · exact hmem _ rfl

/-- The goroutines started by the `user_active` branch: one `SetUserOnline`, unless the
user's entry held an active session with another ID. -/
theorem userActive_spawned (c : Ptr) (h : Hub) :
    (userActive c h).spawned =
      if (h.userClients (h.mem c).UserID).any
          (fun o => decide ((h.mem o).ID ≠ (h.mem c).ID) && (h.mem o).IsActive) then h.spawned
      else h.spawned ++ [GoCall.SetUserOnline (h.mem c).UserID] := by
  have hid : ((h.setClient c { h.mem c with IsActive := true }).mem c).UserID
      = (h.mem c).UserID := by simp
  have hidc : ((h.setClient c { h.mem c with IsActive := true }).mem c).ID
      = (h.mem c).ID := by simp
  unfold userActive
  dsimp only
  rw [hid, hidc]
  cases hl : h.UserClients.lookup (h.mem c).UserID with
  | none =>
    have hl1 : (h.setClient c { h.mem c with IsActive := true }).UserClients.lookup
        (h.mem c).UserID = none := hl
    have hu : h.userClients (h.mem c).UserID = [] := by simp [Hub.userClients, hl]
    simp only [hl1, hu]
    simp
  | some l0 =>
    have hl1 : (h.setClient c { h.mem c with IsActive := true }).UserClients.lookup
        (h.mem c).UserID = some l0 := hl
    have hu : h.userClients (h.mem c).UserID = l0 := userClients_eq_of_lookup hl
    simp only [hl1, hu]
    have hany : l0.any (fun o => decide
          (((h.setClient c { h.mem c with IsActive := true }).mem o).ID ≠ (h.mem c).ID) &&
          ((h.setClient c { h.mem c with IsActive := true }).mem o).IsActive)
        = l0.any (fun o => decide ((h.mem o).ID ≠ (h.mem c).ID) && (h.mem o).IsActive) := by
      apply any_congr_mem
      intro o _
      by_cases ho : o = c
      · subst ho; simp
      · rw [setClient_mem_of_ne _ _ ho]
    have hflag := closeOthers_flag (h.mem c).ID l0
      (h.setClient c { h.mem c with IsActive := true }) true
    rw [hany] at hflag
    have hsp := (closeOthers_spawned (h.mem c).ID l0
      (h.setClient c { h.mem c with IsActive := true }, true)).1
    cases hb : l0.any (fun o => decide ((h.mem o).ID ≠ (h.mem c).ID) && (h.mem o).IsActive)
    · rw [hb] at hflag
      simp only [hflag, Bool.true_and, Bool.not_false, if_true, Bool.false_eq_true, if_false]
      show (closeOthers _ _ _).1.spawned ++ _ = _
      rw [hsp]
      rfl
    · rw [hb] at hflag
      simp only [hflag, Bool.true_and, Bool.not_true, Bool.false_eq_true, if_false, if_true]
      show (closeOthers _ _ _).1.spawned = _
      rw [hsp]
      rfl

theorem userActive_userClients (c : Ptr) (h : Hub) :
    (userActive c h).userClients (h.mem c).UserID =
      (h.userClients (h.mem c).UserID).filter
        (fun o => decide ((h.mem o).ID = (h.mem c).ID)) := by
  have hU := (userActive_maps c h).2
  unfold Hub.userClients
  rw [hU]
  cases hl : h.UserClients.lookup (h.mem c).UserID with
  | none => simp [hl]
  | some l0 => simp [Finmap.lookup_insert]

theorem userActive_statusCalls (c : Ptr) (h : Hub) :
    (userActive c h).statusCalls = h.statusCalls ∧
      (userActive c h).hasStatusUpdater = h.hasStatusUpdater := by
  have hid : ((h.setClient c { h.mem c with IsActive := true }).mem c).UserID
      = (h.mem c).UserID := by simp
  unfold userActive
  dsimp only
  rw [hid]
  cases hl : h.UserClients.lookup (h.mem c).UserID with
  | none =>
    have hl1 : (h.setClient c { h.mem c with IsActive := true }).UserClients.lookup
        (h.mem c).UserID = none := hl
    simp only [hl1]
    exact ⟨rfl, rfl⟩
  | some l0 =>
    have hl1 : (h.setClient c { h.mem c with IsActive := true }).UserClients.lookup
        (h.mem c).UserID = some l0 := hl
    simp only [hl1]
    obtain ⟨-, g2, g3⟩ := closeOthers_spawned
      ((h.setClient c { h.mem c with IsActive := true }).mem c).ID l0
      (h.setClient c { h.mem c with IsActive := true }, true)
    split
    · exact ⟨g2, g3⟩
    · exact ⟨g2, g3⟩

theorem userActive_ID (c : Ptr) (h : Hub) (p : Ptr) :
    ((userActive c h).mem p).ID = (h.mem p).ID := by
  rw [userActive_mem]
  by_cases hp : p = c
  · subst hp; simp
  · rw [if_neg hp]
    split <;> rfl

/-- What the `user_active` branch on `c` does to the entry of its user when `c` is in
that entry: `c.IsActive` is true; every session of the entry that carries an ID other
than `c.ID` and was active has `IsActive = false` and its connection closed; the entry
holds exactly its former sessions whose ID equals `c.ID`; and every other client object
that is not in the entry, or carries the ID of `c`, is left untouched, active or not. -/
theorem userActive_takeover (c : Ptr) (h : Hub)
    (hc : c ∈ h.userClients (h.mem c).UserID) :
    ((userActive c h).mem c).IsActive = true ∧
      (∀ o ∈ h.userClients (h.mem c).UserID, (h.mem o).ID ≠ (h.mem c).ID →
        (h.mem o).IsActive = true →
        ((userActive c h).mem o).IsActive = false ∧
          ((userActive c h).mem o).ConnClosed = true) ∧
      (userActive c h).userClients (h.mem c).UserID =
        (h.userClients (h.mem c).UserID).filter
          (fun o => decide ((h.mem o).ID = (h.mem c).ID)) ∧
      c ∈ (userActive c h).userClients (h.mem c).UserID ∧
      (∀ p ∈ (userActive c h).userClients (h.mem c).UserID,
        ((userActive c h).mem p).ID = ((userActive c h).mem c).ID) ∧
      (∀ o, o ≠ c → (o ∉ h.userClients (h.mem c).UserID ∨ (h.mem o).ID = (h.mem c).ID) →
        (userActive c h).mem o = h.mem o) := by
  refine ⟨?_, ?_, userActive_userClients c h, ?_, ?_, ?_⟩
  · rw [userActive_mem]; simp
  · intro o ho hid ha
    have hoc : o ≠ c := fun hx => hid (by rw [hx])
    rw [userActive_mem, if_neg hoc, if_pos ⟨ho, hid, ha⟩]
    exact ⟨rfl, rfl⟩
  · rw [userActive_userClients]
    exact List.mem_filter.mpr ⟨hc, by simp⟩
  · intro p hp
    rw [userActive_userClients] at hp
    have := (List.mem_filter.mp hp).2
    rw [userActive_ID, userActive_ID]
    simpa using this
  · intro o hoc hcase
    rw [userActive_mem, if_neg hoc]
    rcases hcase with hno | hid
    · rw [if_neg (fun hx => hno hx.1)]
    · rw [if_neg (fun hx => hx.2.1 hid)]

theorem userActive_takeover_witness :
    ((userActive 0 twoTabs).mem 0).IsActive = true ∧
      (∀ o ∈ twoTabs.userClients (twoTabs.mem 0).UserID,
        (twoTabs.mem o).ID ≠ (twoTabs.mem 0).ID → (twoTabs.mem o).IsActive = true →
        ((userActive 0 twoTabs).mem o).IsActive = false ∧
          ((userActive 0 twoTabs).mem o).ConnClosed = true) ∧
      (userActive 0 twoTabs).userClients (twoTabs.mem 0).UserID =
        (twoTabs.userClients (twoTabs.mem 0).UserID).filter
          (fun o => decide ((twoTabs.mem o).ID = (twoTabs.mem 0).ID)) ∧
      0 ∈ (userActive 0 twoTabs).userClients (twoTabs.mem 0).UserID ∧
      (∀ p ∈ (userActive 0 twoTabs).userClients (twoTabs.mem 0).UserID,
        ((userActive 0 twoTabs).mem p).ID = ((userActive 0 twoTabs).mem 0).ID) ∧
      (∀ o, o ≠ 0 →
        (o ∉ twoTabs.userClients (twoTabs.mem 0).UserID ∨
          (twoTabs.mem o).ID = (twoTabs.mem 0).ID) →
        (userActive 0 twoTabs).mem o = twoTabs.mem o) :=
  userActive_takeover 0 twoTabs (by decide)

/-- C19 at its failing input.  From the empty hub, tab `0` of user `"A"` connects, sends
`user_away` (the `SetUserOffline` it starts deletes the entry of `"A"`), sends
`user_active` (the entry is not written again), and tab `1` of the same user connects:
both sessions are registered and active, and the entry of `"A"` holds session `1` only.
Session `1` is in its user's entry and the two sessions carry different IDs.  After
`user_active` on `1` the other session `0` is still active with its connection open and
still registered: the loop that closes the other active connections of the user ranges
over the entry, which has lost session `0`. -/
theorem userActive_leaves_other_active_session :
    ∃ h, run awayBackThenSecondTab (NewHub demoMem) = .ok h ∧
      h.Clients = [0, 1] ∧ h.UserClients.lookup "A" = some [1] ∧
      (h.mem 0).UserID = "A" ∧ (h.mem 1).UserID = "A" ∧
      (h.mem 0).ID = "A:0" ∧ (h.mem 1).ID = "A:1" ∧
      (h.mem 0).IsActive = true ∧ (h.mem 0).ConnClosed = false ∧
      ((userActive 1 h).mem 1).IsActive = true ∧
      ((userActive 1 h).mem 0).IsActive = true ∧
      ((userActive 1 h).mem 0).ConnClosed = false ∧
      (userActive 1 h).Clients = [0, 1] ∧
      (userActive 1 h).UserClients.lookup "A" = some [1] :=
  ⟨_, rfl, rfl, rfl, rfl, rfl, rfl, rfl, rfl, rfl, rfl, rfl, rfl, rfl, rfl⟩

/-- In `sameTabTwice` the entry of user `"A"` holds two connections `0` and `1` of the
same tab (same ID).  After `user_active` on `0` the other session `1`, which was active,
is still active with its connection open, and still in the entry: the branch compares ID
strings. -/
theorem userActive_skips_same_id_session :
    0 ∈ sameTabTwice.userClients (sameTabTwice.mem 0).UserID ∧
      (sameTabTwice.mem 1).UserID = (sameTabTwice.mem 0).UserID ∧
      (sameTabTwice.mem 1).IsActive = true ∧
      ((userActive 0 sameTabTwice).mem 1).IsActive = true ∧
      ((userActive 0 sameTabTwice).mem 1).ConnClosed = false ∧
      (userActive 0 sameTabTwice).UserClients.lookup "A" = some [0, 1] :=
  ⟨by decide, rfl, rfl, rfl, rfl, rfl⟩

/-- What `Hub.SetUserOnline` records: a call of the online operation exactly when the
user's entry is absent or empty and a status updater is set. -/
theorem SetUserOnline_statusCalls (u : String) (h : Hub) :
    (SetUserOnline u h).statusCalls =
      if h.userClients u = [] ∧ h.hasStatusUpdater = true then
        h.statusCalls ++ [StatusCall.SetUserOnline u]
      else h.statusCalls := by
  unfold SetUserOnline
  cases hl : h.userClients u with
  | nil =>
    cases hs : h.hasStatusUpdater <;> simp [hs]
  | cons a t => simp

/-- C17 as amended (online on foreground).  The `user_active` branch on `c` sets
`c.IsActive` to true and records no presence call itself.  It starts
`Hub.SetUserOnline(c.UserID)` exactly when `UserClients[c.UserID]` held no active session
with an ID other than `c.ID`, and starts nothing otherwise.  When `c` is the only session
in `UserClients[c.UserID]` it starts that call, which finds the user's entry non-empty
and returns without calling the online operation.  When the user has no entry in
`UserClients` (`c` is in `Clients` only, as after the `SetUserOffline` of a `user_away`)
it starts that call, and with a status updater set the call makes exactly one call of the
online operation. -/
theorem userActive_online_presence (c : Ptr) (h : Hub) :
    ((userActive c h).mem c).IsActive = true ∧
      (userActive c h).statusCalls = h.statusCalls ∧
      ((userActive c h).spawned =
        if (h.userClients (h.mem c).UserID).any
            (fun o => decide ((h.mem o).ID ≠ (h.mem c).ID) && (h.mem o).IsActive) then h.spawned
        else h.spawned ++ [GoCall.SetUserOnline (h.mem c).UserID]) ∧
      (h.userClients (h.mem c).UserID = [c] →
        (userActive c h).spawned = h.spawned ++ [GoCall.SetUserOnline (h.mem c).UserID] ∧
        (runGo (GoCall.SetUserOnline (h.mem c).UserID) (userActive c h)).statusCalls
          = h.statusCalls) ∧
      (h.UserClients.lookup (h.mem c).UserID = none → h.hasStatusUpdater = true →
        (userActive c h).spawned = h.spawned ++ [GoCall.SetUserOnline (h.mem c).UserID] ∧
        (runGo (GoCall.SetUserOnline (h.mem c).UserID) (userActive c h)).statusCalls
          = h.statusCalls ++ [StatusCall.SetUserOnline (h.mem c).UserID]) := by
  obtain ⟨hsc, hsu⟩ := userActive_statusCalls c h
  refine ⟨?_, hsc, userActive_spawned c h, ?_, ?_⟩
  · rw [userActive_mem]; simp
  · intro honly
    constructor
    · rw [userActive_spawned, honly]
      simp
    · show (SetUserOnline _ _).statusCalls = _
      rw [SetUserOnline_statusCalls, userActive_userClients, honly]
      simp [hsc]
  · intro hnone hupd
    have hu : h.userClients (h.mem c).UserID = [] := by simp [Hub.userClients, hnone]
    constructor
    · rw [userActive_spawned, hu]
      simp
    · show (SetUserOnline _ _).statusCalls = _
      rw [SetUserOnline_statusCalls, userActive_userClients, hu]
      simp [hsc, hsu, hupd]

theorem userActive_online_presence_witness :
    ((userActive 0 oneTab.SetStatusUpdater).mem 0).IsActive = true ∧
      (userActive 0 oneTab.SetStatusUpdater).statusCalls = oneTab.SetStatusUpdater.statusCalls ∧
      (userActive 0 oneTab.SetStatusUpdater).spawned
        = oneTab.SetStatusUpdater.spawned ++ [GoCall.SetUserOnline "A"] ∧
      (runGo (GoCall.SetUserOnline "A") (userActive 0 oneTab.SetStatusUpdater)).statusCalls
        = oneTab.SetStatusUpdater.statusCalls ∧
      ((userActive 0 (SetUserOffline "A" oneTab.SetStatusUpdater)).spawned
          = (SetUserOffline "A" oneTab.SetStatusUpdater).spawned
            ++ [GoCall.SetUserOnline "A"] ∧
        (runGo (GoCall.SetUserOnline "A")
            (userActive 0 (SetUserOffline "A" oneTab.SetStatusUpdater))).statusCalls
          = (SetUserOffline "A" oneTab.SetStatusUpdater).statusCalls
            ++ [StatusCall.SetUserOnline "A"]) ∧
      (∃ h, run awayBackThenSecondTab (NewHub demoMem) = .ok h ∧
        h.UserClients.lookup "A" = some [1] ∧ (h.mem 1).IsActive = true ∧
        (userActive 0 h).spawned = h.spawned) :=
  ⟨(userActive_online_presence 0 oneTab.SetStatusUpdater).1,
    (userActive_online_presence 0 oneTab.SetStatusUpdater).2.1,
    ((userActive_online_presence 0 oneTab.SetStatusUpdater).2.2.2.1 (by decide)).1,
    ((userActive_online_presence 0 oneTab.SetStatusUpdater).2.2.2.1 (by decide)).2,
    (userActive_online_presence 0 (SetUserOffline "A" oneTab.SetStatusUpdater)).2.2.2.2
      (by decide) (by decide),
    ⟨_, rfl, rfl, rfl, ((userActive_online_presence 0 _).2.2.1).trans (if_pos rfl)⟩⟩

/-- C17 fails as stated.  From the empty hub with a status updater set, tab `0` of user
`"A"` connects: it is registered in both maps and is the user's only session.  The
`user_active` branch on it starts `Hub.SetUserOnline("A")`, and running that call
records no call of the online operation. -/
theorem userActive_registered_no_online_call :
    ∃ h, run [Event.Register 0] (NewHub demoMem).SetStatusUpdater = .ok h ∧
      h.Clients = [0] ∧ h.UserClients.lookup "A" = some [0] ∧
      h.hasStatusUpdater = true ∧ h.statusCalls = [] ∧
      ((userActive 0 h).mem 0).IsActive = true ∧
      (userActive 0 h).spawned = [GoCall.SetUserOnline "A"] ∧
      (runGo (GoCall.SetUserOnline "A") (userActive 0 h)).statusCalls = [] :=
  ⟨_, rfl, rfl, rfl, rfl, rfl, rfl, rfl, rfl⟩

/-! ## Presence calls over away frames and over connect/disconnect traces -/

/-- C16 at its failing input.  From the empty hub with a status updater set, a tab of
user `"B"` connects (session `1`, the user's only session) and sends `user_away` twice;
each time the branch finds no other active connection and starts `Hub.SetUserOffline`,
which runs.  The offline operation of the status updater is called twice for `"B"`, not
once. -/
theorem user_away_twice_calls_offline_twice :
    ∃ h, run [Event.Register 1] (NewHub abMem).SetStatusUpdater = .ok h ∧
      h.Clients = [1] ∧ h.UserClients.lookup "B" = some [1] ∧ h.statusCalls = [] ∧
      (userAway 1 h).spawned = [GoCall.SetUserOffline "B"] ∧
      (userAway 1 (runGo (GoCall.SetUserOffline "B") (userAway 1 h))).spawned
        = [GoCall.SetUserOffline "B", GoCall.SetUserOffline "B"] ∧
      (runGo (GoCall.SetUserOffline "B")
          (userAway 1 (runGo (GoCall.SetUserOffline "B") (userAway 1 h)))).statusCalls
        = [StatusCall.SetUserOffline "B", StatusCall.SetUserOffline "B"] :=
  ⟨_, rfl, rfl, rfl, rfl, rfl, rfl, rfl⟩

theorem closeExisting_ok_facts (client : Ptr) : ∀ (l : List Ptr) (hx hy : Hub),
    closeExisting l hx = .ok hy →
    hy.statusCalls = hx.statusCalls ∧ (hy.mem client).IsActive = (hx.mem client).IsActive := by
  intro l
  induction l with
  | nil => intro hx hy he; cases he; exact ⟨rfl, rfl⟩
  | cons e rest ih =>
    intro hx hy he
    unfold closeExisting at he
    cases hcs : (hx.deleteClient e).closeSend e with
    | error f => rw [hcs] at he; cases he
    | ok hz =>
      rw [hcs] at he
      obtain ⟨i1, i2⟩ := ih _ _ he
      unfold Hub.closeSend at hcs
      split at hcs
      · cases hcs
      · cases hcs
        refine ⟨i1, ?_⟩
        rw [i2]
        by_cases hce : client = e
        · subst hce; simp [Hub.connClose]
        · rw [connClose_mem_of_ne _ hce, setClient_mem_of_ne _ _ hce]
          rfl

/-- After a successful `Register` the client is alone in its user's entry, with its
`IsActive` flag and the recorded status calls as before. -/
theorem Register_ok_facts {client : Ptr} {h h1 : Hub} (hreg : Register client h = .ok h1) :
    h1.statusCalls = h.statusCalls ∧
      h1.UserClients.lookup (h.mem client).UserID = some [client] ∧
      (h1.mem client).IsActive = (h.mem client).IsActive := by
  unfold Register at hreg
  dsimp only at hreg
  cases hl : h.UserClients.lookup (h.mem client).UserID with
  | none =>
    rw [hl] at hreg
    cases hreg
    exact ⟨rfl, Finmap.lookup_insert _, rfl⟩
  | some l =>
    rw [hl] at hreg
    dsimp only at hreg
    cases hce : closeExisting l h with
    | error f => rw [hce] at hreg; cases hreg
    | ok hz =>
      rw [hce] at hreg
      cases hreg
      obtain ⟨j1, j2⟩ := closeExisting_ok_facts client l h hz hce
      exact ⟨j1, Finmap.lookup_insert _, j2⟩

/-- Under the schedule in which the `Register` case body runs before the handler's
presence check, a successful `HandleConnection` records no online call: the check finds
the new client already filed under the user and active. -/
theorem HandleConnection_statusCalls (statusService : Bool) (userID tabID : String)
    (now : Int) (client : Ptr) (h h1 : Hub)
    (hrun : HandleConnection Schedule.hubFirst statusService userID tabID now client h
      = .ok h1) :
    h1.statusCalls = h.statusCalls := by
  unfold HandleConnection at hrun
  dsimp only at hrun
  generalize hh2 :
    (if HasClientWithID (userID ++ ":" ++ tabID) h = true then
        CloseClientWithID (userID ++ ":" ++ tabID) h else h).setClient client
      (newClient userID tabID now) = h2 at hrun
  have hcalls2 : h2.statusCalls = h.statusCalls := by
    rw [← hh2]
    simp only [setClient_statusCalls]
    split
    · unfold CloseClientWithID
      split <;> rfl
    · rfl
  have hm2 : h2.mem client = newClient userID tabID now := by
    rw [← hh2]; simp
  cases hreg : Register client h2 with
  | error f => rw [hreg] at hrun; cases hrun
  | ok h3 =>
    rw [hreg] at hrun
    obtain ⟨k1, k2, k3⟩ := Register_ok_facts hreg
    rw [hm2] at k2 k3
    have hactive : HasActiveClient userID h3 = true := by
      unfold HasActiveClient
      have k2a : h3.UserClients.lookup userID = some [client] := k2
      rw [k2a]
      have k3a : (h3.mem client).IsActive = true := k3
      simp [k3a]
    simp only [presenceCheck, hactive, Bool.not_true, Bool.and_false, Bool.false_eq_true,
      if_false] at hrun
    cases hrun
    exact k1.trans hcalls2

/-- C18 at its failing inputs.  From the empty hub with a status service, user `"A"`
connects one tab and disconnects it: one maximal run with a session.  The presence calls
depend on which side takes the lock first after each hand-over to the hub loop.  When the
handler's check runs before `Register` and the watcher's check before `Unregister`, the
online operation is called and the offline operation is never called when the run ends.
When both case bodies run first, the online operation is never called.  When the watcher
runs first after a connect whose `Register` ran first, no operation is called at all.
Only the schedule with the check before `Register` and `Unregister` before the watcher
gives one online call followed by one offline call. -/
theorem presence_calls_depend_on_schedule :
    (∃ h, presenceRun "A" [Presence.connect Schedule.handlerFirst "t0" 0 0,
          Presence.disconnect Schedule.handlerFirst 0] (NewHub demoMem).SetStatusUpdater = .ok h ∧
        h.Clients = [] ∧ h.UserClients.lookup "A" = none ∧
        h.statusCalls = [StatusCall.SetUserOnline "A"]) ∧
    (∃ h, presenceRun "A" [Presence.connect Schedule.hubFirst "t0" 0 0,
          Presence.disconnect Schedule.hubFirst 0] (NewHub demoMem).SetStatusUpdater = .ok h ∧
        h.Clients = [] ∧ h.UserClients.lookup "A" = none ∧
        h.statusCalls = [StatusCall.SetUserOffline "A"]) ∧
    (∃ h, presenceRun "A" [Presence.connect Schedule.hubFirst "t0" 0 0,
          Presence.disconnect Schedule.handlerFirst 0] (NewHub demoMem).SetStatusUpdater = .ok h ∧
        h.Clients = [] ∧ h.UserClients.lookup "A" = none ∧
        h.statusCalls = []) ∧
    (∃ h, presenceRun "A" [Presence.connect Schedule.handlerFirst "t0" 0 0,
          Presence.disconnect Schedule.hubFirst 0] (NewHub demoMem).SetStatusUpdater = .ok h ∧
        h.Clients = [] ∧ h.UserClients.lookup "A" = none ∧
        h.statusCalls = [StatusCall.SetUserOnline "A", StatusCall.SetUserOffline "A"]) :=
  ⟨⟨_, rfl, rfl, rfl, rfl⟩, ⟨_, rfl, rfl, rfl, rfl⟩, ⟨_, rfl, rfl, rfl, rfl⟩,
    ⟨_, rfl, rfl, rfl, rfl⟩⟩

/-! ## The presence goroutines started by the heartbeat sweep -/

theorem timedOut_userClients (c : Ptr) (h : Hub) (v : String) :
    (timedOut c h).userClients v =
      if v = (h.mem c).UserID then (h.userClients v).erase c else h.userClients v := by
  have hdef : (timedOut c h).userClients v = ((timedOut c h).UserClients.lookup v).getD [] := rfl
  have hU : (timedOut c h).UserClients =
      if ((h.userClients (h.mem c).UserID).erase c).length = 0 then
        h.UserClients.erase (h.mem c).UserID
      else h.UserClients.insert (h.mem c).UserID
        ((h.userClients (h.mem c).UserID).erase c) := rfl
  rw [hdef, hU]
  by_cases hv : v = (h.mem c).UserID
  · subst hv
    rw [if_pos rfl]
    by_cases hlen : ((h.userClients (h.mem c).UserID).erase c).length = 0
    · rw [if_pos hlen, Finmap.lookup_erase, List.length_eq_zero.mp hlen]
      rfl
    · rw [if_neg hlen, Finmap.lookup_insert]
      rfl
  · rw [if_neg hv]
    by_cases hlen : ((h.userClients (h.mem c).UserID).erase c).length = 0
    · rw [if_pos hlen, Finmap.lookup_erase_ne hv]
      rfl
    · rw [if_neg hlen, Finmap.lookup_insert_of_ne _ hv]
      rfl

theorem timedOut_spawned (c : Ptr) (h : Hub) :
    (timedOut c h).spawned =
      if ((h.userClients (h.mem c).UserID).erase c).length = 0 then
        h.spawned ++ [GoCall.SetUserOffline (h.mem c).UserID]
      else h.spawned := rfl

/-- An invariant of the evictions is an invariant of the sweep of `checkHeartbeats`. -/
theorem foldlM_heartbeatOne_invariant (now : Int) (P : Hub → Prop)
    (hstep : ∀ (h : Hub) (c : Ptr), h.WellFormed → c ∈ h.Clients → h.evictable now c →
      P h → P (timedOut c h)) :
    ∀ (l : List Ptr) (h : Hub), h.WellFormed →
      (∀ p ∈ l, p ∈ h.Clients ∨ (h.mem p).IsActive = false) → P h →
      ∃ h1, l.foldlM (heartbeatOne now) h = .ok h1 ∧ P h1 := by
  intro l
  induction l with
  | nil => intro h _ _ hP; exact ⟨h, rfl, hP⟩
  | cons c rest ih =>
    intro h hwf hreg hP
    rw [List.foldlM_cons]
    by_cases hgo : h.evictable now c
    · have hin : c ∈ h.Clients := by
        rcases hreg c (by simp) with hc | hc
        · exact hc
        · rw [hgo.1] at hc; exact absurd hc (by simp)
      rw [heartbeatOne_evict now c h hwf hin hgo.1 hgo.2]
      exact ih (timedOut c h) (hwf.timedOut hin) (by
        intro p hp
        by_cases hpc : p = c
        · right
          rw [hpc]
          simp [timedOut, Client.timedOut]
        · rcases hreg p (by simp [hp]) with hpC | hpA
          · left
            simp [timedOut, hpC, hpc]
          · right
            simp [timedOut, Function.update, hpc, hpA]) (hstep h c hwf hin hgo hP)
    · have hgo1 : ¬ ((h.mem c).IsActive = true ∧
          now - (h.mem c).LastPingTime > h.heartbeatTimeout) := hgo
      have hskip : heartbeatOne now h c = .ok h := by
        unfold heartbeatOne
        rw [if_neg hgo1]
      rw [hskip]
      exact ih h hwf (fun p hp => hreg p (by simp [hp])) hP

theorem timedOut_UserID (c : Ptr) (h : Hub) (p : Ptr) :
    ((timedOut c h).mem p).UserID = (h.mem p).UserID := by
  by_cases hp : p = c
  · subst hp; simp [timedOut, Client.timedOut]
  · simp [timedOut, Function.update, hp]

theorem count_append_offline_of_ne (l : List GoCall) {u v : String} (huv : v ≠ u) :
    (l ++ [GoCall.SetUserOffline v]).count (GoCall.SetUserOffline u)
      = l.count (GoCall.SetUserOffline u) := by
  rw [List.count_append]
  have : [GoCall.SetUserOffline v].count (GoCall.SetUserOffline u) = 0 := by
    rw [List.count_eq_zero]
    intro hx
    have : GoCall.SetUserOffline u = GoCall.SetUserOffline v := by simpa using hx
    exact huv (GoCall.SetUserOffline.inj this).symm
  rw [this, Nat.add_zero]

theorem foldl_deactivate_statusCalls : ∀ (l : List Ptr) (h : Hub),
    (l.foldl Hub.deactivate h).statusCalls = h.statusCalls := by
  intro l
  induction l with
  | nil => intro h; rfl
  | cons a t ih =>
    intro h
    rw [List.foldl_cons, ih]
    unfold Hub.deactivate
    split <;> rfl

/-- What `Hub.SetUserOffline` records: one call of the offline operation when a status
updater is set, whatever the user's entry holds. -/
theorem SetUserOffline_statusCalls (u : String) (h : Hub) :
    (SetUserOffline u h).statusCalls =
      if h.hasStatusUpdater = true then h.statusCalls ++ [StatusCall.SetUserOffline u]
      else h.statusCalls := by
  unfold SetUserOffline
  cases hl : h.UserClients.lookup u with
  | none =>
    dsimp only
    cases hs : h.hasStatusUpdater <;> simp [hs]
  | some l =>
    dsimp only
    have h1 := foldl_deactivate_statusCalls l h
    have h2 := (foldl_deactivate_maps l h).2.2
    cases hs : h.hasStatusUpdater
    · rw [hs] at h2
      simp [h2, h1]
    · rw [hs] at h2
      simp [h2, h1]

/-- C15 fails as stated.  (1) Tab `0` of user `"A"` connects at time 0 to a hub with a
status updater; 121 s later the heartbeat sweep evicts it and closes its `Done` channel,
and the `SetUserOffline` goroutine of the sweep runs: the offline operation has been
called once.  The handler's watcher of `Done` then runs and calls it again, so the
eviction causes two offline calls.  (2) When the tab has sent `user_away` before the
sweep, it is stale and the only session of its user, yet the sweep leaves it registered
and starts no goroutine.  (3) User `"A"` connects tab `"t0"` at time 0 (session `0`), the
tab sends `user_away` and the `SetUserOffline` it starts runs, a second connection of the
same tab arrives 100 s later (session `1`, same ID string), and session `0` sends
`user_active`.  The sweep at 121 s evicts the stale session `0`, whose removal by ID
empties the entry of `"A"`, and starts a `SetUserOffline` goroutine for `"A"`, although
the user keeps session `1`, which is not stale and stays registered.  (4) When the sweep
runs at 221 s instead, session `1` is stale too and is the only session of the entry of
`"A"`: the sweep starts two `SetUserOffline` goroutines for `"A"`.  (3) and (4) hold
whichever side takes the lock first at each of the two connects. -/
theorem heartbeat_offline_called_twice_or_never :
    (∃ h, run [Event.Register 0, Event.heartbeatTick 121000000000,
            Event.go (GoCall.SetUserOffline "A")] (NewHub demoMem).SetStatusUpdater = .ok h ∧
        h.Clients = [] ∧ (h.mem 0).DoneClosed = true ∧
        h.statusCalls = [StatusCall.SetUserOffline "A"] ∧
        (doneWatcher true "A" h).statusCalls
          = [StatusCall.SetUserOffline "A", StatusCall.SetUserOffline "A"]) ∧
    (∃ h h1, run [Event.Register 0, Event.userAway 0] (NewHub demoMem).SetStatusUpdater = .ok h ∧
        h.userClients "A" = [0] ∧ h.heartbeatTimeout = 120000000000 ∧
        (h.mem 0).LastPingTime = 0 ∧
        checkHeartbeats 121000000000 h = .ok h1 ∧
        h1.Clients = [0] ∧ h1.spawned = h.spawned ∧ h1.statusCalls = h.statusCalls) ∧
    (∀ s1 s2 : Schedule, ∃ h1 h2 h3 h4 h5 h6,
      presenceRun "A" [Presence.connect s1 "t0" 0 0] (NewHub demoMem).SetStatusUpdater
        = .ok h1 ∧
      run [Event.userAway 0, Event.go (GoCall.SetUserOffline "A")] h1 = .ok h2 ∧
      presenceRun "A" [Presence.connect s2 "t0" 100000000000 1] h2 = .ok h3 ∧
      run [Event.userActive 0, Event.go (GoCall.SetUserOnline "A")] h3 = .ok h4 ∧
      h4.heartbeatTimeout = 120000000000 ∧
      h4.Clients = [0, 1] ∧ h4.UserClients.lookup "A" = some [1] ∧
      (h4.mem 0).UserID = "A" ∧ (h4.mem 1).UserID = "A" ∧
      (h4.mem 0).IsActive = true ∧ (h4.mem 1).IsActive = true ∧
      (h4.mem 0).LastPingTime = 0 ∧ (h4.mem 1).LastPingTime = 100000000000 ∧
      checkHeartbeats 121000000000 h4 = .ok h5 ∧
      h5.Clients = [1] ∧ h5.spawned = h4.spawned ++ [GoCall.SetUserOffline "A"] ∧
      checkHeartbeats 221000000000 h4 = .ok h6 ∧
      h6.Clients = [] ∧
      h6.spawned = h4.spawned ++ [GoCall.SetUserOffline "A", GoCall.SetUserOffline "A"]) :=
  ⟨⟨_, rfl, rfl, rfl, rfl, rfl⟩, ⟨_, _, rfl, rfl, rfl, rfl, rfl, rfl, rfl, rfl⟩,
    fun s1 s2 => by
      cases s1 <;> cases s2 <;>
        exact ⟨_, _, _, _, _, _, rfl, rfl, rfl, rfl, rfl, rfl, rfl, rfl, rfl, rfl, rfl, rfl, rfl,
          rfl, rfl, rfl, rfl, rfl, rfl⟩⟩

/-! ## Channels closed twice -/

/-- C21 at its failing input.  From the empty hub, tab `0` of user `"A"` connects at
time 0 and 121 s later the heartbeat sweep evicts it: the sweep closes its connection,
its `Send` queue and its `Done` channel.  The closed connection ends the read pump of
the session, whose deferred function sends the session to `Unregister` (a no-op, the
session is no longer in `Clients`) and then closes `Done` a second time: it panics
with a close of a closed channel. -/
theorem readPumpExit_after_eviction_panics :
    ∃ h, run [Event.Register 0, Event.heartbeatTick 121000000000] (NewHub demoMem) = .ok h ∧
      h.Clients = [] ∧ (h.mem 0).ConnClosed = true ∧ (h.mem 0).Send.closed = true ∧
      (h.mem 0).DoneClosed = true ∧ Unregister 0 h = .ok h ∧
      readPumpExit 0 h = .error Fault.closeOfClosedChannel :=
  ⟨_, rfl, rfl, rfl, rfl, rfl, rfl, rfl⟩

set_option maxRecDepth 100000 in
/-- C25 at its failing inputs.  From the empty hub, tab `0` of user `"A"` connects and
(1) the ping ticker fires 257 times, or (2) 257 hub-wide broadcasts arrive, while its
write pump drains nothing.  The last one finds the queue full, closes it and deletes the
session from `Clients`, leaving it in `UserClients["A"]`.  When tab `1` of the same user
then connects, the `Register` case closes the queue of session `0` a second time and
panics with a close of a closed channel. -/
theorem send_queue_closed_twice :
    (∃ h, run connectThenPings (NewHub demoMem) = .ok h ∧
      (h.mem 0).Send.closed = true ∧ h.userClients "A" = [0] ∧
      run (connectThenPings ++ [Event.Register 1]) (NewHub demoMem)
        = .error Fault.closeOfClosedChannel) ∧
    (∃ h, run connectThenFlood (NewHub demoMem) = .ok h ∧
      (h.mem 0).Send.closed = true ∧ h.userClients "A" = [0] ∧
      run (connectThenFlood ++ [Event.Register 1]) (NewHub demoMem)
        = .error Fault.closeOfClosedChannel) :=
  ⟨⟨_, rfl, rfl, rfl, rfl⟩, ⟨_, rfl, rfl, rfl, rfl⟩⟩

/-! ## Sessions that the index of a user loses -/

/-- C27 at its failing input.  From the empty hub with a status updater, tab `0` of user
`"A"` connects, sends `user_away` (the `SetUserOffline` it starts runs and deletes the
entry of `"A"`), then sends `user_active` (the `SetUserOnline` it starts runs).  The
session is active again and registered in `Clients` with an open, empty queue, but
`UserClients` has no entry for `"A"`: `BroadcastToUser("A", m)` returns without
enqueueing anything. -/
theorem away_then_active_unreachable :
    ∃ h, run [Event.Register 0, Event.userAway 0, Event.go (GoCall.SetUserOffline "A"),
          Event.userActive 0, Event.go (GoCall.SetUserOnline "A")]
          (NewHub demoMem).SetStatusUpdater = .ok h ∧
      h.Clients = [0] ∧ (h.mem 0).UserID = "A" ∧ (h.mem 0).IsActive = true ∧
      (h.mem 0).ConnClosed = false ∧ (h.mem 0).Send.closed = false ∧
      (h.mem 0).Send.buf = [] ∧
      h.UserClients.lookup "A" = none ∧
      h.statusCalls = [StatusCall.SetUserOffline "A", StatusCall.SetUserOnline "A"] ∧
      ∃ h1, BroadcastToUser demoMarshal "A" pingMessage h = .ok h1 ∧
        (h1.mem 0).Send.buf = [] :=
  ⟨_, rfl, rfl, rfl, rfl, rfl, rfl, rfl, rfl, rfl, _, rfl, rfl⟩

/-- C26 at its failing inputs.
(1) From the empty hub, user `"A"` connects tab `"t0"` (session `0`), the tab sends
`user_away` and the `SetUserOffline` it starts runs, and a second connection of the same
tab arrives (session `1`, same ID string): both sessions are in `Clients`, and
`UserClients["A"]` holds session `1` only.  `Unregister` of session `0` then removes
session `1`, the first session of the entry that carries the ID of `0`, and deletes the
emptied entry: session `1` is still registered in `Clients`, active, with its queue
open, but no longer in `UserClients`.  This holds whichever side takes the lock first
at each of the two connects.
(2) In `sameTabTwice`, where the entry of `"A"` holds the two connections `0` and `1` of
one tab, `Unregister` of `1` removes `0` from the entry and leaves `1` in it. -/
theorem unregister_removes_same_id_session :
    (∀ s1 s2 : Schedule, ∃ h1 h2 h3 h4,
      presenceRun "A" [Presence.connect s1 "t0" 0 0] (NewHub demoMem) = .ok h1 ∧
      run [Event.userAway 0, Event.go (GoCall.SetUserOffline "A")] h1 = .ok h2 ∧
      presenceRun "A" [Presence.connect s2 "t0" 5 1] h2 = .ok h3 ∧
      h3.Clients = [0, 1] ∧ h3.UserClients.lookup "A" = some [1] ∧
      (h3.mem 0).ID = "A:t0" ∧ (h3.mem 1).ID = "A:t0" ∧
      Unregister 0 h3 = .ok h4 ∧
      h4.Clients = [1] ∧ h4.UserClients.lookup "A" = none ∧
      (h4.mem 1).UserID = "A" ∧ (h4.mem 1).IsActive = true ∧
      (h4.mem 1).Send.closed = false) ∧
    (∃ h, Unregister 1 sameTabTwice = .ok h ∧
      sameTabTwice.UserClients.lookup "A" = some [0, 1] ∧
      h.Clients = [0] ∧ h.UserClients.lookup "A" = some [1]) :=
  ⟨fun s1 s2 => by
      cases s1 <;> cases s2 <;>
        exact ⟨_, _, _, _, rfl, rfl, rfl, rfl, rfl, rfl, rfl, rfl, rfl, rfl, rfl, rfl, rfl⟩,
    ⟨_, rfl, rfl, rfl, rfl⟩⟩

/-! ## The heartbeat sweep and the sessions it does not evict -/

/-- On a well-formed hub the sweep of `checkHeartbeats` leaves every registered session
that is not stale in both maps with its client object unchanged, calls no status
operation, and starts no `SetUserOffline` for a user none of whose registered sessions
it evicts. -/
theorem checkHeartbeats_leaves_fresh (now : Int) (h : Hub) (hwf : h.WellFormed) :
    ∃ h1, checkHeartbeats now h = .ok h1 ∧ h1.statusCalls = h.statusCalls ∧
      (∀ s ∈ h.Clients, now - (h.mem s).LastPingTime ≤ h.heartbeatTimeout →
        s ∈ h1.Clients ∧ InUserClients h1 s ∧ h1.mem s = h.mem s) ∧
      (∀ u, (∀ p ∈ h.Clients, (h.mem p).UserID = u → ¬ h.evictable now p) →
        h1.spawned.count (GoCall.SetUserOffline u)
          = h.spawned.count (GoCall.SetUserOffline u)) := by
  obtain ⟨h1, hrun, hwf1, hC, hM, -, hS, -⟩ := checkHeartbeats_spec now h hwf
  refine ⟨h1, hrun, hS, ?_, ?_⟩
  · intro s hs hfresh
    have hev : ¬ h.evictable now s := fun hx => absurd hx.2 (not_lt.mpr hfresh)
    have hin : s ∈ h1.Clients := (hC s).mpr ⟨hs, hev⟩
    refine ⟨hin, inUserClients_of_wellFormed hwf1 hin, ?_⟩
    rw [hM s, if_neg (fun hx => hev hx.2)]
  · intro u hu
    obtain ⟨h2, hrun2, -, hcnt⟩ := foldlM_heartbeatOne_invariant now
      (fun hx => (∀ p ∈ hx.Clients, (hx.mem p).UserID = u → ¬ hx.evictable now p) ∧
        hx.spawned.count (GoCall.SetUserOffline u) = h.spawned.count (GoCall.SetUserOffline u))
      (by
        intro hx c _ hcx hevc ⟨hnone, hcnt⟩
        have hcu : (hx.mem c).UserID ≠ u := fun hcu => hnone c hcx hcu hevc
        refine ⟨?_, ?_⟩
        · intro p hp hpu
          have hp1 : p ∈ hx.Clients ∧ p ≠ c := by simpa [timedOut] using hp
          rw [timedOut_UserID] at hpu
          rw [evictable_timedOut]
          exact fun hy => hnone p hp1.1 hpu hy.2
        · rw [timedOut_spawned]
          split
          · rw [count_append_offline_of_ne _ hcu]; exact hcnt
          · exact hcnt)
      h.Clients h hwf (fun _ hp => Or.inl hp) ⟨hu, rfl⟩
    have hrun1 : h.Clients.foldlM (heartbeatOne now) h = .ok h1 := hrun
    have h12 : h2 = h1 := by
      rw [hrun1] at hrun2
      exact (Except.ok.inj hrun2).symm
    rw [h12] at hcnt
    exact hcnt

/-- C23 at its failing input.  From the empty hub, user `"A"` connects tab `"t0"` at
time 0 (session `0`), the tab sends `user_away` and the `SetUserOffline` it starts runs,
a second connection of the same tab arrives 100 s later (session `1`, same ID string),
and session `0` sends `user_active`.  At 121 s the heartbeat sweep runs with a timeout
of 120 s.  Session `1` is 21 s old and registered in both maps; session `0` is stale and
is evicted, and the loop that removes it from `UserClients["A"]` removes session `1`,
which carries the same ID.  The fresh session `1` is left in `Clients` only.  This holds
whichever side takes the lock first at each of the two connects. -/
theorem heartbeat_drops_fresh_session_from_index :
    ∀ s1 s2 : Schedule, ∃ h1 h2 h3 h4 h5,
      presenceRun "A" [Presence.connect s1 "t0" 0 0] (NewHub demoMem) = .ok h1 ∧
      run [Event.userAway 0, Event.go (GoCall.SetUserOffline "A")] h1 = .ok h2 ∧
      presenceRun "A" [Presence.connect s2 "t0" 100000000000 1] h2 = .ok h3 ∧
      run [Event.userActive 0, Event.go (GoCall.SetUserOnline "A")] h3 = .ok h4 ∧
      h4.heartbeatTimeout = 120000000000 ∧
      h4.Clients = [0, 1] ∧ h4.UserClients.lookup "A" = some [1] ∧
      (h4.mem 1).LastPingTime = 100000000000 ∧ (h4.mem 0).LastPingTime = 0 ∧
      (h4.mem 0).IsActive = true ∧ (h4.mem 0).ConnClosed = false ∧
      checkHeartbeats 121000000000 h4 = .ok h5 ∧
      h5.Clients = [1] ∧ h5.UserClients.lookup "A" = none ∧
      (h5.mem 1).UserID = "A" ∧ h5.mem 1 = h4.mem 1 :=
  fun s1 s2 => by
    cases s1 <;> cases s2 <;>
      exact ⟨_, _, _, _, _, rfl, rfl, rfl, rfl, rfl, rfl, rfl, rfl, rfl, rfl, rfl, rfl, rfl, rfl,
        rfl, rfl⟩

/-! ## The write pump -/

theorem drainQueued_all : ∀ (rest : List Bytes) (w : Bytes) (cap : Nat) (closed : Bool),
    drainQueued rest.length w { buf := rest, cap := cap, closed := closed }
      = some (w ++ (rest.map (fun m => 10 :: m)).flatten,
          { buf := [], cap := cap, closed := closed }) := by
  intro rest
  induction rest with
  | nil => intro w cap closed; simp [drainQueued]
  | cons m t ih =>
    intro w cap closed
    simp only [List.length_cons, drainQueued, Chan.recv, ih, List.map_cons, List.flatten_cons]
    simp

/-- C22 (write pump batching keeps FIFO order).  When the queue holds `m0, m1, ..., mk`
and `NextWriter` returns a writer, one turn of the write pump writes the single text
frame `m0` followed, for each later message in queue order, by one newline byte (10) and
that message; afterwards the queue is empty, its capacity and closed flag unchanged.
The frame is also the messages of the queue, in order, joined by newline bytes. -/
theorem writePump_batches_in_order (m0 : Bytes) (rest : List Bytes) (cap : Nat)
    (closed : Bool) :
    writePumpRecv true { buf := m0 :: rest, cap := cap, closed := closed }
        = .textFrame (m0 ++ (rest.map (fun m => 10 :: m)).flatten)
            { buf := [], cap := cap, closed := closed } ∧
      m0 ++ (rest.map (fun m => 10 :: m)).flatten = [10].intercalate (m0 :: rest) := by
  constructor
  · simp only [writePumpRecv, Chan.recv, if_true]
    rw [drainQueued_all]
  · induction rest generalizing m0 with
    | nil => simp [List.intercalate]
    | cons m t ih =>
      have h1 := ih m
      have h2 : [10].intercalate (m0 :: m :: t) = m0 ++ ([10] ++ [10].intercalate (m :: t)) := by
        simp [List.intercalate, List.intersperse]
      rw [h2, ← h1]
      simp

/-! ## The client ID of the handler -/

theorem append_colon_inj : ∀ (l1 l2 r1 r2 : List Char), ':' ∉ l1 → ':' ∉ l2 →
    l1 ++ ':' :: r1 = l2 ++ ':' :: r2 → l1 = l2 ∧ r1 = r2 := by
  intro l1
  induction l1 with
  | nil =>
    intro l2 r1 r2 _ h2 h
    cases l2 with
    | nil => exact ⟨rfl, List.tail_eq_of_cons_eq h⟩
    | cons b l2 =>
      have hb : ':' = b := List.head_eq_of_cons_eq h
      exact absurd (by rw [hb]; simp) h2
  | cons a l1 ih =>
    intro l2 r1 r2 h1 h2 h
    cases l2 with
    | nil =>
      have ha : a = ':' := List.head_eq_of_cons_eq h
      exact absurd (by rw [ha]; simp) h1
    | cons b l2 =>
      have hab : a = b := List.head_eq_of_cons_eq h
      have ht : l1 ++ ':' :: r1 = l2 ++ ':' :: r2 := List.tail_eq_of_cons_eq h
      obtain ⟨hl, hr⟩ := ih l2 r1 r2 (fun hx => h1 (List.mem_cons_of_mem _ hx))
        (fun hx => h2 (List.mem_cons_of_mem _ hx)) ht
      exact ⟨by rw [hab, hl], hr⟩

theorem clientID_toList (u t : String) : (clientID u t).toList = u.toList ++ ':' :: t.toList := by
  simp [clientID, String.toList]

/-- C24 as amended (session IDs are unique per pair when user IDs hold no colon).  For
user IDs `u1`, `u2` in which the character `':'` does not occur (the user IDs of the
repository are UUID strings) and arbitrary tab IDs, equal client IDs imply equal user IDs
and equal tab IDs. -/
theorem clientID_injective_of_no_colon (u1 t1 u2 t2 : String)
    (h1 : ':' ∉ u1.toList) (h2 : ':' ∉ u2.toList)
    (h : clientID u1 t1 = clientID u2 t2) : u1 = u2 ∧ t1 = t2 := by
  have hl : (clientID u1 t1).toList = (clientID u2 t2).toList := by rw [h]
  rw [clientID_toList, clientID_toList] at hl
  obtain ⟨hu, ht⟩ := append_colon_inj _ _ _ _ h1 h2 hl
  exact ⟨String.ext hu, String.ext ht⟩

theorem clientID_injective_of_no_colon_witness :
    ':' ∉ "u1".toList ∧ ':' ∉ "u1".toList ∧ clientID "u1" "t:1" = clientID "u1" "t:1" ∧
      ("u1" = "u1" ∧ "t:1" = "t:1") :=
  ⟨by decide, by decide, rfl,
    clientID_injective_of_no_colon "u1" "t:1" "u1" "t:1" (by decide) (by decide) rfl⟩

/-- When every registered session carries the client ID of its user and tab and user IDs
hold no colon, a session whose ID is the client ID of `(u, t)` is a session of user `u`
and tab `t`: `HasClientWithID` and `CloseClientWithID` match no session of another
pair. -/
theorem registered_ID_matches_pair (h : Hub) (u t : String) (hu : ':' ∉ u.toList)
    (hreg : ∀ p ∈ h.Clients, (h.mem p).ID = clientID (h.mem p).UserID (h.mem p).TabID ∧
      ':' ∉ (h.mem p).UserID.toList) :
    ∀ p ∈ h.Clients, (h.mem p).ID = clientID u t →
      (h.mem p).UserID = u ∧ (h.mem p).TabID = t := by
  intro p hp hid
  obtain ⟨hpid, hpu⟩ := hreg p hp
  rw [hpid] at hid
  exact clientID_injective_of_no_colon _ _ _ _ hpu hu hid

/-- C24 fails as stated.  The pairs `("a:b", "c")` and `("a", "b:c")` differ in both
components and have the same client ID `"a:b:c"`.  In `colonTab`, whose only session
belongs to user `"a"` and tab `"b:c"`, the check `HasClientWithID` made for user `"a:b"`
and tab `"c"` answers true, and `CloseClientWithID` for that pair deactivates the session
of user `"a"` and closes its connection. -/
theorem clientID_not_injective :
    clientID "a:b" "c" = clientID "a" "b:c" ∧ "a:b" ≠ "a" ∧ "c" ≠ "b:c" ∧
      (colonTab.mem 0).UserID = "a" ∧ (colonTab.mem 0).TabID = "b:c" ∧
      (colonTab.mem 0).ID = clientID "a" "b:c" ∧
      HasClientWithID (clientID "a:b" "c") colonTab = true ∧
      ((CloseClientWithID (clientID "a:b" "c") colonTab).mem 0).IsActive = false ∧
      ((CloseClientWithID (clientID "a:b" "c") colonTab).mem 0).ConnClosed = true :=
  ⟨by decide, by decide, by decide, rfl, rfl, rfl, by decide, by decide, by decide⟩

/-! ## The heartbeat sweep on every hub that the events reach -/

theorem removeFirstWithID_sublist (mem : Ptr → Client) (id : String) :
    ∀ (l r : List Ptr), removeFirstWithID mem id l = some r → r.Sublist l := by
  intro l
  induction l with
  | nil => intro r hr; simp [removeFirstWithID] at hr
  | cons c cs ih =>
    intro r hr
    unfold removeFirstWithID at hr
    by_cases hc : (mem c).ID = id
    · rw [if_pos hc] at hr
      cases hr
      exact List.sublist_cons_self c _
    · rw [if_neg hc] at hr
      cases hrec : removeFirstWithID mem id cs with
      | none => rw [hrec] at hr; simp at hr
      | some r1 =>
        rw [hrec] at hr
        simp only [Option.map_some', Option.some.injEq] at hr
        rw [← hr]
        exact (ih r1 hrec).cons₂ c

theorem dropFirstWithID_sublist (mem : Ptr → Client) (id : String) (l : List Ptr) :
    (dropFirstWithID mem id l).Sublist l := by
  unfold dropFirstWithID
  cases hr : removeFirstWithID mem id l with
  | none => exact List.Sublist.refl l
  | some r => exact removeFirstWithID_sublist mem id l r hr

theorem dropFirstWithID_eq_erase (mem : Ptr → Client) (s : Ptr) (l : List Ptr) (hs : s ∈ l)
    (huniq : ∀ p ∈ l, (mem p).ID = (mem s).ID → p = s) :
    dropFirstWithID mem (mem s).ID l = l.erase s := by
  unfold dropFirstWithID
  rw [removeFirstWithID_eq_erase mem s l hs huniq]
  rfl

theorem lookup_of_userClients_ne_nil {h : Hub} {u : String}
    (hne : (h.userClients u).length ≠ 0) : h.UserClients.lookup u = some (h.userClients u) := by
  unfold Hub.userClients at hne ⊢
  cases hl : h.UserClients.lookup u with
  | none => rw [hl] at hne; simp at hne
  | some l => simp

/-- The body of the loop of `checkHeartbeats` on an active, stale session whose `Send`
and `Done` channels are open. -/
theorem heartbeatOne_evicts (now : Int) (s : Ptr) (h : Hub)
    (hopen : (h.mem s).Send.closed = false) (hdone : (h.mem s).DoneClosed = false)
    (hev : h.evictable now s) :
    ∃ h1, heartbeatOne now h s = .ok h1 ∧ Evicts s h h1 := by
  have e1 : ((h.setClient s { h.mem s with IsActive := false }).connClose s).deleteClient s
      = (h.deleteClient s).setClient s { h.mem s with IsActive := false, ConnClosed := true } := by
    simp [Hub.connClose, setClient_deleteClient]
  have e2 : ((h.deleteClient s).setClient s
        { h.mem s with IsActive := false, ConnClosed := true }).closeSend s
      = .ok ((h.deleteClient s).setClient s
        { h.mem s with IsActive := false, ConnClosed := true,
                       Send := { (h.mem s).Send with closed := true } }) := by
    rw [closeSend_ok (by simp [hopen])]
    simp [Client.sendClosed]
  have e3 : ((h.deleteClient s).setClient s
        { h.mem s with IsActive := false, ConnClosed := true,
                       Send := { (h.mem s).Send with closed := true } }).closeDone s
      = .ok ((h.deleteClient s).setClient s (h.mem s).timedOut) := by
    simp [Hub.closeDone, hdone, Client.timedOut]
  have hids : ∀ p, (((h.deleteClient s).setClient s (h.mem s).timedOut).mem p).ID
      = (h.mem p).ID := by
    intro p
    by_cases hp : p = s
    · subst hp; simp [Client.timedOut]
    · rw [setClient_mem_of_ne _ _ hp]; rfl
  have hu : (((h.deleteClient s).setClient s (h.mem s).timedOut).mem s).UserID
      = (h.mem s).UserID := by simp [Client.timedOut]
  have hid : (((h.deleteClient s).setClient s (h.mem s).timedOut).mem s).ID
      = (h.mem s).ID := hids s
  have huc : ((h.deleteClient s).setClient s (h.mem s).timedOut).userClients (h.mem s).UserID
      = h.userClients (h.mem s).UserID := rfl
  have hgo : (h.mem s).IsActive = true ∧ now - (h.mem s).LastPingTime > h.heartbeatTimeout := hev
  unfold heartbeatOne
  rw [if_pos hgo]
  dsimp only
  rw [e1, e2]
  dsimp only
  rw [e3]
  dsimp only
  unfold Hub.dropFromUserClients
  dsimp only
  rw [hu, hid, huc, removeFirstWithID_congr hids]
  cases hr : removeFirstWithID h.mem (h.mem s).ID (h.userClients (h.mem s).UserID) with
  | none =>
    have hd : dropFirstWithID h.mem (h.mem s).ID (h.userClients (h.mem s).UserID)
        = h.userClients (h.mem s).UserID := by
      unfold dropFirstWithID; rw [hr]; rfl
    dsimp only
    rw [huc]
    by_cases hz : (h.userClients (h.mem s).UserID).length = 0
    · rw [if_pos hz]
      refine ⟨_, rfl, rfl, rfl, ?_, ?_, rfl, rfl, rfl⟩
      · intro v
        by_cases hv : v = (h.mem s).UserID
        · subst hv
          rw [if_pos rfl, hd, if_pos hz]
          exact Finmap.lookup_erase _ _
        · rw [if_neg hv]
          exact Finmap.lookup_erase_ne hv
      · rw [hd, if_pos hz]
        rfl
    · rw [if_neg hz]
      refine ⟨_, rfl, rfl, rfl, ?_, ?_, rfl, rfl, rfl⟩
      · intro v
        by_cases hv : v = (h.mem s).UserID
        · subst hv
          rw [if_pos rfl, hd, if_neg hz]
          exact lookup_of_userClients_ne_nil hz
        · rw [if_neg hv]
          rfl
      · rw [hd, if_neg hz]
        rfl
  | some rest =>
    have hd : dropFirstWithID h.mem (h.mem s).ID (h.userClients (h.mem s).UserID) = rest := by
      unfold dropFirstWithID; rw [hr]; rfl
    dsimp only
    have hur : ({ (h.deleteClient s).setClient s (h.mem s).timedOut with
        UserClients := ((h.deleteClient s).setClient s (h.mem s).timedOut).UserClients.insert
          (h.mem s).UserID rest } : Hub).userClients (h.mem s).UserID = rest := by
      simp [Hub.userClients, Finmap.lookup_insert]
    rw [hur]
    by_cases hz : rest.length = 0
    · rw [if_pos hz]
      refine ⟨_, rfl, rfl, rfl, ?_, ?_, rfl, rfl, rfl⟩
      · intro v
        by_cases hv : v = (h.mem s).UserID
        · subst hv
          rw [if_pos rfl, hd, if_pos hz]
          exact Finmap.lookup_erase _ _
        · rw [if_neg hv]
          show (Finmap.erase _ (Finmap.insert _ _ h.UserClients)).lookup v = _
          rw [Finmap.lookup_erase_ne hv, Finmap.lookup_insert_of_ne _ hv]
      · rw [hd, if_pos hz]
        rfl
    · rw [if_neg hz]
      refine ⟨_, rfl, rfl, rfl, ?_, ?_, rfl, rfl, rfl⟩
      · intro v
        by_cases hv : v = (h.mem s).UserID
        · subst hv
          rw [if_pos rfl, hd, if_neg hz]
          exact Finmap.lookup_insert _
        · rw [if_neg hv]
          exact Finmap.lookup_insert_of_ne _ hv
      · rw [hd, if_neg hz]
        rfl

theorem Evicts.mem_of_ne {s : Ptr} {h h1 : Hub} (he : Evicts s h h1) {p : Ptr} (hp : p ≠ s) :
    h1.mem p = h.mem p := by
  rw [he.2.1]
  simp [Function.update, hp]

theorem Evicts.mem_self {s : Ptr} {h h1 : Hub} (he : Evicts s h h1) :
    h1.mem s = (h.mem s).timedOut := by
  rw [he.2.1]
  simp

theorem Evicts.UserID {s : Ptr} {h h1 : Hub} (he : Evicts s h h1) (p : Ptr) :
    (h1.mem p).UserID = (h.mem p).UserID := by
  by_cases hp : p = s
  · subst hp; rw [he.mem_self]; rfl
  · rw [he.mem_of_ne hp]

theorem Evicts.ID {s : Ptr} {h h1 : Hub} (he : Evicts s h h1) (p : Ptr) :
    (h1.mem p).ID = (h.mem p).ID := by
  by_cases hp : p = s
  · subst hp; rw [he.mem_self]; rfl
  · rw [he.mem_of_ne hp]

theorem Evicts.mem_Clients {s : Ptr} {h h1 : Hub} (he : Evicts s h h1) (p : Ptr) :
    p ∈ h1.Clients ↔ p ∈ h.Clients ∧ p ≠ s := by
  rw [he.1]
  simp

theorem Evicts.evictable {s : Ptr} {h h1 : Hub} (he : Evicts s h h1) (now : Int) (p : Ptr) :
    h1.evictable now p ↔ p ≠ s ∧ h.evictable now p := by
  unfold Hub.evictable
  rw [he.2.2.2.2.2.2]
  by_cases hp : p = s
  · subst hp
    rw [he.mem_self]
    simp [Client.timedOut]
  · rw [he.mem_of_ne hp]
    simp [hp]

theorem Evicts.userClients {s : Ptr} {h h1 : Hub} (he : Evicts s h h1) (v : String) :
    h1.userClients v =
      if v = (h.mem s).UserID then dropFirstWithID h.mem (h.mem s).ID (h.userClients v)
      else h.userClients v := by
  have hl := he.2.2.1 v
  unfold Hub.userClients at hl ⊢
  rw [hl]
  by_cases hv : v = (h.mem s).UserID
  · rw [if_pos hv, if_pos hv]
    by_cases hz : (dropFirstWithID h.mem (h.mem s).ID ((h.UserClients.lookup v).getD [])).length = 0
    · rw [if_pos hz, List.length_eq_zero.mp hz]
      rfl
    · rw [if_neg hz]
      rfl
  · rw [if_neg hv, if_neg hv]

/-- An entry after an eviction is a sublist of the entry before. -/
theorem Evicts.lookup_sublist {s : Ptr} {h h1 : Hub} (he : Evicts s h h1) {u : String}
    {l1 : List Ptr} (hl1 : h1.UserClients.lookup u = some l1) :
    ∃ l, h.UserClients.lookup u = some l ∧ l1.Sublist l := by
  rw [he.2.2.1 u] at hl1
  by_cases hu : u = (h.mem s).UserID
  · rw [if_pos hu] at hl1
    by_cases hz : (dropFirstWithID h.mem (h.mem s).ID (h.userClients u)).length = 0
    · rw [if_pos hz] at hl1
      exact absurd hl1 (by simp)
    · rw [if_neg hz] at hl1
      have hl1e : dropFirstWithID h.mem (h.mem s).ID (h.userClients u) = l1 :=
        Option.some.inj hl1
      have hsub := dropFirstWithID_sublist h.mem (h.mem s).ID (h.userClients u)
      have hne : (h.userClients u).length ≠ 0 := by
        intro hx
        rw [List.length_eq_zero.mp hx] at hsub hz
        rw [List.sublist_nil.mp hsub] at hz
        exact hz rfl
      refine ⟨h.userClients u, lookup_of_userClients_ne_nil hne, ?_⟩
      rw [← hl1e]
      exact hsub
  · rw [if_neg hu] at hl1
    exact ⟨l1, hl1, List.Sublist.refl l1⟩

theorem inUserClients_of_lookup_sublist {h h1 : Hub}
    (hsub : ∀ u l1, h1.UserClients.lookup u = some l1 →
      ∃ l, h.UserClients.lookup u = some l ∧ l1.Sublist l)
    {p : Ptr} (hp : InUserClients h1 p) : InUserClients h p := by
  obtain ⟨u, l1, hl1, hpl⟩ := hp
  obtain ⟨l, hl, hs⟩ := hsub u l1 hl1
  exact ⟨u, l, hl, hs.subset hpl⟩

/-- Soundness passes to a hub whose registered sessions were registered with the same
channels, whose client objects keep their IDs and user IDs, and whose entries are
sublists of the entries before. -/
theorem Hub.Sound.of_shrink {h h1 : Hub} (hs : h.Sound)
    (hC : ∀ p ∈ h1.Clients, p ∈ h.Clients ∧ (h1.mem p).Send.closed = (h.mem p).Send.closed ∧
      (h1.mem p).DoneClosed = (h.mem p).DoneClosed)
    (hI : ∀ p, (h1.mem p).ID = (h.mem p).ID ∧ (h1.mem p).UserID = (h.mem p).UserID)
    (hU : ∀ u l1, h1.UserClients.lookup u = some l1 →
      ∃ l, h.UserClients.lookup u = some l ∧ l1.Sublist l) :
    h1.Sound := by
  constructor
  · intro p hp
    obtain ⟨hpC, hsend, hdone⟩ := hC p hp
    rw [hsend, hdone]
    exact hs.1 p hpC
  · intro u l1 hl1
    obtain ⟨l, hl, hsub⟩ := hU u l1 hl1
    obtain ⟨hnd, hall⟩ := hs.2 u l hl
    refine ⟨hnd.sublist hsub, ?_⟩
    intro p hp
    obtain ⟨hpu, hpid⟩ := hall p (hsub.subset hp)
    refine ⟨by rw [(hI p).2]; exact hpu, ?_⟩
    intro q hq hqid
    rw [(hI q).1, (hI p).1] at hqid
    exact hpid q (hsub.subset hq) hqid

theorem Evicts.keeps_sound {s : Ptr} {h h1 : Hub} (he : Evicts s h h1) (hs : h.Sound) : h1.Sound := by
  apply hs.of_shrink
  · intro p hp
    obtain ⟨hpC, hps⟩ := (he.mem_Clients p).mp hp
    rw [he.mem_of_ne hps]
    exact ⟨hpC, rfl, rfl⟩
  · intro p
    exact ⟨he.ID p, he.UserID p⟩
  · intro u l1 hl1
    exact he.lookup_sublist hl1

/-- After its eviction a session is in no entry of `UserClients`. -/
theorem Evicts.not_inUserClients {s : Ptr} {h h1 : Hub} (he : Evicts s h h1) (hs : h.Sound) :
    ¬ InUserClients h1 s := by
  rintro ⟨u, l1, hl1, hsl1⟩
  rw [he.2.2.1 u] at hl1
  by_cases hu : u = (h.mem s).UserID
  · rw [if_pos hu] at hl1
    by_cases hz : (dropFirstWithID h.mem (h.mem s).ID (h.userClients u)).length = 0
    · rw [if_pos hz] at hl1
      exact absurd hl1 (by simp)
    · rw [if_neg hz] at hl1
      have hl1e : dropFirstWithID h.mem (h.mem s).ID (h.userClients u) = l1 :=
        Option.some.inj hl1
      have hsub := dropFirstWithID_sublist h.mem (h.mem s).ID (h.userClients u)
      have hsin : s ∈ h.userClients u := hsub.subset (by rw [hl1e]; exact hsl1)
      have hne : (h.userClients u).length ≠ 0 := by
        intro hx
        rw [List.length_eq_zero.mp hx] at hsin
        simp at hsin
      obtain ⟨hnd, hall⟩ := hs.2 u _ (lookup_of_userClients_ne_nil hne)
      have herase := dropFirstWithID_eq_erase h.mem s (h.userClients u) hsin
        (fun p hp hid => (hall s hsin).2 p hp hid)
      rw [herase] at hl1e
      rw [← hl1e] at hsl1
      exact ((List.Nodup.mem_erase_iff hnd).mp hsl1).1 rfl
  · rw [if_neg hu] at hl1
    exact hu ((hs.2 u l1 hl1).2 s hsl1).1.symm

/-- An invariant of the evictions is an invariant of the sweep of `checkHeartbeats` on
every sound hub.  The sweep does not fault, keeps the hub sound, leaves the recorded
status calls, the status updater and the timeout as they are, only removes sessions from
`Clients`, makes no session pass the test that did not pass it before, and leaves no
visited session registered that passes the test. -/
theorem foldlM_heartbeatOne_sound (now : Int) (P : Hub → Prop)
    (hstep : ∀ (h : Hub) (c : Ptr) (h1 : Hub), h.Sound → c ∈ h.Clients → h.evictable now c →
      Evicts c h h1 → P h → P h1) :
    ∀ (l : List Ptr) (h : Hub), h.Sound →
      (∀ p ∈ l, p ∈ h.Clients ∨ (h.mem p).IsActive = false) → P h →
      ∃ h1, l.foldlM (heartbeatOne now) h = .ok h1 ∧ h1.Sound ∧ P h1 ∧
        h1.statusCalls = h.statusCalls ∧ h1.hasStatusUpdater = h.hasStatusUpdater ∧
        h1.heartbeatTimeout = h.heartbeatTimeout ∧
        (∀ p, p ∈ h1.Clients → p ∈ h.Clients) ∧
        (∀ p, h1.evictable now p → h.evictable now p) ∧
        (∀ p ∈ l, p ∈ h1.Clients → ¬ h1.evictable now p) := by
  intro l
  induction l with
  | nil =>
    intro h hs _ hP
    exact ⟨h, rfl, hs, hP, rfl, rfl, rfl, fun _ hp => hp, fun _ hp => hp,
      fun p hp => absurd hp (by simp)⟩
  | cons c rest ih =>
    intro h hs hreg hP
    rw [List.foldlM_cons]
    by_cases hgo : h.evictable now c
    · have hin : c ∈ h.Clients := by
        rcases hreg c (by simp) with hc | hc
        · exact hc
        · rw [hgo.1] at hc; exact absurd hc (by simp)
      obtain ⟨hopen, hdone⟩ := hs.1 c hin
      obtain ⟨hx, hrun, he⟩ := heartbeatOne_evicts now c h hopen hdone hgo
      rw [hrun]
      obtain ⟨h1, hfold, hs1, hP1, f1, f2, f3, f4, f5, f6⟩ := ih hx (he.keeps_sound hs) (by
        intro p hp
        by_cases hpc : p = c
        · right
          rw [hpc, he.mem_self]
          rfl
        · rcases hreg p (by simp [hp]) with hpC | hpA
          · left
            exact (he.mem_Clients p).mpr ⟨hpC, hpc⟩
          · right
            rw [he.mem_of_ne hpc]
            exact hpA) (hstep h c hx hs hin hgo he hP)
      refine ⟨h1, hfold, hs1, hP1, f1.trans he.2.2.2.2.1, f2.trans he.2.2.2.2.2.1,
        f3.trans he.2.2.2.2.2.2, ?_, ?_, ?_⟩
      · intro p hp
        exact ((he.mem_Clients p).mp (f4 p hp)).1
      · intro p hp
        exact ((he.evictable now p).mp (f5 p hp)).2
      · intro p hp hp1
        rcases List.mem_cons.mp hp with hpc | hpr
        · rw [hpc] at hp1
          exact absurd ((he.mem_Clients c).mp (f4 c hp1)).2 (by simp)
        · exact f6 p hpr hp1
    · have hgo1 : ¬ ((h.mem c).IsActive = true ∧
          now - (h.mem c).LastPingTime > h.heartbeatTimeout) := hgo
      have hskip : heartbeatOne now h c = .ok h := by
        unfold heartbeatOne
        rw [if_neg hgo1]
      rw [hskip]
      obtain ⟨h1, hfold, hs1, hP1, f1, f2, f3, f4, f5, f6⟩ :=
        ih h hs (fun p hp => hreg p (by simp [hp])) hP
      refine ⟨h1, hfold, hs1, hP1, f1, f2, f3, f4, f5, ?_⟩
      intro p hp hp1
      rcases List.mem_cons.mp hp with hpc | hpr
      · rw [hpc]
        exact fun hx => hgo (f5 c hx)
      · exact f6 p hpr hp1

/-- The sweep of `checkHeartbeats` on a sound hub: it does not fault; exactly the
registered sessions that pass its test (active and stale) are evicted, each of them
absent from `Clients` and from every entry of `UserClients` afterwards, with the fields
of a timed-out client; every other client object is unchanged, and a registered session
that does not pass the test stays registered. -/
theorem checkHeartbeats_sound_spec (now : Int) (h : Hub) (hs : h.Sound) :
    ∃ h1, checkHeartbeats now h = .ok h1 ∧ h1.Sound ∧
      h1.statusCalls = h.statusCalls ∧ h1.hasStatusUpdater = h.hasStatusUpdater ∧
      h1.heartbeatTimeout = h.heartbeatTimeout ∧
      (∀ s ∈ h.Clients, h.evictable now s →
        s ∉ h1.Clients ∧ ¬ InUserClients h1 s ∧ h1.mem s = (h.mem s).timedOut) ∧
      (∀ s ∈ h.Clients, ¬ h.evictable now s → s ∈ h1.Clients ∧ h1.mem s = h.mem s) ∧
      (∀ s, s ∉ h.Clients → s ∉ h1.Clients ∧ h1.mem s = h.mem s) := by
  obtain ⟨h1, hrun, hs1, ⟨hT, hP⟩, f1, f2, f3, f4, f5, f6⟩ := foldlM_heartbeatOne_sound now
    (fun hx => hx.heartbeatTimeout = h.heartbeatTimeout ∧ ∀ p,
      (p ∈ hx.Clients ∧ p ∈ h.Clients ∧ hx.mem p = h.mem p) ∨
      (p ∉ h.Clients ∧ p ∉ hx.Clients ∧ hx.mem p = h.mem p) ∨
      (p ∉ hx.Clients ∧ ¬ InUserClients hx p ∧ hx.mem p = (h.mem p).timedOut ∧
        p ∈ h.Clients ∧ h.evictable now p))
    (by
      intro hx c hx1 hsx hcx hevc he ⟨hTx, hPx⟩
      refine ⟨he.2.2.2.2.2.2.trans hTx, ?_⟩
      intro p
      by_cases hpc : p = c
      · subst hpc
        rcases hPx p with ⟨-, hph, hpm⟩ | ⟨-, hpn, -⟩ | ⟨hpn, -⟩
        · right; right
          refine ⟨fun hx2 => ((he.mem_Clients p).mp hx2).2 rfl, he.not_inUserClients hsx,
            by rw [he.mem_self, hpm], hph, ?_⟩
          have hev1 : (hx.mem p).IsActive = true ∧
              now - (hx.mem p).LastPingTime > hx.heartbeatTimeout := hevc
          rw [hpm, hTx] at hev1
          exact hev1
        · exact absurd hcx hpn
        · exact absurd hcx hpn
      · rcases hPx p with ⟨hp1, hph, hpm⟩ | ⟨hph, hpn, hpm⟩ | ⟨hpn, hpu, hpm, hph, hpe⟩
        · left
          exact ⟨(he.mem_Clients p).mpr ⟨hp1, hpc⟩, hph, by rw [he.mem_of_ne hpc]; exact hpm⟩
        · right; left
          exact ⟨hph, fun hx2 => hpn ((he.mem_Clients p).mp hx2).1,
            by rw [he.mem_of_ne hpc]; exact hpm⟩
        · right; right
          exact ⟨fun hx2 => hpn ((he.mem_Clients p).mp hx2).1,
            fun hx2 => hpu (inUserClients_of_lookup_sublist
              (fun u l1 hl1 => he.lookup_sublist hl1) hx2),
            by rw [he.mem_of_ne hpc]; exact hpm, hph, hpe⟩)
    h.Clients h hs (fun _ hp => Or.inl hp)
    ⟨rfl, fun p => by
      by_cases hp : p ∈ h.Clients
      · exact Or.inl ⟨hp, hp, rfl⟩
      · exact Or.inr (Or.inl ⟨hp, hp, rfl⟩)⟩
  refine ⟨h1, hrun, hs1, f1, f2, f3, ?_, ?_, ?_⟩
  · intro s hsC hev
    rcases hP s with ⟨hp1, -, hpm⟩ | ⟨hph, -, -⟩ | ⟨hpn, hpu, hpm, -, -⟩
    · have hev1 : h1.evictable now s := by
        have hev0 : (h.mem s).IsActive = true ∧
            now - (h.mem s).LastPingTime > h.heartbeatTimeout := hev
        show (h1.mem s).IsActive = true ∧ now - (h1.mem s).LastPingTime > h1.heartbeatTimeout
        rw [hpm, hT]
        exact hev0
      exact absurd hev1 (f6 s hsC hp1)
    · exact absurd hsC hph
    · exact ⟨hpn, hpu, hpm⟩
  · intro s hsC hev
    rcases hP s with ⟨hp1, -, hpm⟩ | ⟨hph, -, -⟩ | ⟨-, -, -, -, hpe⟩
    · exact ⟨hp1, hpm⟩
    · exact absurd hsC hph
    · exact absurd hpe hev
  · intro s hsC
    rcases hP s with ⟨-, hph, -⟩ | ⟨-, hpn, hpm⟩ | ⟨-, -, -, hph, -⟩
    · exact absurd hph hsC
    · exact ⟨hpn, hpm⟩
    · exact absurd hph hsC

theorem Evicts.spawned_count_of_ne {s : Ptr} {h h1 : Hub} (he : Evicts s h h1) {u : String}
    (hu : (h.mem s).UserID ≠ u) :
    h1.spawned.count (GoCall.SetUserOffline u) = h.spawned.count (GoCall.SetUserOffline u) := by
  rw [he.2.2.2.1]
  split
  · exact count_append_offline_of_ne _ hu
  · rfl

/-- The sweep starts no `SetUserOffline` for a user none of whose registered sessions it
evicts. -/
theorem checkHeartbeats_no_offline_of_none_evicted (now : Int) (h : Hub) (hs : h.Sound)
    (u : String) (hnone : ∀ p ∈ h.Clients, (h.mem p).UserID = u → ¬ h.evictable now p) :
    ∃ h1, checkHeartbeats now h = .ok h1 ∧
      h1.spawned.count (GoCall.SetUserOffline u) = h.spawned.count (GoCall.SetUserOffline u) := by
  obtain ⟨h1, hrun, -, ⟨-, hcnt⟩, -⟩ := foldlM_heartbeatOne_sound now
    (fun hx => (∀ p ∈ hx.Clients, (hx.mem p).UserID = u → ¬ hx.evictable now p) ∧
      hx.spawned.count (GoCall.SetUserOffline u) = h.spawned.count (GoCall.SetUserOffline u))
    (by
      intro hx c hx1 _ hcx hevc he ⟨hn, hcnt⟩
      have hcu : (hx.mem c).UserID ≠ u := fun hcu => hn c hcx hcu hevc
      refine ⟨?_, (he.spawned_count_of_ne hcu).trans hcnt⟩
      intro p hp hpu hpe
      rw [he.UserID] at hpu
      exact hn p ((he.mem_Clients p).mp hp).1 hpu ((he.evictable now p).mp hpe).2)
    h.Clients h hs (fun _ hp => Or.inl hp) ⟨hnone, rfl⟩
  exact ⟨h1, hrun, hcnt⟩

theorem removeFirstWithID_mem_of_ne (mem : Ptr → Client) (id : String) (o : Ptr)
    (hid : (mem o).ID ≠ id) :
    ∀ (l r : List Ptr), o ∈ l → removeFirstWithID mem id l = some r → o ∈ r := by
  intro l
  induction l with
  | nil => intro r ho _; simp at ho
  | cons c cs ih =>
    intro r ho hr
    unfold removeFirstWithID at hr
    by_cases hc : (mem c).ID = id
    · rw [if_pos hc] at hr
      cases hr
      rcases List.mem_cons.mp ho with hoc | hocs
      · rw [hoc] at hid; exact absurd hc hid
      · exact hocs
    · rw [if_neg hc] at hr
      cases hrest : removeFirstWithID mem id cs with
      | none => rw [hrest] at hr; simp at hr
      | some r1 =>
        rw [hrest] at hr
        simp only [Option.map_some', Option.some.injEq] at hr
        rw [← hr]
        rcases List.mem_cons.mp ho with hoc | hocs
        · rw [hoc]; simp
        · exact List.mem_cons_of_mem c (ih r1 hocs hrest)

/-- The removal loop over an entry leaves in it every session that carries another ID
than the one it looks for. -/
theorem mem_dropFirstWithID_of_ne (mem : Ptr → Client) (id : String) (o : Ptr)
    (l : List Ptr) (ho : o ∈ l) (hid : (mem o).ID ≠ id) : o ∈ dropFirstWithID mem id l := by
  unfold dropFirstWithID
  cases hr : removeFirstWithID mem id l with
  | none => exact ho
  | some r => exact removeFirstWithID_mem_of_ne mem id o hid l r ho hr

/-- The sweep keeps in the entry of user `u` a session `o` of that entry that it does not
evict, and starts no `SetUserOffline` for `u`, when no session of `u` that it evicts
carries the ID of `o`. -/
theorem checkHeartbeats_no_offline_of_kept (now : Int) (h : Hub) (hs : h.Sound)
    (u : String) (o : Ptr) (ho : o ∈ h.userClients u) (hkeep : ¬ h.evictable now o)
    (hdiff : ∀ p ∈ h.Clients, (h.mem p).UserID = u → h.evictable now p →
      (h.mem p).ID ≠ (h.mem o).ID) :
    ∃ h1, checkHeartbeats now h = .ok h1 ∧ o ∈ h1.userClients u ∧
      h1.spawned.count (GoCall.SetUserOffline u) = h.spawned.count (GoCall.SetUserOffline u) := by
  obtain ⟨h1, hrun, -, ⟨hin, -, -, hcnt⟩, -⟩ := foldlM_heartbeatOne_sound now
    (fun hx => o ∈ hx.userClients u ∧ ¬ hx.evictable now o ∧
      (∀ p ∈ hx.Clients, (hx.mem p).UserID = u → hx.evictable now p →
        (hx.mem p).ID ≠ (hx.mem o).ID) ∧
      hx.spawned.count (GoCall.SetUserOffline u) = h.spawned.count (GoCall.SetUserOffline u))
    (by
      intro hx c hx1 hsx hcx hevc he ⟨hox, hkx, hdx, hcnt⟩
      have hnext : ∀ p ∈ hx1.Clients, (hx1.mem p).UserID = u → hx1.evictable now p →
          (hx1.mem p).ID ≠ (hx1.mem o).ID := by
        intro p hp hpu hpe
        rw [he.UserID] at hpu
        rw [he.ID, he.ID]
        exact hdx p ((he.mem_Clients p).mp hp).1 hpu ((he.evictable now p).mp hpe).2
      by_cases hcu : (hx.mem c).UserID = u
      · have hid : (hx.mem o).ID ≠ (hx.mem c).ID := fun hx2 => hdx c hcx hcu hevc hx2.symm
        have hoin : o ∈ dropFirstWithID hx.mem (hx.mem c).ID (hx.userClients u) :=
          mem_dropFirstWithID_of_ne hx.mem _ o _ hox hid
        have hu1 : hx1.userClients u
            = dropFirstWithID hx.mem (hx.mem c).ID (hx.userClients u) := by
          rw [he.userClients, if_pos hcu.symm]
        refine ⟨by rw [hu1]; exact hoin, fun hx2 => hkx ((he.evictable now o).mp hx2).2,
          hnext, ?_⟩
        rw [he.2.2.2.1, hcu]
        have hlen : ¬ (dropFirstWithID hx.mem (hx.mem c).ID (hx.userClients u)).length = 0 := by
          intro hz
          rw [List.length_eq_zero.mp hz] at hoin
          simp at hoin
        rw [if_neg hlen]
        exact hcnt
      · have hu1 : hx1.userClients u = hx.userClients u := by
          rw [he.userClients, if_neg (fun hx2 => hcu hx2.symm)]
        exact ⟨by rw [hu1]; exact hox, fun hx2 => hkx ((he.evictable now o).mp hx2).2, hnext,
          (he.spawned_count_of_ne hcu).trans hcnt⟩)
    h.Clients h hs (fun _ hp => Or.inl hp) ⟨ho, hkeep, hdiff, rfl⟩
  exact ⟨h1, hrun, hin, hcnt⟩

/-- When a registered session that is alone in its user's entry is evicted and the sweep
evicts no other session of that user, the sweep starts exactly one `SetUserOffline` for
the user. -/
theorem checkHeartbeats_one_offline_of_only_session (now : Int) (h : Hub) (hs : h.Sound)
    (s : Ptr) (hin : s ∈ h.Clients) (honly : h.userClients (h.mem s).UserID = [s])
    (hsole : ∀ p ∈ h.Clients, (h.mem p).UserID = (h.mem s).UserID → h.evictable now p →
      p = s)
    (hev : h.evictable now s) :
    ∃ h1, checkHeartbeats now h = .ok h1 ∧
      h1.spawned.count (GoCall.SetUserOffline (h.mem s).UserID)
        = h.spawned.count (GoCall.SetUserOffline (h.mem s).UserID) + 1 := by
  obtain ⟨h1, hrun, -, hP, -, -, -, -, -, f6⟩ := foldlM_heartbeatOne_sound now
    (fun hx =>
      (s ∈ hx.Clients ∧ hx.userClients (h.mem s).UserID = [s] ∧ hx.mem s = h.mem s ∧
        hx.heartbeatTimeout = h.heartbeatTimeout ∧
        (∀ p ∈ hx.Clients, (hx.mem p).UserID = (h.mem s).UserID → hx.evictable now p →
          p = s) ∧
        hx.spawned.count (GoCall.SetUserOffline (h.mem s).UserID)
          = h.spawned.count (GoCall.SetUserOffline (h.mem s).UserID)) ∨
      ((∀ p ∈ hx.Clients, (hx.mem p).UserID = (h.mem s).UserID → ¬ hx.evictable now p) ∧
        hx.spawned.count (GoCall.SetUserOffline (h.mem s).UserID)
          = h.spawned.count (GoCall.SetUserOffline (h.mem s).UserID) + 1))
    (by
      intro hx c hx1 hsx hcx hevc he hP
      rcases hP with ⟨hsx1, hux, hmx, hTx, hsolex, hcnt⟩ | ⟨hnox, hcnt⟩
      · by_cases hcs : c = s
        · subst hcs
          right
          refine ⟨?_, ?_⟩
          · intro p hp hpu hpe
            obtain ⟨hpC, hpc⟩ := (he.mem_Clients p).mp hp
            rw [he.UserID] at hpu
            exact hpc (hsolex p hpC hpu ((he.evictable now p).mp hpe).2)
          · have hd : dropFirstWithID hx.mem (hx.mem c).ID (hx.userClients (hx.mem c).UserID)
                = [] := by
              rw [hmx, hux]
              simp [dropFirstWithID, removeFirstWithID, hmx]
            rw [he.2.2.2.1, hd, hmx]
            simp [hcnt]
        · left
          have hcu : (hx.mem c).UserID ≠ (h.mem s).UserID :=
            fun hcu => hcs (hsolex c hcx hcu hevc)
          refine ⟨(he.mem_Clients s).mpr ⟨hsx1, Ne.symm hcs⟩, ?_, ?_, he.2.2.2.2.2.2.trans hTx,
            ?_, (he.spawned_count_of_ne hcu).trans hcnt⟩
          · rw [he.userClients, if_neg (fun hx2 => hcu hx2.symm)]
            exact hux
          · rw [he.mem_of_ne (Ne.symm hcs)]
            exact hmx
          · intro p hp hpu hpe
            rw [he.UserID] at hpu
            exact hsolex p ((he.mem_Clients p).mp hp).1 hpu ((he.evictable now p).mp hpe).2
      · right
        have hcu : (hx.mem c).UserID ≠ (h.mem s).UserID := fun hcu => hnox c hcx hcu hevc
        refine ⟨?_, (he.spawned_count_of_ne hcu).trans hcnt⟩
        intro p hp hpu hpe
        rw [he.UserID] at hpu
        exact hnox p ((he.mem_Clients p).mp hp).1 hpu ((he.evictable now p).mp hpe).2)
    h.Clients h hs (fun _ hp => Or.inl hp) (Or.inl ⟨hin, honly, rfl, rfl, hsole, rfl⟩)
  rcases hP with ⟨hs1, -, hm1, hT1, -, -⟩ | ⟨-, hcnt⟩
  · have hev1 : h1.evictable now s := by
      have hev0 : (h.mem s).IsActive = true ∧
          now - (h.mem s).LastPingTime > h.heartbeatTimeout := hev
      show (h1.mem s).IsActive = true ∧ now - (h1.mem s).LastPingTime > h1.heartbeatTimeout
      rw [hm1, hT1]
      exact hev0
    exact absurd hev1 (f6 s hin hs1)
  · exact ⟨h1, hrun, hcnt⟩

/-! ## Soundness is an invariant of the events of the hub -/

theorem Shrinks.refl (h : Hub) : Shrinks h h :=
  ⟨fun _ hp => hp, fun _ _ => ⟨rfl, rfl⟩, fun _ => ⟨rfl, rfl⟩,
    fun _ l1 hl1 => ⟨l1, hl1, List.Sublist.refl l1⟩⟩

theorem Shrinks.trans {h h1 h2 : Hub} (h01 : Shrinks h h1) (h12 : Shrinks h1 h2) :
    Shrinks h h2 := by
  obtain ⟨a1, a2, a3, a4⟩ := h01
  obtain ⟨b1, b2, b3, b4⟩ := h12
  refine ⟨fun p hp => a1 p (b1 p hp), ?_, ?_, ?_⟩
  · intro p hp
    rcases hp with hp | hp
    · obtain ⟨x1, x2⟩ := b2 p (Or.inl hp)
      obtain ⟨y1, y2⟩ := a2 p (Or.inl (b1 p hp))
      exact ⟨x1.trans y1, x2.trans y2⟩
    · have hp1 : p ∉ h1.Clients := fun hx => hp (a1 p hx)
      obtain ⟨x1, x2⟩ := b2 p (Or.inr hp1)
      obtain ⟨y1, y2⟩ := a2 p (Or.inr hp)
      exact ⟨x1.trans y1, x2.trans y2⟩
  · intro p
    exact ⟨(b3 p).1.trans (a3 p).1, (b3 p).2.trans (a3 p).2⟩
  · intro u l2 hl2
    obtain ⟨l1, hl1, s12⟩ := b4 u l2 hl2
    obtain ⟨l, hl, s01⟩ := a4 u l1 hl1
    exact ⟨l, hl, s12.trans s01⟩

theorem Shrinks.to_sound {h h1 : Hub} (hsh : Shrinks h h1) (hs : h.Sound) : h1.Sound :=
  hs.of_shrink
    (fun p hp => ⟨hsh.1 p hp, (hsh.2.1 p (Or.inl hp)).1, (hsh.2.1 p (Or.inl hp)).2⟩)
    hsh.2.2.1 hsh.2.2.2

theorem Shrinks.fresh {h h1 : Hub} (hsh : Shrinks h h1) {p : Ptr} (hp : h.Fresh p) :
    h1.Fresh p := by
  obtain ⟨hpC, hpU, hpS, hpD⟩ := hp
  obtain ⟨x1, x2⟩ := hsh.2.1 p (Or.inr hpC)
  exact ⟨fun hx => hpC (hsh.1 p hx),
    fun hx => hpU (inUserClients_of_lookup_sublist hsh.2.2.2 hx),
    by rw [x1]; exact hpS, by rw [x2]; exact hpD⟩

theorem Shrinks.of_core {h h1 : Hub} (hC : h1.Clients = h.Clients)
    (hM : ∀ p, (h1.mem p).core = (h.mem p).core)
    (hU : ∀ u l1, h1.UserClients.lookup u = some l1 →
      ∃ l, h.UserClients.lookup u = some l ∧ l1.Sublist l) : Shrinks h h1 := by
  have hcore : ∀ p, (h1.mem p).ID = (h.mem p).ID ∧ (h1.mem p).UserID = (h.mem p).UserID ∧
      (h1.mem p).Send.closed = (h.mem p).Send.closed ∧
      (h1.mem p).DoneClosed = (h.mem p).DoneClosed := by
    intro p
    have := hM p
    simp only [Client.core, Prod.mk.injEq] at this
    exact this
  refine ⟨fun p hp => by rw [← hC]; exact hp, fun p _ => ⟨(hcore p).2.2.1, (hcore p).2.2.2⟩,
    fun p => ⟨(hcore p).1, (hcore p).2.1⟩, hU⟩

theorem Evicts.shrinks {s : Ptr} {h h1 : Hub} (he : Evicts s h h1) (hin : s ∈ h.Clients) :
    Shrinks h h1 := by
  refine ⟨fun p hp => ((he.mem_Clients p).mp hp).1, ?_, fun p => ⟨he.ID p, he.UserID p⟩,
    fun u l1 hl1 => he.lookup_sublist hl1⟩
  intro p hp
  have hps : p ≠ s := by
    rcases hp with hp | hp
    · exact ((he.mem_Clients p).mp hp).2
    · exact fun hps => hp (hps ▸ hin)
  rw [he.mem_of_ne hps]
  exact ⟨rfl, rfl⟩

theorem checkHeartbeats_shrinks (now : Int) {h h1 : Hub} (hs : h.Sound)
    (hrun : checkHeartbeats now h = .ok h1) : Shrinks h h1 := by
  obtain ⟨h2, hrun2, -, hP, -⟩ := foldlM_heartbeatOne_sound now (fun hx => Shrinks h hx)
    (fun hx c hx1 _ hcx _ he hP => hP.trans (he.shrinks hcx))
    h.Clients h hs (fun _ hp => Or.inl hp) (Shrinks.refl h)
  have hrun1 : h.Clients.foldlM (heartbeatOne now) h = .ok h1 := hrun
  rw [hrun1] at hrun2
  rw [Except.ok.inj hrun2]
  exact hP

theorem dropFromUserClients_lookup_sublist (h : Hub) (p : Ptr) {u : String} {l1 : List Ptr}
    (hl1 : (h.dropFromUserClients p).UserClients.lookup u = some l1) :
    ∃ l, h.UserClients.lookup u = some l ∧ l1.Sublist l := by
  unfold Hub.dropFromUserClients at hl1
  dsimp only at hl1
  cases hr : removeFirstWithID h.mem (h.mem p).ID (h.userClients (h.mem p).UserID) with
  | none =>
    rw [hr] at hl1
    exact ⟨l1, hl1, List.Sublist.refl l1⟩
  | some rest =>
    rw [hr] at hl1
    dsimp only at hl1
    by_cases hu : u = (h.mem p).UserID
    · subst hu
      rw [Finmap.lookup_insert] at hl1
      have hsub := removeFirstWithID_sublist _ _ _ _ hr
      have hne : (h.userClients (h.mem p).UserID).length ≠ 0 := by
        intro hz
        rw [List.length_eq_zero.mp hz] at hr
        simp [removeFirstWithID] at hr
      refine ⟨_, lookup_of_userClients_ne_nil hne, ?_⟩
      rw [← Option.some.inj hl1]
      exact hsub
    · rw [Finmap.lookup_insert_of_ne _ hu] at hl1
      exact ⟨l1, hl1, List.Sublist.refl l1⟩

theorem lookup_erase_sublist (m : Finmap (fun _ : String => List Ptr)) (v : String)
    {u : String} {l1 : List Ptr} (hl1 : (m.erase v).lookup u = some l1) :
    m.lookup u = some l1 := by
  by_cases hu : u = v
  · subst hu
    rw [Finmap.lookup_erase] at hl1
    exact absurd hl1 (by simp)
  · rw [Finmap.lookup_erase_ne hu] at hl1
    exact hl1

theorem Unregister_shrinks {s : Ptr} {h h1 : Hub} (hu : Unregister s h = .ok h1) :
    Shrinks h h1 := by
  unfold Unregister at hu
  by_cases hin : s ∈ h.Clients
  · rw [if_pos hin] at hu
    cases hcs : (h.deleteClient s).closeSend s with
    | error f => rw [hcs] at hu; cases hu
    | ok hz =>
      rw [hcs] at hu
      dsimp only at hu
      have hzf : hz.Clients = (h.deleteClient s).Clients ∧ hz.UserClients = h.UserClients ∧
          (∀ p, p ≠ s → hz.mem p = h.mem p) ∧ (hz.mem s).ID = (h.mem s).ID ∧
          (hz.mem s).UserID = (h.mem s).UserID := by
        unfold Hub.closeSend at hcs
        split at hcs
        · cases hcs
        · cases hcs
          refine ⟨rfl, rfl, fun p hp => ?_, by simp, by simp⟩
          rw [setClient_mem_of_ne _ _ hp]
          rfl
      obtain ⟨z1, z2, z3, z4, z5⟩ := hzf
      have hdm : (hz.dropFromUserClients s).mem = hz.mem := by
        unfold Hub.dropFromUserClients
        dsimp only
        split <;> rfl
      have hfin : ∀ hy : Hub, hy.Clients = hz.Clients → hy.mem = hz.mem →
          (∀ u l1, hy.UserClients.lookup u = some l1 →
            (hz.dropFromUserClients s).UserClients.lookup u = some l1) → Shrinks h hy := by
        intro hy y1 y2 y3
        refine ⟨?_, ?_, ?_, ?_⟩
        · intro p hp
          rw [y1, z1] at hp
          exact ((mem_deleteClient h s p).mp hp).1
        · intro p hp
          have hps : p ≠ s := by
            rcases hp with hp | hp
            · rw [y1, z1] at hp
              exact ((mem_deleteClient h s p).mp hp).2
            · exact fun hps => hp (hps ▸ hin)
          rw [y2, z3 p hps]
          exact ⟨rfl, rfl⟩
        · intro p
          rw [y2]
          by_cases hps : p = s
          · subst hps; exact ⟨z4, z5⟩
          · rw [z3 p hps]; exact ⟨rfl, rfl⟩
        · intro u l1 hl1
          obtain ⟨l, hl, hsub⟩ := dropFromUserClients_lookup_sublist hz s (y3 u l1 hl1)
          rw [z2] at hl
          exact ⟨l, hl, hsub⟩
      split at hu
      · cases hu
        exact hfin _ (dropFromUserClients_Clients hz s) hdm
          (fun u l1 hl1 => lookup_erase_sublist _ _ hl1)
      · cases hu
        exact hfin _ (dropFromUserClients_Clients hz s) hdm (fun u l1 hl1 => hl1)
  · rw [if_neg hin] at hu
    cases hu
    exact Shrinks.refl h

/-- One turn of the loop of the `Broadcast` case on a client that is registered or
already closed. -/
theorem broadcastOne_shrinks {message : Bytes} {h h1 : Hub} {c : Ptr}
    (hb : broadcastOne message h c = .ok h1)
    (hc : c ∈ h.Clients ∨ (h.mem c).Send.closed = true) :
    Shrinks h h1 ∧
      ∀ p, (p ∈ h.Clients ∨ (h.mem p).Send.closed = true) →
        (p ∈ h1.Clients ∨ (h1.mem p).Send.closed = true) := by
  unfold broadcastOne at hb
  cases hclosed : (h.mem c).Send.closed with
  | true =>
    simp [Chan.trySend, hclosed] at hb
  | false =>
    have hin : c ∈ h.Clients := by
      rcases hc with hc | hc
      · exact hc
      · rw [hclosed] at hc; exact absurd hc (by simp)
    by_cases hroom : (h.mem c).Send.buf.length < (h.mem c).Send.cap
    · simp only [Chan.trySend, hclosed, hroom, Bool.false_eq_true, if_false, if_true] at hb
      cases hb
      constructor
      · refine Shrinks.of_core ?_ ?_ ?_
        · rfl
        · intro p
          by_cases hp : p = c
          · subst hp; simp [Client.core, hclosed]
          · rw [setClient_mem_of_ne _ _ hp]
        · intro u l1 hl1
          exact ⟨l1, hl1, List.Sublist.refl l1⟩
      · intro p hp
        rcases hp with hp | hp
        · exact Or.inl hp
        · right
          by_cases hpc : p = c
          · subst hpc; rw [hclosed] at hp; exact absurd hp (by simp)
          · rw [setClient_mem_of_ne _ _ hpc]; exact hp
    · simp only [Chan.trySend, hclosed, hroom, Bool.false_eq_true, if_false] at hb
      rw [closeSend_ok hclosed] at hb
      cases hb
      have hmem : ∀ p, (((h.setClient c (h.mem c).sendClosed).deleteClient c).mem p) =
          (h.setClient c (h.mem c).sendClosed).mem p := fun _ => rfl
      constructor
      · refine ⟨?_, ?_, ?_, ?_⟩
        · intro p hp
          exact ((mem_deleteClient _ c p).mp hp).1
        · intro p hp
          have hpc : p ≠ c := by
            rcases hp with hp | hp
            · exact ((mem_deleteClient _ c p).mp hp).2
            · exact fun hpc => hp (hpc ▸ hin)
          rw [hmem, setClient_mem_of_ne _ _ hpc]
          exact ⟨rfl, rfl⟩
        · intro p
          rw [hmem]
          by_cases hpc : p = c
          · subst hpc; simp [Client.sendClosed]
          · rw [setClient_mem_of_ne _ _ hpc]; exact ⟨rfl, rfl⟩
        · intro u l1 hl1
          exact ⟨l1, hl1, List.Sublist.refl l1⟩
      · intro p hp
        by_cases hpc : p = c
        · subst hpc
          right
          show ((h.setClient p (h.mem p).sendClosed).mem p).Send.closed = true
          simp [Client.sendClosed]
        · rcases hp with hp | hp
          · left
            exact (mem_deleteClient _ c p).mpr ⟨hp, hpc⟩
          · right
            show ((h.setClient c (h.mem c).sendClosed).mem p).Send.closed = true
            rw [setClient_mem_of_ne _ _ hpc]; exact hp

theorem pingOne_shrinks {h h1 : Hub} {c : Ptr} (hb : pingOne h c = .ok h1)
    (hc : c ∈ h.Clients ∨ (h.mem c).Send.closed = true) :
    Shrinks h h1 ∧
      ∀ p, (p ∈ h.Clients ∨ (h.mem p).Send.closed = true) →
        (p ∈ h1.Clients ∨ (h1.mem p).Send.closed = true) := by
  unfold pingOne at hb
  split at hb
  · exact broadcastOne_shrinks hb hc
  · cases hb
    exact ⟨Shrinks.refl h, fun _ hp => hp⟩

/-- A loop over clients whose every turn shrinks the hub shrinks the hub. -/
theorem foldlM_shrinks (f : Hub → Ptr → Except Fault Hub)
    (hf : ∀ (h : Hub) (c : Ptr) (h1 : Hub), f h c = .ok h1 →
      (c ∈ h.Clients ∨ (h.mem c).Send.closed = true) →
      Shrinks h h1 ∧ ∀ p, (p ∈ h.Clients ∨ (h.mem p).Send.closed = true) →
        (p ∈ h1.Clients ∨ (h1.mem p).Send.closed = true)) :
    ∀ (l : List Ptr) (h h1 : Hub), l.foldlM f h = .ok h1 →
      (∀ p ∈ l, p ∈ h.Clients ∨ (h.mem p).Send.closed = true) → Shrinks h h1 := by
  intro l
  induction l with
  | nil =>
    intro h h1 hrun _
    cases hrun
    exact Shrinks.refl h
  | cons c rest ih =>
    intro h h1 hrun hl
    rw [List.foldlM_cons] at hrun
    cases hfc : f h c with
    | error e => rw [hfc] at hrun; cases hrun
    | ok hx =>
      rw [hfc] at hrun
      obtain ⟨hsh, hkeep⟩ := hf h c hx hfc (hl c (by simp))
      exact hsh.trans (ih hx h1 hrun (fun p hp => hkeep p (hl p (by simp [hp]))))

theorem Broadcast_shrinks {message : Bytes} {h h1 : Hub} (hb : Broadcast message h = .ok h1) :
    Shrinks h h1 :=
  foldlM_shrinks (broadcastOne message) (fun _ _ _ hx hc => broadcastOne_shrinks hx hc)
    h.Clients h h1 hb (fun _ hp => Or.inl hp)

theorem sendPing_shrinks {h h1 : Hub} (hb : sendPingToAllClients h = .ok h1) : Shrinks h h1 :=
  foldlM_shrinks pingOne (fun _ _ _ hx hc => pingOne_shrinks hx hc)
    h.Clients h h1 hb (fun _ hp => Or.inl hp)

theorem handlePing_shrinks {now : Int} {c : Ptr} {h h1 : Hub}
    (hp : handlePing now c h = .ok h1) : Shrinks h h1 := by
  unfold handlePing at hp
  dsimp only at hp
  simp only [setClient_mem_self] at hp
  cases hs : (h.mem c).Send.send pongMessage with
  | error f => rw [hs] at hp; cases hp
  | ok s =>
    rw [hs] at hp
    cases hp
    have hcl : s.closed = (h.mem c).Send.closed := by
      unfold Chan.send at hs
      split at hs
      · cases hs
      · split at hs
        · cases hs; rfl
        · cases hs
    refine Shrinks.of_core ?_ ?_ ?_
    · rfl
    · intro p
      by_cases hpc : p = c
      · subst hpc; simp [Client.core, hcl]
      · rw [setClient_mem_of_ne _ _ hpc, setClient_mem_of_ne _ _ hpc]
    · intro u l1 hl1
      exact ⟨l1, hl1, List.Sublist.refl l1⟩

theorem userAway_shrinks (c : Ptr) (h : Hub) : Shrinks h (userAway c h) := by
  refine Shrinks.of_core (userAway_maps c h).1 ?_ ?_
  · intro p
    unfold userAway
    dsimp only
    split
    · by_cases hpc : p = c
      · subst hpc; simp [Client.core]
      · rw [setClient_mem_of_ne _ _ hpc]
    · show ((h.setClient c { h.mem c with IsActive := false }).mem p).core = _
      by_cases hpc : p = c
      · subst hpc; simp [Client.core]
      · rw [setClient_mem_of_ne _ _ hpc]
  · intro u l1 hl1
    rw [(userAway_maps c h).2] at hl1
    exact ⟨l1, hl1, List.Sublist.refl l1⟩

theorem userActive_shrinks (c : Ptr) (h : Hub) : Shrinks h (userActive c h) := by
  refine Shrinks.of_core (userActive_maps c h).1 ?_ ?_
  · intro p
    rw [userActive_mem]
    by_cases hpc : p = c
    · subst hpc; simp [Client.core]
    · rw [if_neg hpc]
      split
      · simp [Client.core, Client.deactivated]
      · rfl
  · intro u l1 hl1
    rw [(userActive_maps c h).2] at hl1
    cases hl : h.UserClients.lookup (h.mem c).UserID with
    | none =>
      rw [hl] at hl1
      exact ⟨l1, hl1, List.Sublist.refl l1⟩
    | some l0 =>
      rw [hl] at hl1
      dsimp only at hl1
      by_cases hu : u = (h.mem c).UserID
      · subst hu
        rw [Finmap.lookup_insert] at hl1
        refine ⟨l0, hl, ?_⟩
        rw [← Option.some.inj hl1]
        exact List.filter_sublist _
      · rw [Finmap.lookup_insert_of_ne _ hu] at hl1
        exact ⟨l1, hl1, List.Sublist.refl l1⟩

theorem foldl_deactivate_core : ∀ (l : List Ptr) (h : Hub) (p : Ptr),
    ((l.foldl Hub.deactivate h).mem p).core = (h.mem p).core := by
  intro l
  induction l with
  | nil => intro h p; rfl
  | cons o rest ih =>
    intro h p
    rw [List.foldl_cons, ih, deactivate_mem]
    split
    · rename_i hx
      rw [hx.1]
      simp [Client.core, Client.deactivated]
    · rfl

theorem runGo_shrinks (call : GoCall) (h : Hub) : Shrinks h (runGo call h) := by
  cases call with
  | SetUserOnline u =>
    obtain ⟨m1, m2, m3⟩ := SetUserOnline_maps u h
    refine Shrinks.of_core m1 ?_ ?_
    · intro p
      show ((SetUserOnline u h).mem p).core = _
      rw [m3]
    · intro v l1 hl1
      have hl2 : (SetUserOnline u h).UserClients.lookup v = some l1 := hl1
      rw [m2] at hl2
      exact ⟨l1, hl2, List.Sublist.refl l1⟩
  | SetUserOffline u =>
    obtain ⟨m1, m2⟩ := SetUserOffline_maps u h
    refine Shrinks.of_core m1 ?_ ?_
    · intro p
      show ((SetUserOffline u h).mem p).core = _
      unfold SetUserOffline
      cases hl : h.UserClients.lookup u with
      | none =>
        dsimp only
        split <;> rfl
      | some l =>
        dsimp only
        split
        · exact foldl_deactivate_core l h p
        · exact foldl_deactivate_core l h p
    · intro v l1 hl1
      have hl2 : (SetUserOffline u h).UserClients.lookup v = some l1 := hl1
      rw [m2] at hl2
      exact ⟨l1, lookup_erase_sublist _ _ hl2, List.Sublist.refl l1⟩

/-- When the loop of `Register` over distinct clients returns, the queue of each of them
was open. -/
theorem closeExisting_ok_open : ∀ (l : List Ptr) (h hz : Hub),
    closeExisting l h = .ok hz → l.Nodup → ∀ p ∈ l, (h.mem p).Send.closed = false := by
  intro l
  induction l with
  | nil => intro h hz _ _ p hp; simp at hp
  | cons e rest ih =>
    intro h hz hce hnd p hp
    have hnd1 := List.nodup_cons.mp hnd
    unfold closeExisting at hce
    cases hopen : (h.mem e).Send.closed with
    | true =>
      have hx : ((h.deleteClient e).mem e).Send.closed = true := hopen
      rw [closeSend_error hx] at hce
      cases hce
    | false =>
      have hx : ((h.deleteClient e).mem e).Send.closed = false := hopen
      rw [closeSend_ok hx] at hce
      dsimp only at hce
      rcases List.mem_cons.mp hp with hpe | hpr
      · rw [hpe]; exact hopen
      · have hpe : p ≠ e := fun hpe => hnd1.1 (hpe ▸ hpr)
        have := ih _ hz hce hnd1.2 p hpr
        rw [connClose_mem_of_ne _ hpe, setClient_mem_of_ne _ _ hpe] at this
        exact this

theorem mem_userClients {h : Hub} {u : String} {p : Ptr} (hp : p ∈ h.userClients u) :
    h.UserClients.lookup u = some (h.userClients u) := by
  unfold Hub.userClients at hp ⊢
  cases hl : h.UserClients.lookup u with
  | none => rw [hl] at hp; simp at hp
  | some l => rfl

/-- The case `Register` keeps a sound hub sound when it is handed a client that the
handler has just built, and it leaves the other such clients as they are. -/
theorem Register_sound {c : Ptr} {h h1 : Hub} (hs : h.Sound) (hc : h.Fresh c)
    (hreg : Register c h = .ok h1) :
    h1.Sound ∧ ∀ p, p ≠ c → h.Fresh p → h1.Fresh p := by
  have hentry : ∀ p, p ∈ h.userClients (h.mem c).UserID →
      InUserClients h p ∧ (h.mem p).UserID = (h.mem c).UserID := by
    intro p hp
    have hl := mem_userClients hp
    exact ⟨⟨_, _, hl, hp⟩, ((hs.2 _ _ hl).2 p hp).1⟩
  have hnd : (h.userClients (h.mem c).UserID).Nodup := by
    cases hl : h.UserClients.lookup (h.mem c).UserID with
    | none => simp [Hub.userClients, hl]
    | some l =>
      have : h.userClients (h.mem c).UserID = l := by simp [Hub.userClients, hl]
      rw [this]
      exact (hs.2 _ _ hl).1
  have hopen : ∀ p ∈ h.userClients (h.mem c).UserID, (h.mem p).Send.closed = false := by
    intro p hp
    have hl := mem_userClients hp
    unfold Register at hreg
    dsimp only at hreg
    rw [hl] at hreg
    dsimp only at hreg
    cases hce : closeExisting (h.userClients (h.mem c).UserID) h with
    | error f => rw [hce] at hreg; cases hreg
    | ok hz => exact closeExisting_ok_open _ h hz hce hnd p hp
  obtain ⟨h2, hr, hU, hC, -, -, -, -, hout, -⟩ := Register_spec c h hnd hopen
  rw [hr] at hreg
  cases hreg
  have hcl : c ∉ h.userClients (h.mem c).UserID := fun hx => hc.2.1 (hentry c hx).1
  refine ⟨⟨?_, ?_⟩, ?_⟩
  · intro p hp
    rcases (hC p).mp hp with hpc | ⟨hpC, hpl⟩
    · rw [hpc, hout c hcl]
      exact ⟨hc.2.2.1, hc.2.2.2⟩
    · rw [hout p hpl]
      exact hs.1 p hpC
  · intro v l hl
    rw [hU] at hl
    by_cases hv : v = (h.mem c).UserID
    · rw [hv, Finmap.lookup_insert] at hl
      cases hl
      refine ⟨List.nodup_singleton c, ?_⟩
      intro p hp
      rw [List.mem_singleton.mp hp, hout c hcl]
      refine ⟨hv.symm, ?_⟩
      intro q hq _
      exact List.mem_singleton.mp hq
    · rw [Finmap.lookup_insert_of_ne _ hv] at hl
      obtain ⟨hnd0, hmem0⟩ := hs.2 v l hl
      have hsame : ∀ p ∈ l, h1.mem p = h.mem p := by
        intro p hp
        apply hout
        intro hx
        exact hv ((hmem0 p hp).1.symm.trans (hentry p hx).2)
      refine ⟨hnd0, ?_⟩
      intro p hp
      rw [hsame p hp]
      refine ⟨(hmem0 p hp).1, ?_⟩
      intro q hq
      rw [hsame q hq]
      exact (hmem0 p hp).2 q hq
  · intro p hpc hp
    have hpl : p ∉ h.userClients (h.mem c).UserID := fun hx => hp.2.1 (hentry p hx).1
    refine ⟨?_, ?_, ?_, ?_⟩
    · intro hx
      rcases (hC p).mp hx with hx | ⟨hx, -⟩
      · exact hpc hx
      · exact hp.1 hx
    · rintro ⟨v, l, hl, hpin⟩
      rw [hU] at hl
      by_cases hv : v = (h.mem c).UserID
      · rw [hv, Finmap.lookup_insert] at hl
        cases hl
        exact hpc (List.mem_singleton.mp hpin)
      · rw [Finmap.lookup_insert_of_ne _ hv] at hl
        exact hp.2.1 ⟨v, l, hl, hpin⟩
    · rw [hout p hpl]; exact hp.2.2.1
    · rw [hout p hpl]; exact hp.2.2.2

/-- Every event of the hub other than `Register` shrinks a sound hub. -/
theorem step_shrinks {e : Event} {h h1 : Hub} (hs : h.Sound) (hstep : step h e = .ok h1)
    (he : registered [e] = []) : Shrinks h h1 := by
  cases e with
  | Register c => simp [registered] at he
  | Unregister c => exact Unregister_shrinks hstep
  | Broadcast m => exact Broadcast_shrinks hstep
  | heartbeatTick now => exact checkHeartbeats_shrinks now hs hstep
  | pingTick => exact sendPing_shrinks hstep
  | ping now c => exact handlePing_shrinks hstep
  | userAway c =>
    simp only [step, Except.ok.injEq] at hstep
    rw [← hstep]; exact userAway_shrinks c h
  | userActive c =>
    simp only [step, Except.ok.injEq] at hstep
    rw [← hstep]; exact userActive_shrinks c h
  | go call =>
    simp only [step, Except.ok.injEq] at hstep
    rw [← hstep]; exact runGo_shrinks call h

/-- Soundness is an invariant of the hub: it holds after every sequence of events that
the hub survives, provided each client handed to `Register` is handed over once and was
built by the handler (it is in neither map and its channels are open). -/
theorem sound_run : ∀ (events : List Event) (h h1 : Hub), h.Sound →
    (registered events).Nodup → (∀ p ∈ registered events, h.Fresh p) →
    run events h = .ok h1 → h1.Sound := by
  intro events
  induction events with
  | nil =>
    intro h h1 hs _ _ hrun
    cases hrun
    exact hs
  | cons e rest ih =>
    intro h h1 hs hnd hfresh hrun
    rw [run_cons] at hrun
    cases hstep : step h e with
    | error f => rw [hstep] at hrun; cases hrun
    | ok hx =>
      rw [hstep] at hrun
      dsimp only at hrun
      by_cases hreg : ∃ c, e = Event.Register c
      · obtain ⟨c, rfl⟩ := hreg
        have hnd1 : c ∉ registered rest ∧ (registered rest).Nodup := List.nodup_cons.mp hnd
        obtain ⟨hsx, hfx⟩ := Register_sound hs (hfresh c (by simp [registered])) hstep
        refine ih hx h1 hsx hnd1.2 ?_ hrun
        intro p hp
        exact hfx p (fun hpc => hnd1.1 (hpc ▸ hp)) (hfresh p (by simp [registered, hp]))
      · have he : registered [e] = [] := by
          cases e with
          | Register c => exact absurd ⟨c, rfl⟩ hreg
          | _ => rfl
        have hrest : registered (e :: rest) = registered rest := by
          cases e with
          | Register c => exact absurd ⟨c, rfl⟩ hreg
          | _ => rfl
        rw [hrest] at hnd hfresh
        have hsh := step_shrinks hs hstep he
        exact ih hx h1 (hsh.to_sound hs) hnd (fun p hp => hsh.fresh (hfresh p hp)) hrun

/-- The hub of `NewHub` is sound and every client with open channels is fresh in it. -/
theorem NewHub_sound (mem : Ptr → Client) : (NewHub mem).Sound := by
  refine ⟨fun p hp => ?_, fun u l hl => ?_⟩
  · simp [NewHub] at hp
  · simp [NewHub] at hl

theorem NewHub_fresh (mem : Ptr → Client) (p : Ptr) (hsend : (mem p).Send.closed = false)
    (hdone : (mem p).DoneClosed = false) : (NewHub mem).Fresh p := by
  refine ⟨by simp [NewHub], ?_, hsend, hdone⟩
  rintro ⟨u, l, hl, -⟩
  simp [NewHub] at hl

/-! ## Soundness under the steps of the handler -/

theorem presenceCheck_sound {statusService : Bool} {userID : String} {h : Hub}
    (hs : h.Sound) : (presenceCheck statusService userID h).Sound := by
  unfold presenceCheck
  split
  · exact hs
  · exact hs

theorem presenceCheck_fresh {statusService : Bool} {userID : String} {h : Hub} {p : Ptr}
    (hp : h.Fresh p) : (presenceCheck statusService userID h).Fresh p := by
  unfold presenceCheck
  split
  · exact hp
  · exact hp

theorem doneWatcher_sound {statusService : Bool} {userID : String} {h : Hub}
    (hs : h.Sound) : (doneWatcher statusService userID h).Sound := by
  unfold doneWatcher
  split
  · exact hs
  · exact hs

theorem CloseClientWithID_shrinks (clientID : String) (h : Hub) :
    Shrinks h (CloseClientWithID clientID h) := by
  unfold CloseClientWithID
  split
  · rename_i c _
    refine Shrinks.of_core ?_ ?_ ?_
    · rfl
    · intro p
      by_cases hpc : p = c
      · subst hpc; simp [Client.core, Hub.connClose]
      · rw [connClose_mem_of_ne _ hpc, setClient_mem_of_ne _ _ hpc]
    · intro u l1 hl1
      exact ⟨l1, hl1, List.Sublist.refl l1⟩
  · exact Shrinks.refl h

/-- The handler keeps a sound hub sound when it allocates the new client at an address
that is in neither map, whichever side takes the lock first. -/
theorem HandleConnection_sound {schedule : Schedule} {statusService : Bool}
    {userID tabID : String} {now : Int} {client : Ptr} {h h1 : Hub} (hs : h.Sound)
    (hnew : client ∉ h.Clients) (hnot : ¬ InUserClients h client)
    (hrun : HandleConnection schedule statusService userID tabID now client h = .ok h1) :
    h1.Sound := by
  unfold HandleConnection at hrun
  dsimp only at hrun
  generalize hh1 : (if HasClientWithID (userID ++ ":" ++ tabID) h = true then
      CloseClientWithID (userID ++ ":" ++ tabID) h else h) = hx at hrun
  have hsh : Shrinks h hx := by
    rw [← hh1]
    split
    · exact CloseClientWithID_shrinks _ h
    · exact Shrinks.refl h
  have hsx : hx.Sound := hsh.to_sound hs
  have hnewx : client ∉ hx.Clients := fun hc => hnew (hsh.1 client hc)
  have hnotx : ¬ InUserClients hx client :=
    fun hc => hnot (inUserClients_of_lookup_sublist hsh.2.2.2 hc)
  have hs2 : (hx.setClient client (newClient userID tabID now)).Sound := by
    refine ⟨?_, ?_⟩
    · intro p hp
      have hpc : p ≠ client := fun hpc => hnewx (hpc ▸ hp)
      rw [setClient_mem_of_ne _ _ hpc]
      exact hsx.1 p hp
    · intro u l hl
      obtain ⟨hnd, hall⟩ := hsx.2 u l hl
      have hne : ∀ p ∈ l, p ≠ client := fun p hp hpc => hnotx ⟨u, l, hl, hpc ▸ hp⟩
      refine ⟨hnd, ?_⟩
      intro p hp
      rw [setClient_mem_of_ne _ _ (hne p hp)]
      refine ⟨(hall p hp).1, ?_⟩
      intro q hq
      rw [setClient_mem_of_ne _ _ (hne q hq)]
      exact (hall p hp).2 q hq
  have hf2 : (hx.setClient client (newClient userID tabID now)).Fresh client := by
    refine ⟨hnewx, hnotx, ?_, ?_⟩
    · rw [setClient_mem_self]; rfl
    · rw [setClient_mem_self]; rfl
  cases schedule with
  | hubFirst =>
    dsimp only at hrun
    cases hreg : Register client (hx.setClient client (newClient userID tabID now)) with
    | error f => rw [hreg] at hrun; cases hrun
    | ok h3 =>
      rw [hreg] at hrun
      cases hrun
      exact presenceCheck_sound (Register_sound hs2 hf2 hreg).1
  | handlerFirst =>
    dsimp only at hrun
    exact (Register_sound (presenceCheck_sound hs2) (presenceCheck_fresh hf2) hrun).1

/-- A disconnect keeps a sound hub sound, whichever side takes the lock first. -/
theorem disconnect_sound {schedule : Schedule} {statusService : Bool} {c : Ptr}
    {h h1 : Hub} (hs : h.Sound) (hrun : disconnect schedule statusService c h = .ok h1) :
    h1.Sound := by
  have hclose : ∀ (hx hy : Hub), (hx.connClose c).closeDone c = .ok hy →
      hy.Clients = hx.Clients ∧ hy.UserClients = hx.UserClients ∧
      (∀ p, (hy.mem p).ID = (hx.mem p).ID ∧ (hy.mem p).UserID = (hx.mem p).UserID) ∧
      (∀ p, p ≠ c → hy.mem p = hx.mem p) := by
    intro hx hy hcd
    unfold Hub.closeDone at hcd
    split at hcd
    · cases hcd
    · cases hcd
      refine ⟨rfl, rfl, ?_, ?_⟩
      · intro p
        by_cases hpc : p = c
        · subst hpc; simp [Hub.connClose]
        · rw [setClient_mem_of_ne _ _ hpc, connClose_mem_of_ne _ hpc]
          exact ⟨rfl, rfl⟩
      · intro p hpc
        rw [setClient_mem_of_ne _ _ hpc, connClose_mem_of_ne _ hpc]
  unfold disconnect at hrun
  cases schedule with
  | hubFirst =>
    dsimp only at hrun
    cases hexit : readPumpExit c h with
    | error f => rw [hexit] at hrun; cases hrun
    | ok hx =>
      rw [hexit] at hrun
      cases hrun
      apply doneWatcher_sound
      unfold readPumpExit at hexit
      cases hu : Unregister c h with
      | error f => rw [hu] at hexit; cases hexit
      | ok h0 =>
        rw [hu] at hexit
        dsimp only at hexit
        have hs0 : h0.Sound := (Unregister_shrinks hu).to_sound hs
        have hc0 : c ∉ h0.Clients := Unregister_not_mem hu
        obtain ⟨e1, e2, e3, e4⟩ := hclose h0 hx hexit
        apply hs0.of_shrink
        · intro p hp
          rw [e1] at hp
          have hpc : p ≠ c := fun hpc => hc0 (hpc ▸ hp)
          rw [e4 p hpc]
          exact ⟨hp, rfl, rfl⟩
        · exact e3
        · intro u l1 hl1
          rw [e2] at hl1
          exact ⟨l1, hl1, List.Sublist.refl l1⟩
  | handlerFirst =>
    dsimp only at hrun
    cases hcd : (h.connClose c).closeDone c with
    | error f => rw [hcd] at hrun; cases hrun
    | ok hx =>
      rw [hcd] at hrun
      dsimp only at hrun
      obtain ⟨e1, e2, e3, e4⟩ := hclose h hx hcd
      have hw : ∀ (hy : Hub), (doneWatcher statusService (h.mem c).UserID hy).Clients
          = hy.Clients ∧
          (doneWatcher statusService (h.mem c).UserID hy).UserClients = hy.UserClients ∧
          (doneWatcher statusService (h.mem c).UserID hy).mem = hy.mem := by
        intro hy
        unfold doneWatcher
        split
        · exact ⟨rfl, rfl, rfl⟩
        · exact ⟨rfl, rfl, rfl⟩
      obtain ⟨w1, w2, w3⟩ := hw hx
      have hsh := Unregister_shrinks hrun
      have hc1 : c ∉ h1.Clients := Unregister_not_mem hrun
      apply hs.of_shrink
      · intro p hp
        have hpc : p ≠ c := fun hpc => hc1 (hpc ▸ hp)
        have hpw := hsh.1 p hp
        obtain ⟨x1, x2⟩ := hsh.2.1 p (Or.inl hp)
        rw [w3, e4 p hpc] at x1 x2
        rw [w1, e1] at hpw
        exact ⟨hpw, x1, x2⟩
      · intro p
        obtain ⟨x1, x2⟩ := hsh.2.2.1 p
        rw [w3] at x1 x2
        exact ⟨x1.trans (e3 p).1, x2.trans (e3 p).2⟩
      · intro u l1 hl1
        obtain ⟨l, hl, hsub⟩ := hsh.2.2.2 u l1 hl1
        rw [w2, e2] at hl
        exact ⟨l, hl, hsub⟩

theorem abMem_open (p : Ptr) :
    (abMem p).Send.closed = false ∧ (abMem p).DoneClosed = false := by
  unfold abMem
  split <;> exact ⟨rfl, rfl⟩

theorem SetStatusUpdater_sound {h : Hub} (hs : h.Sound) : h.SetStatusUpdater.Sound := hs

theorem SetStatusUpdater_fresh {h : Hub} {p : Ptr} (hp : h.Fresh p) :
    h.SetStatusUpdater.Fresh p := hp

/-! ## The heartbeat sweep on the hubs that the hub loop reaches -/

/-- C14 as amended (heartbeat eviction).  Let the hub be sound: every registered session
has its `Send` queue and its `Done` channel open, and every entry of `UserClients` holds
distinct sessions of its user with distinct IDs.  Every hub that the events of the hub
loop reach from the empty hub is sound (`sound_run`), and the connects and disconnects of
the handler keep a hub sound (`HandleConnection_sound`, `disconnect_sound`).  Then
`checkHeartbeats` at time `now` does not fault.  Every registered session whose
`IsActive` flag is true and whose `now - LastPingTime` exceeds the heartbeat timeout is
afterwards absent from `Clients` and from every entry of `UserClients`, and its `Send`
queue is closed.  A registered session whose `IsActive` flag is false is not evicted,
however stale: it stays in `Clients` and its client object is unchanged; and if it was in
an entry of `UserClients` it is still in one, provided no session of its user that the
sweep evicts carries its ID. -/
theorem heartbeat_evicts_active_stale (now : Int) (h : Hub) (hs : h.Sound) :
    ∃ h1, checkHeartbeats now h = .ok h1 ∧
      (∀ s ∈ h.Clients, (h.mem s).IsActive = true →
        now - (h.mem s).LastPingTime > h.heartbeatTimeout →
        s ∉ h1.Clients ∧ ¬ InUserClients h1 s ∧ (h1.mem s).Send.closed = true) ∧
      (∀ s ∈ h.Clients, (h.mem s).IsActive = false →
        s ∈ h1.Clients ∧ h1.mem s = h.mem s) ∧
      (∀ s ∈ h.Clients, (h.mem s).IsActive = false → InUserClients h s →
        (∀ p ∈ h.Clients, (h.mem p).UserID = (h.mem s).UserID →
          (h.mem p).IsActive = true → now - (h.mem p).LastPingTime > h.heartbeatTimeout →
          (h.mem p).ID ≠ (h.mem s).ID) →
        InUserClients h1 s) := by
  obtain ⟨h1, hrun, -, -, -, -, hev, hkeep, -⟩ := checkHeartbeats_sound_spec now h hs
  refine ⟨h1, hrun, ?_, ?_, ?_⟩
  · intro s hsC ha hst
    obtain ⟨x1, x2, x3⟩ := hev s hsC ⟨ha, hst⟩
    refine ⟨x1, x2, ?_⟩
    rw [x3]
    rfl
  · intro s hsC ha
    exact hkeep s hsC (fun hx => by rw [hx.1] at ha; exact absurd ha (by simp))
  · intro s _ ha hin hdiff
    obtain ⟨u, l, hl, hsl⟩ := hin
    have hu : (h.mem s).UserID = u := ((hs.2 u l hl).2 s hsl).1
    have hul : h.userClients u = l := by simp [Hub.userClients, hl]
    obtain ⟨h2, hrun2, hin2, -⟩ := checkHeartbeats_no_offline_of_kept now h hs u s
      (by rw [hul]; exact hsl)
      (fun hx => by rw [hx.1] at ha; exact absurd ha (by simp))
      (fun p hp hpu hpe => hdiff p hp (hpu.trans hu.symm) hpe.1 hpe.2)
    have h12 : h2 = h1 := by
      rw [hrun] at hrun2
      exact (Except.ok.inj hrun2).symm
    rw [h12] at hin2
    exact ⟨u, _, mem_userClients hin2, hin2⟩

theorem heartbeat_evicts_active_stale_witness :
    ∃ h, run awayThenOtherUser (NewHub abMem) = .ok h ∧
      h.Clients = [1, 0] ∧ h.UserClients.lookup "A" = some [0] ∧
      h.UserClients.lookup "B" = none ∧
      (h.mem 0).IsActive = true ∧ (h.mem 1).IsActive = false ∧
      ∃ h1, checkHeartbeats 121000000000 h = .ok h1 ∧
        0 ∉ h1.Clients ∧ ¬ InUserClients h1 0 ∧ (h1.mem 0).Send.closed = true ∧
        1 ∈ h1.Clients ∧ h1.mem 1 = h.mem 1 := by
  obtain ⟨h, hrun, hC, hA, hB, ha0, ha1, hp0, hT⟩ :
      ∃ h, run awayThenOtherUser (NewHub abMem) = .ok h ∧
        h.Clients = [1, 0] ∧ h.UserClients.lookup "A" = some [0] ∧
        h.UserClients.lookup "B" = none ∧
        (h.mem 0).IsActive = true ∧ (h.mem 1).IsActive = false ∧
        (h.mem 0).LastPingTime = 0 ∧ h.heartbeatTimeout = 120000000000 :=
    ⟨_, rfl, rfl, rfl, rfl, rfl, rfl, rfl, rfl⟩
  have hs : h.Sound := sound_run awayThenOtherUser (NewHub abMem) h (NewHub_sound abMem)
    (by decide) (fun p _ => NewHub_fresh abMem p (abMem_open p).1 (abMem_open p).2) hrun
  obtain ⟨h1, hrun1, hev, hkeep, -⟩ := heartbeat_evicts_active_stale 121000000000 h hs
  have h0 := hev 0 (by rw [hC]; simp) ha0 (by rw [hp0, hT]; decide)
  have h1x := hkeep 1 (by rw [hC]; simp) ha1
  exact ⟨h, hrun, hC, hA, hB, ha0, ha1, h1, hrun1, h0.1, h0.2.1, h0.2.2, h1x.1, h1x.2⟩

/-- C15 as amended (heartbeat presence).  Let the hub be sound, as every hub is that the
events of the hub loop reach from the empty hub (`sound_run`).  Then `checkHeartbeats`
at time `now` does not fault and itself makes no call of the status updater.
(1) If `s` is registered and is the only session of its user's entry, its `IsActive` flag
is true and `now - LastPingTime` exceeds the heartbeat timeout, and the sweep evicts no
other registered session of the user of `s`, then `s` is evicted and the sweep starts
exactly one `SetUserOffline` goroutine for the user of `s`; the run of that goroutine
calls the offline operation of the status updater once when a status updater is set.
(2) For a user whose entry holds a session `o` that the sweep does not evict (inactive,
or not stale), the sweep keeps `o` in the entry and starts no `SetUserOffline` goroutine,
provided no session of that user that the sweep evicts carries the ID of `o`.
(3) A registered session whose `IsActive` flag is false is not evicted, however stale: it
stays in `Clients` with its client object unchanged.
(4) For a user none of whose registered sessions the sweep evicts, it starts no
`SetUserOffline` goroutine. -/
theorem heartbeat_offline_presence (now : Int) (h : Hub) (hs : h.Sound) :
    ∃ h1, checkHeartbeats now h = .ok h1 ∧ h1.statusCalls = h.statusCalls ∧
      (∀ s ∈ h.Clients, h.userClients (h.mem s).UserID = [s] →
        (∀ p ∈ h.Clients, (h.mem p).UserID = (h.mem s).UserID →
          (h.mem p).IsActive = true → now - (h.mem p).LastPingTime > h.heartbeatTimeout →
          p = s) →
        (h.mem s).IsActive = true →
        now - (h.mem s).LastPingTime > h.heartbeatTimeout →
        s ∉ h1.Clients ∧
        h1.spawned.count (GoCall.SetUserOffline (h.mem s).UserID)
          = h.spawned.count (GoCall.SetUserOffline (h.mem s).UserID) + 1 ∧
        (runGo (GoCall.SetUserOffline (h.mem s).UserID) h1).statusCalls =
          if h.hasStatusUpdater = true then
            h.statusCalls ++ [StatusCall.SetUserOffline (h.mem s).UserID]
          else h.statusCalls) ∧
      (∀ u o, o ∈ h.userClients u →
        ¬ ((h.mem o).IsActive = true ∧ now - (h.mem o).LastPingTime > h.heartbeatTimeout) →
        (∀ p ∈ h.Clients, (h.mem p).UserID = u →
          (h.mem p).IsActive = true → now - (h.mem p).LastPingTime > h.heartbeatTimeout →
          (h.mem p).ID ≠ (h.mem o).ID) →
        o ∈ h1.userClients u ∧
        h1.spawned.count (GoCall.SetUserOffline u)
          = h.spawned.count (GoCall.SetUserOffline u)) ∧
      (∀ s ∈ h.Clients, (h.mem s).IsActive = false →
        s ∈ h1.Clients ∧ h1.mem s = h.mem s) ∧
      (∀ u, (∀ p ∈ h.Clients, (h.mem p).UserID = u →
          ¬ ((h.mem p).IsActive = true ∧
            now - (h.mem p).LastPingTime > h.heartbeatTimeout)) →
        h1.spawned.count (GoCall.SetUserOffline u)
          = h.spawned.count (GoCall.SetUserOffline u)) := by
  obtain ⟨h1, hrun, -, hS, hU, -, hev, hkeep, -⟩ := checkHeartbeats_sound_spec now h hs
  refine ⟨h1, hrun, hS, ?_, ?_, ?_, ?_⟩
  · intro s hsC honly hsole ha hst
    obtain ⟨h2, hrun2, hcnt⟩ := checkHeartbeats_one_offline_of_only_session now h hs s hsC
      honly (fun p hp hpu hpe => hsole p hp hpu hpe.1 hpe.2) ⟨ha, hst⟩
    have h12 : h2 = h1 := by
      rw [hrun] at hrun2
      exact (Except.ok.inj hrun2).symm
    rw [h12] at hcnt
    refine ⟨(hev s hsC ⟨ha, hst⟩).1, hcnt, ?_⟩
    have hgo : runGo (GoCall.SetUserOffline (h.mem s).UserID) h1
        = SetUserOffline (h.mem s).UserID h1 := rfl
    rw [hgo, SetUserOffline_statusCalls, hS, hU]
  · intro u o ho hkeepo hdiff
    obtain ⟨h2, hrun2, hin2, hcnt⟩ := checkHeartbeats_no_offline_of_kept now h hs u o ho
      hkeepo (fun p hp hpu hpe => hdiff p hp hpu hpe.1 hpe.2)
    have h12 : h2 = h1 := by
      rw [hrun] at hrun2
      exact (Except.ok.inj hrun2).symm
    rw [h12] at hin2 hcnt
    exact ⟨hin2, hcnt⟩
  · intro s hsC ha
    exact hkeep s hsC (fun hx => by rw [hx.1] at ha; exact absurd ha (by simp))
  · intro u hnone
    obtain ⟨h2, hrun2, hcnt⟩ := checkHeartbeats_no_offline_of_none_evicted now h hs u hnone
    have h12 : h2 = h1 := by
      rw [hrun] at hrun2
      exact (Except.ok.inj hrun2).symm
    rw [h12] at hcnt
    exact hcnt

theorem heartbeat_offline_presence_witness :
    ∃ h, run awayThenOtherUser (NewHub abMem).SetStatusUpdater = .ok h ∧
      h.Clients = [1, 0] ∧ h.userClients "A" = [0] ∧ h.userClients "B" = [] ∧
      (h.mem 0).UserID = "A" ∧ (h.mem 1).UserID = "B" ∧
      (h.mem 0).IsActive = true ∧ (h.mem 1).IsActive = false ∧
      ∃ h1, checkHeartbeats 121000000000 h = .ok h1 ∧
        h1.statusCalls = h.statusCalls ∧ 0 ∉ h1.Clients ∧
        h1.spawned.count (GoCall.SetUserOffline "A")
          = h.spawned.count (GoCall.SetUserOffline "A") + 1 ∧
        (runGo (GoCall.SetUserOffline "A") h1).statusCalls
          = h.statusCalls ++ [StatusCall.SetUserOffline "A"] ∧
        1 ∈ h1.Clients ∧ h1.mem 1 = h.mem 1 ∧
        h1.spawned.count (GoCall.SetUserOffline "B")
          = h.spawned.count (GoCall.SetUserOffline "B") := by
  obtain ⟨h, hrun, hC, hA, hB, hu0, hu1, ha0, ha1, hp0, hT, hup⟩ :
      ∃ h, run awayThenOtherUser (NewHub abMem).SetStatusUpdater = .ok h ∧
        h.Clients = [1, 0] ∧ h.userClients "A" = [0] ∧ h.userClients "B" = [] ∧
        (h.mem 0).UserID = "A" ∧ (h.mem 1).UserID = "B" ∧
        (h.mem 0).IsActive = true ∧ (h.mem 1).IsActive = false ∧
        (h.mem 0).LastPingTime = 0 ∧ h.heartbeatTimeout = 120000000000 ∧
        h.hasStatusUpdater = true :=
    ⟨_, rfl, rfl, rfl, rfl, rfl, rfl, rfl, rfl, rfl, rfl, rfl⟩
  have hs : h.Sound := sound_run awayThenOtherUser (NewHub abMem).SetStatusUpdater h
    (SetStatusUpdater_sound (NewHub_sound abMem)) (by decide)
    (fun p _ => SetStatusUpdater_fresh
      (NewHub_fresh abMem p (abMem_open p).1 (abMem_open p).2)) hrun
  obtain ⟨h1, hrun1, hS, hone, -, hidle, hnone⟩ :=
    heartbeat_offline_presence 121000000000 h hs
  have hmem : ∀ p ∈ h.Clients, p = 1 ∨ p = 0 := by
    intro p hp
    rw [hC] at hp
    simpa using hp
  have h0 := hone 0 (by rw [hC]; simp) (by rw [hu0]; exact hA)
    (by
      intro p hp hpu _ _
      rcases hmem p hp with rfl | rfl
      · rw [hu1, hu0] at hpu
        exact absurd hpu (by decide)
      · rfl)
    ha0 (by rw [hp0, hT]; decide)
  rw [hu0, if_pos hup] at h0
  have h1x := hidle 1 (by rw [hC]; simp) ha1
  have hb := hnone "B" (by
    intro p hp hpu hpe
    rcases hmem p hp with rfl | rfl
    · rw [ha1] at hpe
      exact absurd hpe.1 (by simp)
    · rw [hu0] at hpu
      exact absurd hpu (by decide))
  exact ⟨h, hrun, hC, hA, hB, hu0, hu1, ha0, ha1, h1, hrun1, hS, h0.1, h0.2.1, h0.2.2,
    h1x.1, h1x.2, hb⟩

end Websocket

namespace Middleware

/-! ## The rate limiter -/

/-- What one run of the handler body does to the limiter and whether it admits. -/
theorem Middleware_spec (rl : RateLimiter) (k : String) (t : Int)
    (hW : -9223372036854775808 < rl.window) :
    ((rl.Middleware k t).2 =
        decide ((((rl.timesOf k).filter (fun x => decide (x > t - rl.window))).length : Int)
          < rl.limit)) ∧
      (rl.Middleware k t).1.limit = rl.limit ∧ (rl.Middleware k t).1.window = rl.window ∧
      (rl.Middleware k t).1.timesOf k =
        (rl.timesOf k).filter (fun x => decide (x > t - rl.window))
          ++ (if (rl.Middleware k t).2 then [t] else []) ∧
      (∀ k2, k2 ≠ k → (rl.Middleware k t).1.requests k2 = rl.requests k2) := by
  have hcut : t + negDuration rl.window = t - rl.window := by
    unfold negDuration
    rw [if_neg (by omega)]
    omega
  unfold RateLimiter.Middleware
  rw [hcut]
  cases hk : rl.requests k with
  | none =>
    have h0 : rl.timesOf k = [] := by simp [RateLimiter.timesOf, hk]
    simp only [h0, List.filter_nil, List.length_nil]
    by_cases hlim : ((0 : Nat) : Int) ≥ rl.limit
    · rw [if_pos hlim]
      refine ⟨?_, rfl, rfl, ?_, fun _ _ => rfl⟩
      · simp only [Bool.false_eq, decide_eq_false_iff_not, not_lt]; exact hlim
      · simp [h0]
    · rw [if_neg hlim]
      refine ⟨?_, rfl, rfl, ?_, ?_⟩
      · simp only [Bool.true_eq, decide_eq_true_eq]; exact not_le.mp hlim
      · simp [RateLimiter.timesOf]
      · intro k2 hk2
        simp [Function.update, hk2]
  | some times =>
    have h0 : rl.timesOf k = times := by simp [RateLimiter.timesOf, hk]
    have h1 : ({ rl with requests := (Function.update rl.requests k
          (some (times.filter (fun x => decide (x > t - rl.window))))) } : RateLimiter).timesOf k
        = times.filter (fun x => decide (x > t - rl.window)) := by
      simp [RateLimiter.timesOf]
    simp only [h0, h1]
    by_cases hlim : (((times.filter (fun x => decide (x > t - rl.window))).length : Nat) : Int)
        ≥ rl.limit
    · rw [if_pos hlim]
      refine ⟨?_, rfl, rfl, ?_, ?_⟩
      · simp only [Bool.false_eq, decide_eq_false_iff_not, not_lt]; exact hlim
      · simp [h1]
      · intro k2 hk2
        simp [Function.update, hk2]
    · rw [if_neg hlim]
      refine ⟨?_, rfl, rfl, ?_, ?_⟩
      · simp only [Bool.true_eq, decide_eq_true_eq]; exact not_le.mp hlim
      · simp [RateLimiter.timesOf]
      · intro k2 hk2
        simp [Function.update, hk2]

theorem admittedTimes_append (adm : List (String × Int)) (r : String × Int) (k : String) :
    admittedTimes (adm ++ [r]) k
      = admittedTimes adm k ++ (if r.1 = k then [r.2] else []) := by
  unfold admittedTimes
  rw [List.filter_append, List.map_append]
  by_cases h : r.1 = k
  · simp [h]
  · simp [h]

theorem timesOf_eq_of_requests_eq {a b : RateLimiter} {k : String}
    (h : a.requests k = b.requests k) : a.timesOf k = b.timesOf k := by
  unfold RateLimiter.timesOf
  rw [h]

theorem filter_after_filter (l : List Int) (c d : Int) (hdc : d ≤ c) :
    (l.filter (fun x => decide (x > d))).filter (fun x => decide (x > c))
      = l.filter (fun x => decide (x > c)) := by
  rw [List.filter_filter]
  apply List.filter_congr
  intro x _
  by_cases hx : x > c
  · have hd : x > d := lt_of_le_of_lt hdc hx
    simp [hx, hd]
  · simp [hx]

/-- One served request keeps the agreement of limiter and log. -/
theorem Tracks_serveStep (L W T : Int) (hW : -9223372036854775808 < W)
    (s : RateLimiter × List (String × Int))
    (r : String × Int) (hs : Tracks L W T s) (hT : T ≤ r.2) :
    Tracks L W r.2 (serveStep s r) := by
  obtain ⟨hlim, hwin, hlen, htrack⟩ := hs
  obtain ⟨hdec, hlim1, hwin1, hown, hother⟩ := Middleware_spec s.1 r.1 r.2 (by rw [hwin]; exact hW)
  rw [hwin, hlim] at hdec
  rw [hwin] at hown
  refine ⟨by simp only [serveStep]; rw [hlim1, hlim],
    by simp only [serveStep]; rw [hwin1, hwin], ?_, ?_⟩
  · intro k
    simp only [serveStep]
    by_cases hk : k = r.1
    · subst hk
      rw [hown]
      cases hd : (s.1.Middleware r.1 r.2).2 with
      | true =>
        rw [hd] at hdec
        have hlt := of_decide_eq_true hdec.symm
        simp only [if_true, List.length_append, List.length_singleton, Nat.cast_add,
          Nat.cast_one]
        omega
      | false =>
        simp only [Bool.false_eq_true, if_false, List.append_nil]
        have h1 := List.length_filter_le (fun x => decide (x > r.2 - W)) (s.1.timesOf r.1)
        have h2 := hlen r.1
        omega
    · rw [timesOf_eq_of_requests_eq (hother k hk)]
      exact hlen k
  · intro k c hc
    simp only [serveStep]
    by_cases hk : k = r.1
    · subst hk
      rw [hown, List.filter_append, filter_after_filter _ _ _ hc,
        htrack r.1 c (by omega)]
      cases hd : (s.1.Middleware r.1 r.2).2 with
      | true =>
        simp only [if_true]
        rw [admittedTimes_append, List.filter_append]
        simp
      | false =>
        simp
    · rw [timesOf_eq_of_requests_eq (hother k hk), htrack k c (by omega)]
      cases hd : (s.1.Middleware r.1 r.2).2 with
      | true =>
        simp only [if_true]
        rw [admittedTimes_append, if_neg (fun hx => hk hx.symm), List.append_nil]
      | false => simp

theorem Tracks_mono (L W T T2 : Int) (s : RateLimiter × List (String × Int))
    (hs : Tracks L W T s) (hT : T ≤ T2) : Tracks L W T2 s :=
  ⟨hs.1, hs.2.1, hs.2.2.1, fun k c hc => hs.2.2.2 k c (by omega)⟩

/-- A sequence of requests with non-decreasing instants keeps the agreement. -/
theorem Tracks_foldl (L W : Int) (hW : -9223372036854775808 < W) :
    ∀ (reqs : List (String × Int))
    (s : RateLimiter × List (String × Int)) (T t : Int),
    Tracks L W T s → reqs.Pairwise (fun a b => a.2 ≤ b.2) →
    (∀ r ∈ reqs, T ≤ r.2 ∧ r.2 ≤ t) → T ≤ t →
    Tracks L W t (reqs.foldl serveStep s) := by
  intro reqs
  induction reqs with
  | nil =>
    intro s T t hs _ _ hTt
    exact Tracks_mono L W T t s hs hTt
  | cons r rest ih =>
    intro s T t hs hsorted hbounds hTt
    rw [List.foldl_cons]
    have hp := List.pairwise_cons.mp hsorted
    have hr := hbounds r (by simp)
    exact ih (serveStep s r) r.2 t (Tracks_serveStep L W T hW s r hs hr.1) hp.2
      (fun q hq => ⟨hp.1 q hq, (hbounds q (by simp [hq])).2⟩) hr.2

theorem Tracks_NewRateLimiter (L W T : Int) (hL : 0 ≤ L) :
    Tracks L W T (NewRateLimiter L W, []) := by
  refine ⟨rfl, rfl, ?_, ?_⟩
  · intro k
    simpa [RateLimiter.timesOf, NewRateLimiter] using hL
  · intro k c _
    simp [RateLimiter.timesOf, NewRateLimiter, admittedTimes]

/-- C28 (rate limiter bound).  Let a limiter be created with limit `L ≥ 0` and window
`W` (a duration whose negation does not overflow), and let it serve the requests `pre`
and then the request from `k` at `t`, the instants of the whole sequence
non-decreasing.  The request from `k` at `t` is passed to
the next handler if and only if fewer than `L` of the requests from `k` admitted before
have an instant strictly after `t - W`.  Afterwards no key has more than `L` stored
instants; if the request was rejected, the log of admitted requests is unchanged and the
stored instants of `k` are the earlier ones after the cutoff, without `t`; and the
stored instants of every other key are unchanged. -/
theorem rateLimiter_admits_below_limit (L W : Int) (hL : 0 ≤ L)
    (hW : -9223372036854775808 < W) (pre : List (String × Int)) (k : String) (t : Int)
    (hsorted : (pre ++ [(k, t)]).Pairwise (fun a b => a.2 ≤ b.2)) :
    (((serve (NewRateLimiter L W) pre).1.Middleware k t).2 = true ↔
        (recentCount (serve (NewRateLimiter L W) pre).2 k (t - W) : Int) < L) ∧
      (∀ k2, (((serve (NewRateLimiter L W) (pre ++ [(k, t)])).1.timesOf k2).length : Int) ≤ L) ∧
      (((serve (NewRateLimiter L W) pre).1.Middleware k t).2 = false →
        (serve (NewRateLimiter L W) (pre ++ [(k, t)])).2 = (serve (NewRateLimiter L W) pre).2 ∧
        (serve (NewRateLimiter L W) (pre ++ [(k, t)])).1.timesOf k
          = ((serve (NewRateLimiter L W) pre).1.timesOf k).filter
              (fun x => decide (x > t - W))) ∧
      (∀ k2, k2 ≠ k →
        (serve (NewRateLimiter L W) (pre ++ [(k, t)])).1.requests k2
          = (serve (NewRateLimiter L W) pre).1.requests k2) := by
  have hp := List.pairwise_append.mp hsorted
  have hle : ∀ r ∈ pre, r.2 ≤ t := fun r hr => hp.2.2 r hr (k, t) (by simp)
  have hstep : serve (NewRateLimiter L W) (pre ++ [(k, t)])
      = serveStep (serve (NewRateLimiter L W) pre) (k, t) := by
    simp [serve, List.foldl_append]
  have hT : ∃ T, T ≤ t ∧ ∀ r ∈ pre, T ≤ r.2 ∧ r.2 ≤ t := by
    cases hpre : pre with
    | nil => exact ⟨t, le_refl t, by simp⟩
    | cons r0 rest =>
      refine ⟨r0.2, ?_, ?_⟩
      · exact hle r0 (by simp [hpre])
      · intro r hr
        have hsort : (r0 :: rest).Pairwise (fun a b => a.2 ≤ b.2) := by
          rw [← hpre]; exact hp.1
        rcases List.mem_cons.mp hr with h0 | h1
        · rw [h0]; exact ⟨le_refl _, hle r0 (by simp [hpre])⟩
        · exact ⟨(List.pairwise_cons.mp hsort).1 r h1, hle r (by simp [hpre, h1])⟩
  obtain ⟨T, hTt, hbounds⟩ := hT
  have htr : Tracks L W t (serve (NewRateLimiter L W) pre) :=
    Tracks_foldl L W hW pre _ T t (Tracks_NewRateLimiter L W T hL) hp.1 hbounds hTt
  have htr2 : Tracks L W t (serve (NewRateLimiter L W) (pre ++ [(k, t)])) := by
    rw [hstep]
    exact Tracks_serveStep L W t hW _ (k, t) htr (le_refl t)
  obtain ⟨hdec, -, -, hown, hother⟩ :=
    Middleware_spec (serve (NewRateLimiter L W) pre).1 k t (by rw [htr.2.1]; exact hW)
  rw [htr.2.1] at hdec hown
  rw [htr.1] at hdec
  refine ⟨?_, htr2.2.2.1, ?_, ?_⟩
  · rw [hdec, decide_eq_true_eq, htr.2.2.2 k (t - W) (le_refl _)]
    rfl
  · intro hrej
    rw [hstep]
    simp only [serveStep, hrej, Bool.false_eq_true, if_false]
    rw [hown, hrej]
    simp
  · intro k2 hk2
    rw [hstep]
    exact hother k2 hk2

theorem rateLimiter_admits_below_limit_witness :
    (((serve (NewRateLimiter 2 10) [("a", 0), ("a", 1), ("b", 2)]).1.Middleware "a" 3).2 = true ↔
        (recentCount (serve (NewRateLimiter 2 10) [("a", 0), ("a", 1), ("b", 2)]).2 "a" (3 - 10)
          : Int) < 2) ∧
      (∀ k2, (((serve (NewRateLimiter 2 10)
          ([("a", 0), ("a", 1), ("b", 2)] ++ [("a", 3)])).1.timesOf k2).length : Int) ≤ 2) ∧
      (((serve (NewRateLimiter 2 10) [("a", 0), ("a", 1), ("b", 2)]).1.Middleware "a" 3).2 = false →
        (serve (NewRateLimiter 2 10) ([("a", 0), ("a", 1), ("b", 2)] ++ [("a", 3)])).2
          = (serve (NewRateLimiter 2 10) [("a", 0), ("a", 1), ("b", 2)]).2 ∧
        (serve (NewRateLimiter 2 10) ([("a", 0), ("a", 1), ("b", 2)] ++ [("a", 3)])).1.timesOf "a"
          = ((serve (NewRateLimiter 2 10) [("a", 0), ("a", 1), ("b", 2)]).1.timesOf "a").filter
              (fun x => decide (x > 3 - 10))) ∧
      (∀ k2, k2 ≠ "a" →
        (serve (NewRateLimiter 2 10) ([("a", 0), ("a", 1), ("b", 2)] ++ [("a", 3)])).1.requests k2
          = (serve (NewRateLimiter 2 10) [("a", 0), ("a", 1), ("b", 2)]).1.requests k2) :=
  rateLimiter_admits_below_limit 2 10 (by decide) (by decide)
    [("a", 0), ("a", 1), ("b", 2)] "a" 3 (by decide)

end Middleware

namespace Auth

/-! ## The base64 codec -/

set_option maxRecDepth 100000 in
theorem stdIndex_stdChar : ∀ n, n < 64 → stdIndex (stdChar n) = some n := by
  decide

set_option maxRecDepth 100000 in
theorem stdChar_ne_pad : ∀ n, n < 64 → stdChar n ≠ '=' := by
  decide

theorem stdChar_mem (n : Nat) : stdChar n ∈ encodeStd := by
  unfold stdChar
  by_cases h : n < encodeStd.length
  · rw [List.getD_eq_getElem _ _ h]
    exact List.getElem_mem h
  · rw [List.getD_eq_default _ _ (not_lt.mp h)]
    decide

theorem stdEncode_eq_body (d : Bytes) :
    stdEncode d = stdBody d ++ List.replicate (stdPadding d) '=' := by
  induction d using stdEncode.induct with
  | case1 b0 b1 b2 rest ih => simp [stdEncode, stdBody, stdPadding, ih]
  | case2 b0 b1 => simp [stdEncode, stdBody, stdPadding]
  | case3 b0 => simp [stdEncode, stdBody, stdPadding, List.replicate]
  | case4 => simp [stdEncode, stdBody, stdPadding]

theorem stdBody_mem (d : Bytes) : ∀ c ∈ stdBody d, c ∈ encodeStd := by
  induction d using stdEncode.induct with
  | case1 b0 b1 b2 rest ih =>
    intro c hc
    simp only [stdBody, List.mem_cons] at hc
    rcases hc with h | h | h | h | h
    · rw [h]; exact stdChar_mem _
    · rw [h]; exact stdChar_mem _
    · rw [h]; exact stdChar_mem _
    · rw [h]; exact stdChar_mem _
    · exact ih c h
  | case2 b0 b1 =>
    intro c hc
    simp only [stdBody, List.mem_cons, List.not_mem_nil, or_false] at hc
    rcases hc with h | h | h
    · rw [h]; exact stdChar_mem _
    · rw [h]; exact stdChar_mem _
    · rw [h]; exact stdChar_mem _
  | case3 b0 =>
    intro c hc
    simp only [stdBody, List.mem_cons, List.not_mem_nil, or_false] at hc
    rcases hc with h | h
    · rw [h]; exact stdChar_mem _
    · rw [h]; exact stdChar_mem _
  | case4 => intro c hc; simp [stdBody] at hc

/-- Decoding in groups of four gives the bytes of an encoding back. -/
theorem decodeQuanta_stdEncode (d : Bytes) (hd : ∀ b ∈ d, b < 256) :
    decodeQuanta (stdEncode d) = some d := by
  induction d using stdEncode.induct with
  | case1 b0 b1 b2 rest ih =>
    have h0 : b0 < 256 := hd b0 (by simp)
    have h1 : b1 < 256 := hd b1 (by simp)
    have h2 : b2 < 256 := hd b2 (by simp)
    have hrest := ih (fun b hb => hd b (by simp [hb]))
    have hne : stdChar (b2 % 64) ≠ '=' := stdChar_ne_pad _ (by omega)
    simp only [stdEncode, decodeQuanta]
    rw [if_neg (fun hx => hne hx.2)]
    rw [stdIndex_stdChar _ (by omega), stdIndex_stdChar _ (by omega),
      stdIndex_stdChar _ (by omega), stdIndex_stdChar _ (by omega), hrest]
    simp only [Option.some.injEq, List.cons.injEq, and_true]
    refine ⟨by omega, by omega, by omega⟩
  | case2 b0 b1 =>
    have h0 : b0 < 256 := hd b0 (by simp)
    have h1 : b1 < 256 := hd b1 (by simp)
    have hne : stdChar (b1 % 16 * 4) ≠ '=' := stdChar_ne_pad _ (by omega)
    simp only [stdEncode, decodeQuanta]
    rw [stdIndex_stdChar _ (by omega), stdIndex_stdChar _ (by omega),
      stdIndex_stdChar _ (by omega)]
    simp only [hne, and_self, if_true, if_false, Option.some.injEq, List.cons.injEq, and_true]
    refine ⟨by omega, by omega⟩
  | case3 b0 =>
    have h0 : b0 < 256 := hd b0 (by simp)
    simp only [stdEncode, decodeQuanta]
    rw [stdIndex_stdChar _ (by omega), stdIndex_stdChar _ (by omega)]
    simp only [and_self, if_true, Option.some.injEq, List.cons.injEq, and_true]
    omega
  | case4 => rfl

theorem isLineBreak_alphabet : ∀ c ∈ encodeStd, isLineBreak c = false := by
  decide

/-- The encoder writes no line break. -/
theorem stdEncode_no_lineBreak (d : Bytes) : ∀ c ∈ stdEncode d, isLineBreak c = false := by
  intro c hc
  rw [stdEncode_eq_body, List.mem_append] at hc
  rcases hc with hc | hc
  · exact isLineBreak_alphabet c (stdBody_mem d c hc)
  · rw [List.eq_of_mem_replicate hc]
    decide

/-- The codec of the standard library: decoding an encoding gives the bytes back. -/
theorem stdDecode_stdEncode (d : Bytes) (hd : ∀ b ∈ d, b < 256) :
    stdDecode (stdEncode d) = some d := by
  unfold stdDecode
  rw [List.filter_eq_self.mpr (fun c hc => by simp [stdEncode_no_lineBreak d c hc])]
  exact decodeQuanta_stdEncode d hd

theorem replaceAll_append (a b : List Char) (old new : Char) :
    replaceAll (a ++ b) old new = replaceAll a old new ++ replaceAll b old new := by
  simp [replaceAll]

theorem replaceAll_pad (n : Nat) (old new : Char) (h : '=' ≠ old) :
    replaceAll (List.replicate n '=') old new = List.replicate n '=' := by
  simp [replaceAll, h]

theorem dropWhile_replicate_append (p : Char → Bool) (a : Char) (ha : p a = true) :
    ∀ (n : Nat) (l : List Char),
      (List.replicate n a ++ l).dropWhile p = l.dropWhile p := by
  intro n
  induction n with
  | zero => intro l; simp
  | succ n ih =>
    intro l
    rw [List.replicate_succ, List.cons_append, List.dropWhile_cons_of_pos ha]
    exact ih l

theorem dropWhile_of_all_neg (p : Char → Bool) :
    ∀ (l : List Char), (∀ c ∈ l, p c = false) → l.dropWhile p = l := by
  intro l hl
  cases l with
  | nil => rfl
  | cons a t =>
    have ha : ¬ (p a = true) := by rw [hl a (by simp)]; simp
    exact List.dropWhile_cons_of_neg ha

/-- Trimming the padding: `strings.TrimRight(s, "=")` on text without `=` followed by
padding returns the text. -/
theorem trimRight_append_pad (l : List Char) (n : Nat) (hl : ∀ c ∈ l, c ≠ '=') :
    trimRight (l ++ List.replicate n '=') '=' = l := by
  unfold trimRight
  rw [List.reverse_append, List.reverse_replicate,
    dropWhile_replicate_append _ '=' (by simp),
    dropWhile_of_all_neg _ _ (by
      intro c hc
      have := hl c (List.mem_reverse.mp hc)
      simp [this]),
    List.reverse_reverse]

set_option maxRecDepth 100000 in
/-- The two replacements of `base64URLEncode` on a character of the standard alphabet
give a character other than `+`, `/`, `=` and `.`, and the two replacements of
`base64URLDecode` give the character back. -/
theorem urlChar_facts : ∀ c ∈ encodeStd,
    (if (if c = '+' then '-' else c) = '/' then '_' else (if c = '+' then '-' else c)) ≠ '+' ∧
    (if (if c = '+' then '-' else c) = '/' then '_' else (if c = '+' then '-' else c)) ≠ '/' ∧
    (if (if c = '+' then '-' else c) = '/' then '_' else (if c = '+' then '-' else c)) ≠ '=' ∧
    (if (if c = '+' then '-' else c) = '/' then '_' else (if c = '+' then '-' else c)) ≠ '.' ∧
    (if (if (if (if c = '+' then '-' else c) = '/' then '_' else (if c = '+' then '-' else c))
          = '-' then '+'
        else (if (if c = '+' then '-' else c) = '/' then '_' else (if c = '+' then '-' else c)))
        = '_' then '/'
      else (if (if (if c = '+' then '-' else c) = '/' then '_' else (if c = '+' then '-' else c))
          = '-' then '+'
        else (if (if c = '+' then '-' else c) = '/' then '_' else (if c = '+' then '-' else c))))
      = c := by
  decide

theorem stdBody_length_padding (d : Bytes) :
    ((stdBody d).length % 4 = 0 ∧ stdPadding d = 0) ∨
    ((stdBody d).length % 4 = 3 ∧ stdPadding d = 1) ∨
    ((stdBody d).length % 4 = 2 ∧ stdPadding d = 2) := by
  induction d using stdEncode.induct with
  | case1 b0 b1 b2 rest ih =>
    simp only [stdBody, stdPadding, List.length_cons]
    omega
  | case2 b0 b1 => simp [stdBody, stdPadding]
  | case3 b0 => simp [stdBody, stdPadding]
  | case4 => simp [stdBody, stdPadding]

/-- The value of `base64URLEncode`: the characters of the standard encoding without the
padding, with `+` and `/` replaced. -/
theorem base64URLEncode_eq (d : Bytes) :
    base64URLEncode d = replaceAll (replaceAll (stdBody d) '+' '-') '/' '_' := by
  unfold base64URLEncode
  simp only
  rw [stdEncode_eq_body, replaceAll_append, replaceAll_append,
    replaceAll_pad _ _ _ (by decide), replaceAll_pad _ _ _ (by decide)]
  apply trimRight_append_pad
  intro c hc
  simp only [replaceAll, List.map_map, List.mem_map, Function.comp] at hc
  obtain ⟨a, ha, hac⟩ := hc
  rw [← hac]
  exact (urlChar_facts a (stdBody_mem d a ha)).2.2.1

/-- Decoding what `base64URLEncode` returns gives the bytes back. -/
theorem base64URLDecode_base64URLEncode (d : Bytes) (hd : ∀ b ∈ d, b < 256) :
    base64URLDecode (base64URLEncode d) = some d := by
  have hlen : (base64URLEncode d).length = (stdBody d).length := by
    rw [base64URLEncode_eq]; simp [replaceAll]
  have hpad : (if 4 - (base64URLEncode d).length % 4 < 4 then
        base64URLEncode d ++ List.replicate (4 - (base64URLEncode d).length % 4) '='
      else base64URLEncode d)
      = base64URLEncode d ++ List.replicate (stdPadding d) '=' := by
    rw [hlen]
    rcases stdBody_length_padding d with ⟨h1, h2⟩ | ⟨h1, h2⟩ | ⟨h1, h2⟩
    · rw [h1, h2]; simp
    · rw [h1, h2]; rfl
    · rw [h1, h2]; rfl
  have hback : replaceAll (replaceAll (base64URLEncode d) '-' '+') '_' '/' = stdBody d := by
    rw [base64URLEncode_eq]
    simp only [replaceAll, List.map_map]
    conv_rhs => rw [← List.map_id (stdBody d)]
    apply List.map_congr_left
    intro a ha
    simp only [Function.comp, id]
    exact (urlChar_facts a (stdBody_mem d a ha)).2.2.2.2
  unfold base64URLDecode
  simp only
  rw [hpad, replaceAll_append, replaceAll_append, replaceAll_pad _ _ _ (by decide),
    replaceAll_pad _ _ _ (by decide), hback, ← stdEncode_eq_body]
  exact stdDecode_stdEncode d hd

/-- The characters of what `base64URLEncode` returns. -/
theorem base64URLEncode_chars (d : Bytes) :
    ∀ c ∈ base64URLEncode d, c ≠ '+' ∧ c ≠ '/' ∧ c ≠ '=' ∧ c ≠ '.' := by
  intro c hc
  rw [base64URLEncode_eq] at hc
  simp only [replaceAll, List.map_map, List.mem_map, Function.comp] at hc
  obtain ⟨a, ha, hac⟩ := hc
  rw [← hac]
  have hf := urlChar_facts a (stdBody_mem d a ha)
  exact ⟨hf.1, hf.2.1, hf.2.2.1, hf.2.2.2.1⟩

/-- C30 (base64url round trip).  For every byte sequence `d`, `base64URLDecode` of
`base64URLEncode(d)` succeeds and returns `d`, and `base64URLEncode(d)` contains none of
the characters `+`, `/`, `=` and `.`. -/
theorem base64URL_round_trip (d : Bytes) (hd : ∀ b ∈ d, b < 256) :
    base64URLDecode (base64URLEncode d) = some d ∧
      ∀ c ∈ base64URLEncode d, c ≠ '+' ∧ c ≠ '/' ∧ c ≠ '=' ∧ c ≠ '.' :=
  ⟨base64URLDecode_base64URLEncode d hd, base64URLEncode_chars d⟩

theorem base64URL_round_trip_witness :
    (∀ b ∈ [251, 255, 190, 0, 62], b < 256) ∧
      base64URLEncode [251, 255, 190, 0, 62] = "-_--AD4".toList ∧
      base64URLDecode (base64URLEncode [251, 255, 190, 0, 62]) = some [251, 255, 190, 0, 62] ∧
      ∀ c ∈ base64URLEncode [251, 255, 190, 0, 62], c ≠ '+' ∧ c ≠ '/' ∧ c ≠ '=' ∧ c ≠ '.' :=
  ⟨by decide, by decide,
    (base64URL_round_trip [251, 255, 190, 0, 62] (by decide)).1,
    (base64URL_round_trip [251, 255, 190, 0, 62] (by decide)).2⟩

/-! ## Tokens -/

theorem Split_of_no_sep (sep : Char) : ∀ (a : List Char), sep ∉ a → Split a sep = [a] := by
  intro a
  induction a with
  | nil => intro _; rfl
  | cons c cs ih =>
    intro h
    have hc : c ≠ sep := fun hx => h (by rw [hx]; simp)
    have hcs : sep ∉ cs := fun hx => h (List.mem_cons_of_mem _ hx)
    simp only [Split, hc, if_false, ih hcs]

theorem Split_append_sep (sep : Char) : ∀ (a rest : List Char), sep ∉ a →
    Split (a ++ [sep] ++ rest) sep = a :: Split rest sep := by
  intro a
  induction a with
  | nil => intro rest _; simp [Split]
  | cons c cs ih =>
    intro rest h
    have hc : c ≠ sep := fun hx => h (by rw [hx]; simp)
    have hcs : sep ∉ cs := fun hx => h (List.mem_cons_of_mem _ hx)
    have e : (c :: cs) ++ [sep] ++ rest = c :: (cs ++ [sep] ++ rest) := rfl
    rw [e]
    simp only [Split, hc, if_false]
    rw [ih rest hcs]

theorem base64URLEncode_no_dot (d : Bytes) : '.' ∉ base64URLEncode d :=
  fun h => (base64URLEncode_chars d '.' h).2.2.2 rfl

/-- The parts of a token built from three base64url texts. -/
theorem Split_token (a b c : Bytes) :
    Split (base64URLEncode a ++ ['.'] ++ base64URLEncode b ++ ['.'] ++ base64URLEncode c) '.'
      = [base64URLEncode a, base64URLEncode b, base64URLEncode c] := by
  have h1 : base64URLEncode a ++ ['.'] ++ base64URLEncode b ++ ['.'] ++ base64URLEncode c
      = base64URLEncode a ++ ['.'] ++ (base64URLEncode b ++ ['.'] ++ base64URLEncode c) := by
    simp
  rw [h1, Split_append_sep _ _ _ (base64URLEncode_no_dot a),
    Split_append_sep _ _ _ (base64URLEncode_no_dot b),
    Split_of_no_sep _ _ (base64URLEncode_no_dot c)]

theorem Unix_mono {a b : Int} (h : a ≤ b) : Unix a ≤ Unix b :=
  Int.ediv_le_ediv (by norm_num) h

/-- The token that `GenerateToken` returns when `json.Marshal` succeeds. -/
theorem GenerateToken_ok (lib : StdLib) (g1 g2 g3 : Int) (userID : String)
    (config : JWTConfig) (hj cj : Bytes)
    (hheader : lib.marshalHeader = some hj)
    (hmarshal : lib.marshalClaims (issuedClaims g1 g2 g3 userID config) = some cj) :
    GenerateToken lib g1 g2 g3 userID config
      = .ok (base64URLEncode hj ++ ['.'] ++ base64URLEncode cj ++ ['.']
          ++ createSignature lib (base64URLEncode hj ++ ['.'] ++ base64URLEncode cj)
              config.SecretKey) := by
  unfold GenerateToken
  simp only [hheader, hmarshal]

/-- C29 (JWT round trip).  Let `json.Marshal` succeed on the header and on the claims that
`GenerateToken` builds for `userID` and `config`, let `json.Unmarshal` of the claims JSON
(a byte sequence) return those claims, let `TokenDuration ≥ 0`, and let the clock read
the same second when the expiry is set and checked and when not-before is set and
checked.  Then `GenerateToken` returns a token that `strings.Split` at `.` cuts into
exactly three parts; `ValidateToken` on it with the same configuration and no session
store returns claims whose `UserID` and `Subject` are `userID` and whose `Issuer` is
`config.Issuer`; and with a configuration whose secret key gives another signature of
the same input it fails with "invalid token signature". -/
theorem jwt_round_trip (lib : StdLib) (userID : String) (config : JWTConfig)
    (g1 g2 g3 v1 v2 v3 : Int) (hj cj : Bytes)
    (hdur : 0 ≤ config.TokenDuration)
    (hexp : Unix g1 = Unix v1) (hnbf : Unix g3 = Unix v2)
    (hheader : lib.marshalHeader = some hj)
    (hmarshal : lib.marshalClaims (issuedClaims g1 g2 g3 userID config) = some cj)
    (hbytes : ∀ b ∈ cj, b < 256)
    (hunmarshal : lib.unmarshalClaims cj = some (issuedClaims g1 g2 g3 userID config)) :
    ∃ token, GenerateToken lib g1 g2 g3 userID config = .ok token ∧
      (Split token '.').length = 3 ∧
      (∃ claims, ValidateToken lib v1 v2 v3 token config none = .ok claims ∧
        claims.UserID = userID ∧ claims.Subject = userID ∧ claims.Issuer = config.Issuer) ∧
      (∀ config2 : JWTConfig,
        createSignature lib (base64URLEncode hj ++ ['.'] ++ base64URLEncode cj)
            config2.SecretKey
          ≠ createSignature lib (base64URLEncode hj ++ ['.'] ++ base64URLEncode cj)
            config.SecretKey →
        ValidateToken lib v1 v2 v3 token config2 none
          = .error (TokenError.new "invalid token signature")) := by
  have hsplit : Split (base64URLEncode hj ++ ['.'] ++ base64URLEncode cj ++ ['.']
        ++ createSignature lib (base64URLEncode hj ++ ['.'] ++ base64URLEncode cj)
            config.SecretKey) '.'
      = [base64URLEncode hj, base64URLEncode cj,
          createSignature lib (base64URLEncode hj ++ ['.'] ++ base64URLEncode cj)
            config.SecretKey] :=
    Split_token hj cj _
  refine ⟨_, GenerateToken_ok lib g1 g2 g3 userID config hj cj hheader hmarshal, ?_, ?_, ?_⟩
  · rw [hsplit]; rfl
  · refine ⟨issuedClaims g1 g2 g3 userID config, ?_, rfl, rfl, rfl⟩
    have hnotexp : ¬ ((issuedClaims g1 g2 g3 userID config).ExpiresAt < Unix v1) := by
      have h1 : Unix g1 ≤ Unix (g1 + config.TokenDuration) := Unix_mono (by omega)
      have h2 : (issuedClaims g1 g2 g3 userID config).ExpiresAt
          = Unix (g1 + config.TokenDuration) := rfl
      rw [h2, ← hexp]
      omega
    have hnotnbf : ¬ ((issuedClaims g1 g2 g3 userID config).NotBefore > Unix v2) := by
      have h2 : (issuedClaims g1 g2 g3 userID config).NotBefore = Unix g3 := rfl
      rw [h2, hnbf]
      omega
    unfold ValidateToken
    rw [hsplit]
    simp only [ne_eq, not_true_eq_false, if_false,
      base64URLDecode_base64URLEncode cj hbytes, hunmarshal, hnotexp, hnotnbf]
  · intro config2 hne
    unfold ValidateToken
    rw [hsplit]
    simp only [ne_eq]
    rw [if_pos (fun hx => hne hx.symm)]

set_option maxRecDepth 100000 in
theorem jwt_round_trip_witness :
    ∃ token, GenerateToken demoLib 5 6 7 "u1"
        { SecretKey := "k1", TokenDuration := 3600000000000, Issuer := "social" } = .ok token ∧
      (Split token '.').length = 3 ∧
      (∃ claims, ValidateToken demoLib 999999999 999999998 0 token
          { SecretKey := "k1", TokenDuration := 3600000000000, Issuer := "social" } none
          = .ok claims ∧
        claims.UserID = "u1" ∧ claims.Subject = "u1" ∧ claims.Issuer = "social") ∧
      (∀ config2 : JWTConfig,
        createSignature demoLib (base64URLEncode demoHeaderJSON ++ ['.']
            ++ base64URLEncode (demoClaimsJSON demoClaims)) config2.SecretKey
          ≠ createSignature demoLib (base64URLEncode demoHeaderJSON ++ ['.']
            ++ base64URLEncode (demoClaimsJSON demoClaims)) "k1" →
        ValidateToken demoLib 999999999 999999998 0 token config2 none
          = .error (TokenError.new "invalid token signature")) :=
  jwt_round_trip demoLib "u1"
    { SecretKey := "k1", TokenDuration := 3600000000000, Issuer := "social" }
    5 6 7 999999999 999999998 0 demoHeaderJSON (demoClaimsJSON demoClaims)
    (by decide) (by decide) (by decide) rfl rfl (by decide) (by decide)

end Auth

